import Mathlib

/-!
Spartan / Sparrow: master-side worker bookkeeping, the partitioned table and array extents.

Shallow embedding of

* `src/spartan/master.h`  : `TaskState`, `WorkerState` (the per-worker task maps), `RunDescriptor`;
* `src/src/sparrow/table.h` : `Table` / `TableT<K, V>` (shard routing, put / update / get, flush);
* `src/spartan/array/cextent.cc` : extents (`extent_create`, positions, offsets).

`std::map<ShardId, TaskState>` is a list of entries kept in strictly ascending key order;
`boost::unordered_map<K, V>` is a list of entries with pairwise distinct keys.  The functions
below do not require their inputs to be well formed; the well-formedness predicates are stated
separately and shown to be preserved.
-/

namespace Spartan

/-! ## master.h : ShardId, TaskState, TaskMap -/

/-- The pair (table id, shard index): `typedef std::pair<int, int> ShardId`. -/
abbrev ShardId := Int × Int

/-- The ordering of `std::pair`: lexicographic, first component first. -/
def ShardId.lt (a b : ShardId) : Prop :=
  a.1 < b.1 ∨ (a.1 = b.1 ∧ a.2 < b.2)

instance ShardId.decLt (a b : ShardId) : Decidable (ShardId.lt a b) := by
  unfold ShardId.lt
  exact inferInstance

/-- The class `TaskState` of master.h. -/
structure TaskState where
  id : ShardId
  size : Int
  stolen : Bool
deriving DecidableEq, Repr

/-- The constructor `TaskState()`: `size(-1), stolen(false)`, the id value-initialised. -/
def TaskState.dflt : TaskState := { id := (0, 0), size := -1, stolen := false }

/-- The constructor `TaskState(ShardId id, int64_t size)`: `id(id), size(size), stolen(false)`. -/
def TaskState.ofId (id : ShardId) (size : Int) : TaskState :=
  { id := id, size := size, stolen := false }

/-- The type `std::map<ShardId, TaskState>`, entries in ascending key order. -/
abbrev TaskMap := List (ShardId × TaskState)

namespace TaskMap

/-- The keys of a map, in iteration order. -/
def keys (m : TaskMap) : List ShardId := m.map Prod.fst

/-- Well-formedness of a `std::map`: keys strictly ascending. -/
def Sorted (m : TaskMap) : Prop := List.Pairwise (fun a b => ShardId.lt a.1 b.1) m

instance (m : TaskMap) : Decidable (Sorted m) := by
  unfold Sorted
  exact inferInstance

/-- The lookup `m.find(k)`: the mapped value, `none` for `m.end()`. -/
def find (m : TaskMap) (k : ShardId) : Option TaskState :=
  match m with
  | [] => none
  | (k', v) :: rest => if k' = k then some v else find rest k

/-- The assignment `m[k] = v`: overwrite the entry of `k`, or insert it at its place in key order. -/
def insert (m : TaskMap) (k : ShardId) (v : TaskState) : TaskMap :=
  match m with
  | [] => [(k, v)]
  | (k', v') :: rest =>
    if ShardId.lt k k' then (k, v) :: (k', v') :: rest
    else if k' = k then (k, v) :: rest
    else (k', v') :: insert rest k v

/-- The read `m[k]`: the mapped value; an absent key is first inserted with `TaskState()`. -/
def index (m : TaskMap) (k : ShardId) : TaskState × TaskMap :=
  match find m k with
  | some v => (v, m)
  | none => (TaskState.dflt, insert m k TaskState.dflt)

/-- The call `m.erase(m.find(k))` for a key that is found: drop the entry of `k`. -/
def erase (m : TaskMap) (k : ShardId) : TaskMap :=
  match m with
  | [] => []
  | (k', v) :: rest => if k' = k then rest else (k', v) :: erase rest k

end TaskMap

/-! ## master.h : RunDescriptor, RunKernelReq, WorkerState -/

/-- The struct `RunDescriptor`; `table_id` stands for `table->id()`, the only use made of `table`. -/
structure RunDescriptor where
  table_id : Int
  kernel_id : Int
  args : List (String × String)
  shards : List Int
deriving DecidableEq, Repr

/-- The message `RunKernelReq{kernel, table, shard, args}`. -/
structure RunKernelReq where
  kernel : Int
  table : Int
  shard : Int
  args : List (String × String)
deriving DecidableEq, Repr

/-- The class `WorkerState`: the three task maps, the owned shard set and the scalar fields.
The clock fields (`last_ping_time`, `total_runtime`), the proxy, the address and the mutex
play no part in the task maps and are left out. -/
structure WorkerState where
  pending : TaskMap
  active : TaskMap
  finished : TaskMap
  shards : List ShardId
  status : Int
  id : Int
  alive : Bool
deriving DecidableEq, Repr

namespace WorkerState

/-- The constructor `WorkerState(w_id, addr)`: empty maps, `alive = true`, `status = 0`. -/
def new (w_id : Int) : WorkerState :=
  { pending := [], active := [], finished := [], shards := [],
    status := 0, id := w_id, alive := true }

/-- The method `is_assigned(id)`: `pending.find(id) != pending.end()`. -/
def is_assigned (w : WorkerState) (id : ShardId) : Bool :=
  (w.pending.find id).isSome

/-- The method `serves_shard(shard)`: some owned ShardId has `second == shard`. -/
def serves_shard (w : WorkerState) (shard : Int) : Bool :=
  w.shards.any (fun sid => sid.2 == shard)

/-- The method `assign_task(id)`: `pending[id] = TaskState(id, 1)`. -/
def assign_task (w : WorkerState) (id : ShardId) : WorkerState :=
  { w with pending := w.pending.insert id (TaskState.ofId id 1) }

/-- The method `remove_task(id)`: `pending.erase(pending.find(id))`.  Erasing `pending.end()`
(an id that is not pending) is undefined behaviour: `none`. -/
def remove_task (w : WorkerState) (id : ShardId) : Option WorkerState :=
  match w.pending.find id with
  | none => none
  | some _ => some { w with pending := w.pending.erase id }

/-- The method `clear_tasks()`: `CHECK(active.empty())`, then the three maps are cleared.
A failed CHECK aborts: `none`. -/
def clear_tasks (w : WorkerState) : Option WorkerState :=
  if w.active.isEmpty then
    some { w with pending := [], active := [], finished := [] }
  else none

/-- The method `set_finished(id)`: `finished[id] = active[id]; active.erase(active.find(id))`. -/
def set_finished (w : WorkerState) (id : ShardId) : WorkerState :=
  let r := w.active.index id
  { w with finished := w.finished.insert id r.1, active := r.2.erase id }

/-- The method `get_next(r, msg)`: returns the flag, the new state and the contents of `*msg`. -/
def get_next (w : WorkerState) (r : RunDescriptor) (msg : RunKernelReq) :
    Bool × WorkerState × RunKernelReq :=
  match w.pending with
  | [] => (false, w, msg)
  | (_, state) :: rest =>
    if !w.active.isEmpty then (false, w, msg)
    else
      (true,
       { w with active := w.active.insert state.id state, pending := rest },
       { kernel := r.kernel_id, table := r.table_id, shard := state.id.2, args := r.args })

/-- The method `num_assigned()`. -/
def num_assigned (w : WorkerState) : Nat :=
  w.pending.length + w.active.length + w.finished.length

/-- The method `num_pending()`. -/
def num_pending (w : WorkerState) : Nat := w.pending.length

end WorkerState

/-- States reachable from a freshly constructed `WorkerState` by its methods, where
`assign_task id` is applied in states satisfying `assignOk` and `set_finished id` in states
satisfying `finishOk`; `remove_task` and `clear_tasks` are applied where they are defined. -/
inductive ReachableBy (assignOk finishOk : WorkerState → ShardId → Prop) : WorkerState → Prop
  | fresh (w_id : Int) : ReachableBy assignOk finishOk (WorkerState.new w_id)
  | assign_task {w : WorkerState} (id : ShardId) :
      ReachableBy assignOk finishOk w → assignOk w id →
      ReachableBy assignOk finishOk (w.assign_task id)
  | remove_task {w w' : WorkerState} (id : ShardId) :
      ReachableBy assignOk finishOk w → w.remove_task id = some w' →
      ReachableBy assignOk finishOk w'
  | get_next {w : WorkerState} (r : RunDescriptor) (msg : RunKernelReq) :
      ReachableBy assignOk finishOk w →
      ReachableBy assignOk finishOk (w.get_next r msg).2.1
  | set_finished {w : WorkerState} (id : ShardId) :
      ReachableBy assignOk finishOk w → finishOk w id →
      ReachableBy assignOk finishOk (w.set_finished id)
  | clear_tasks {w w' : WorkerState} :
      ReachableBy assignOk finishOk w → w.clear_tasks = some w' →
      ReachableBy assignOk finishOk w'

/-- The dispatch loop of one worker: a round is `get_next` followed by `set_finished` on the id
that `get_next` put in `active`; the loop ends when `get_next` returns false.  Returns the number
of rounds and the final state, `none` when the fuel runs out first. -/
def drain (r : RunDescriptor) (msg : RunKernelReq) : Nat → WorkerState → Option (Nat × WorkerState)
  | 0, _ => none
  | fuel + 1, w =>
    match w.get_next r msg with
    | (false, w1, _) => some (0, w1)
    | (true, w1, msg1) =>
      match w1.active with
      | [] => none
      | (id, _) :: _ =>
        match drain r msg1 fuel (w1.set_finished id) with
        | none => none
        | some (n, w2) => some (n + 1, w2)

/-! ## table.h : messages and collaborators -/

/-- Modelled from the spec: the message `PartitionInfo` (declared in sparrow.pb.h, which is not
among the sources): `shard`, `owner`, `entries`, `dirty`, `tainted`. -/
structure PartitionInfo where
  shard : Nat
  owner : Int
  entries : Int
  dirty : Bool
  tainted : Bool
deriving DecidableEq, Repr, Inhabited

/-- Modelled from the spec: the message `TableData` (declared in sparrow.pb.h, which is not among
the sources): `table`, `shard`, `source`, `epoch`, repeated `kv_data{key, value}`, `done`, and the
`missing_key` flag of a Get reply.  Keys and values are kept typed: the byte codec
(`val::to_str` / `val::from_str`) is a collaborator with `from_str (to_str x) = x`. -/
structure TableData (K V : Type) where
  table : Int
  shard : Nat
  source : Int
  epoch : Int
  kv_data : List (K × V)
  done : Bool
  missing_key : Bool
deriving DecidableEq, Repr

/-- Modelled from the spec: the message `HashGet{table, shard, key}` (sparrow.pb.h). -/
structure HashGet (K : Type) where
  key : K
  table : Int
  shard : Nat
deriving DecidableEq, Repr

/-- A message handed to the network thread: `Send(dest, PUT_REQUEST, put)`. -/
structure PutSent (K V : Type) where
  dest : Int
  put : TableData K V
deriving DecidableEq, Repr

/-- A synchronous request handed to the network thread: `Call(dest, GET, req, &resp)`. -/
structure GetCall (K : Type) where
  dest : Int
  req : HashGet K
deriving DecidableEq, Repr

/-- The values `helper()->id()` and `helper()->epoch()` of the `TableHelper` a table points to. -/
structure TableHelper where
  id : Int
  epoch : Int
deriving DecidableEq, Repr

/-- The ways a table operation stops without returning. -/
inductive Fault where
  | nullHelper
  | fatal
  | blocked
  | badReply
deriving DecidableEq, Repr

/-- The type `boost::unordered_map<K, V>` inside `ShardT`: entries with distinct keys, in the
(unspecified) iteration order. -/
abbrev ShardT (K V : Type) := List (K × V)

/-- The struct `CacheEntry`; `last_read_time` is the reading of the clock `Now()`. -/
structure CacheEntry (V : Type) where
  last_read_time : Nat
  val : V
deriving DecidableEq, Repr

namespace ShardT

variable {K V : Type} [DecidableEq K]

/-- The keys of a shard, in iteration order. -/
def keys (s : ShardT K V) : List K := s.map Prod.fst

/-- The lookup `find(k)`: the mapped value, `none` for `end()`. -/
def find (s : ShardT K V) (k : K) : Option V :=
  match s with
  | [] => none
  | (k', v) :: rest => if k' = k then some v else find rest k

/-- The assignment `s[k] = v`: overwrite the entry of `k`, or add one. -/
def set (s : ShardT K V) (k : K) (v : V) : ShardT K V :=
  match s with
  | [] => [(k, v)]
  | (k', v') :: rest => if k' = k then (k, v) :: rest else (k', v') :: set rest k v

/-- The read `s[k]`: the mapped value; an absent key is first inserted with `V()`. -/
def index [Inhabited V] (s : ShardT K V) (k : K) : V × ShardT K V :=
  match find s k with
  | some v => (v, s)
  | none => (default, set s k default)

end ShardT

/-- The classes `Table` and `TableT<K, V>`: partition info, shards, id, pending write count,
helper pointer (`none` for NULL), flush frequency and the remote-read cache.  The plug-ins
(`sharder`, `accum`) and the network are collaborators, see `TableEnv`.  The `int` fields are
unbounded integers: signed overflow of `pending_writes_` is undefined in the source and outside
the model. -/
structure Table (K V : Type) where
  shard_info_ : List PartitionInfo
  shards_ : List (ShardT K V)
  id_ : Int
  pending_writes_ : Int
  helper_ : Option TableHelper
  flush_frequency : Int
  cache_ : List (K × CacheEntry V)
deriving DecidableEq, Repr

/-- The collaborators of a table: the sharder (`SharderT::shard_for_key`), the accumulator
(`AccumulatorT::accumulate`, as the new value of `*v`), `helper()->peer_for_shard`, the effect of
`helper()->check_network()` on the table, the reply of the owner to a Get call, the clock, and
`fresh`: the content of a default-initialised `V` (`new V` in get, `V v;` in contains), which
for a class type is the default-constructed value and for a scalar `V` is indeterminate
(whatever the memory holds), so no property of it is assumed. -/
structure TableEnv (K V : Type) where
  shard_for_key : K → Nat → Nat
  accumulate : V → V → V
  peer_for_shard : Int → Nat → Int
  check_network : Table K V → Table K V
  call : GetCall K → TableData K V
  now : Nat
  fresh : V

/-- The constant `kDefaultFlushFrequency`. -/
def kDefaultFlushFrequency : Int := 1000000

namespace Table

variable {K V : Type} [DecidableEq K]

/-- The method `init(id, num_shards)`. -/
def init (id : Int) (num_shards : Nat) : Table K V :=
  { shard_info_ := List.replicate num_shards default,
    shards_ := List.replicate num_shards [],
    id_ := id, pending_writes_ := 0, helper_ := none,
    flush_frequency := kDefaultFlushFrequency, cache_ := [] }

/-- The method `set_helper(h)`. -/
def set_helper (t : Table K V) (h : TableHelper) : Table K V :=
  { t with helper_ := some h }

/-- The method `tainted(shard)`: `shard_info_[shard].tainted()`. -/
def tainted (t : Table K V) (shard : Nat) : Bool :=
  (t.shard_info_.getD shard default).tainted

/-- The method `worker_for_shard(shard)`: `shard_info_[shard].owner()`. -/
def worker_for_shard (t : Table K V) (shard : Nat) : Int :=
  (t.shard_info_.getD shard default).owner

/-- The method `TableT::is_local_shard(shard)`: false without a helper, else
`worker_for_shard(shard) == helper()->id()`. -/
def is_local_shard (t : Table K V) (shard : Nat) : Bool :=
  match t.helper_ with
  | none => false
  | some h => t.worker_for_shard shard == h.id

/-- The method `TableT::num_shards()`: `shards_.size()`. -/
def num_shards (t : Table K V) : Nat := t.shards_.length

/-- The method `Table::num_shards()` of the base class: `shard_info_.size()`. -/
def base_num_shards (t : Table K V) : Nat := t.shard_info_.length

/-- The method `shard_for_key(k)`: `sharder->shard_for_key(k, this->num_shards())`. -/
def shard_for_key (env : TableEnv K V) (t : Table K V) (k : K) : Nat :=
  env.shard_for_key k t.num_shards

/-- The method `is_local_key(key)`. -/
def is_local_key (env : TableEnv K V) (t : Table K V) (k : K) : Bool :=
  t.is_local_shard (t.shard_for_key env k)

/-- The method `typed_shard(id)`: `*shards_[id]`; an index past the end is outside the model. -/
def typed_shard (t : Table K V) (id : Nat) : ShardT K V :=
  t.shards_.getD id []

/-- Writing through the reference `typed_shard(id)`. -/
def set_shard (t : Table K V) (id : Nat) (s : ShardT K V) : Table K V :=
  { t with shards_ := t.shards_.set id s }

/-- The method `update_partitions(info)`: `shard_info_[info.shard()].CopyFrom(info)`. -/
def update_partitions (t : Table K V) (info : PartitionInfo) : Table K V :=
  { t with shard_info_ := t.shard_info_.set info.shard info }

/-- The method `handle_put_requests()`: `helper()->check_network()`. -/
def handle_put_requests (env : TableEnv K V) (t : Table K V) : Except Fault (Table K V) :=
  match t.helper_ with
  | none => .error Fault.nullHelper
  | some _ => .ok (env.check_network t)

/-- The test of the loop body of `send_updates`:
`!is_local_shard(i) && (shard_info_[i].dirty() || !t->empty())`. -/
def must_send (t : Table K V) (i : Nat) : Bool :=
  !t.is_local_shard i && ((t.shard_info_.getD i default).dirty || !(t.typed_shard i).isEmpty)

/-- The batch built in the loop body of `send_updates` for shard `i`, with its destination:
all entries of the shard, `shard`, `source`, `table`, `epoch` set, `done = true`, sent to
`worker_for_shard(i) + 1` (the network rank of worker `w` is `w + 1`). -/
def batch_for (h : TableHelper) (t : Table K V) (i : Nat) : PutSent K V :=
  { dest := t.worker_for_shard i + 1,
    put := { table := t.id_, shard := i, source := h.id, epoch := h.epoch,
             kv_data := t.typed_shard i, done := true, missing_key := false } }

/-- One pass of the loop body of `send_updates` for shard `i`: when the test holds, the entries
of the shard are copied into one batch, the shard is cleared, the batch size is added to the
count and the batch is sent.  The inner do-while runs once, as the shard is empty after
`t->clear()`.  Without a helper, `helper()->id()` dereferences NULL. -/
def send_shard (t : Table K V) (i : Nat) (count : Nat) (out : List (PutSent K V)) :
    Except Fault (Nat × Table K V × List (PutSent K V)) :=
  if t.must_send i then
    match t.helper_ with
    | none => .error Fault.nullHelper
    | some h =>
      .ok (count + (t.batch_for h i).put.kv_data.length, t.set_shard i [],
           out ++ [t.batch_for h i])
  else .ok (count, t, out)

/-- The loop `for (size_t i = 0; i < n; ++i)` of `send_updates`, on the first `n` shards. -/
def send_loop (t : Table K V) : Nat → Except Fault (Nat × Table K V × List (PutSent K V))
  | 0 => .ok (0, t, [])
  | n + 1 =>
    match send_loop t n with
    | .error e => .error e
    | .ok (count, t1, out) => send_shard t1 n count out

/-- The method `send_updates()`: the count returned, the table afterwards, the batches sent. -/
def send_updates (t : Table K V) : Except Fault (Nat × Table K V × List (PutSent K V)) :=
  match send_loop t t.shards_.length with
  | .error e => .error e
  | .ok (count, t1, out) => .ok (count, { t1 with pending_writes_ := 0 }, out)

/-- The tail shared by `put` and `update`:
`if (pending_writes_ > flush_frequency) { send_updates(); handle_put_requests(); }`. -/
def flush_if_due (env : TableEnv K V) (t : Table K V) :
    Except Fault (Table K V × List (PutSent K V)) :=
  if t.pending_writes_ > t.flush_frequency then
    match send_updates t with
    | .error e => .error e
    | .ok (_, t1, out) =>
      match handle_put_requests env t1 with
      | .error e => .error e
      | .ok t2 => .ok (t2, out)
  else .ok (t, [])

/-- The writes of `put(k, v)` up to the flush test: `typed_shard(shard_id)[k] = v`, and
`++pending_writes_` when the shard is not local. -/
def put_write (env : TableEnv K V) (t : Table K V) (k : K) (v : V) : Table K V :=
  let shard_id := t.shard_for_key env k
  let t1 := t.set_shard shard_id ((t.typed_shard shard_id).set k v)
  if !t1.is_local_shard shard_id then { t1 with pending_writes_ := t1.pending_writes_ + 1 }
  else t1

/-- The method `put(k, v)`. -/
def put (env : TableEnv K V) (t : Table K V) (k : K) (v : V) :
    Except Fault (Table K V × List (PutSent K V)) :=
  flush_if_due env (t.put_write env k v)

/-- The writes of `update(k, v)` up to the flush test: insert `v` when `find(k)` is `end()`,
else accumulate into the stored value; then `++pending_writes_`. -/
def update_write (env : TableEnv K V) (t : Table K V) (k : K) (v : V) : Table K V :=
  let shard_id := t.shard_for_key env k
  let s := t.typed_shard shard_id
  let s1 :=
    match s.find k with
    | none => s.set k v
    | some c => s.set k (env.accumulate c v)
  { t.set_shard shard_id s1 with pending_writes_ := t.pending_writes_ + 1 }

/-- The method `update(k, v)`. -/
def update (env : TableEnv K V) (t : Table K V) (k : K) (v : V) :
    Except Fault (Table K V × List (PutSent K V)) :=
  flush_if_due env (t.update_write env k v)

/-- The loop `while (tainted(shard)) { handle_put_requests(); sched_yield(); }`; `blocked` when
the taint has not cleared within `fuel` rounds. -/
def wait_untainted (env : TableEnv K V) : Nat → Table K V → Nat → Except Fault (Table K V)
  | fuel, t, shard =>
    if !t.tainted shard then .ok t
    else
      match fuel with
      | 0 => .error Fault.blocked
      | n + 1 =>
        match handle_put_requests env t with
        | .error e => .error e
        | .ok t1 => wait_untainted env n t1 shard

/-- The lookup `cache_.find(k)`. -/
def cache_find (t : Table K V) (k : K) : Option (CacheEntry V) :=
  ShardT.find t.cache_ k

/-- The method `get_remote(shard, k, v)`: the flag returned, the value left in `*v`, the table
afterwards and the Get calls issued.  A missing helper is `LOG(FATAL)`; the two `DCHECK`s on the
peer are compiled out of release builds and are not modelled; a reply that is neither
`missing_key` nor carries an entry fails at `kv_data(0)`. -/
def get_remote (env : TableEnv K V) (t : Table K V) (shard : Nat) (k : K) (v : V) :
    Except Fault (Bool × V × Table K V × List (GetCall K)) :=
  match t.cache_find k with
  | some c => .ok (true, c.val, t, [])
  | none =>
    match t.helper_ with
    | none => .error Fault.fatal
    | some _ =>
      let rpc : GetCall K :=
        { dest := env.peer_for_shard t.id_ shard + 1,
          req := { key := k, table := t.id_, shard := shard } }
      let resp := env.call rpc
      if resp.missing_key then .ok (false, v, t, [rpc])
      else
        match resp.kv_data with
        | [] => .error Fault.badReply
        | (_, val) :: _ =>
          .ok (true, val,
               { t with cache_ := ShardT.set t.cache_ k { last_read_time := env.now, val := val } },
               [rpc])

/-- The method `get(k)`: the value returned, the table afterwards and the Get calls issued.  On
the remote path `V* v = new V` is default-initialised (`env.fresh`, unspecified) and the flag
returned by get_remote is dropped: `return *v`. -/
def get [Inhabited V] (env : TableEnv K V) (fuel : Nat) (t : Table K V) (k : K) :
    Except Fault (V × Table K V × List (GetCall K)) :=
  let shard := t.shard_for_key env k
  match wait_untainted env fuel t shard with
  | .error e => .error e
  | .ok t1 =>
    match t1.helper_ with
    | none => .error Fault.nullHelper
    | some _ =>
      if t1.is_local_shard shard then
        let r := (t1.typed_shard shard).index k
        .ok (r.1, t1.set_shard shard r.2, [])
      else
        match get_remote env t1 shard k env.fresh with
        | .error e => .error e
        | .ok (_, v, t2, calls) => .ok (v, t2, calls)

/-- The method `contains(k)`; the local `V v;` handed to get_remote is default-initialised
(`env.fresh`) and its content is discarded. -/
def contains [Inhabited V] (env : TableEnv K V) (fuel : Nat) (t : Table K V) (k : K) :
    Except Fault (Bool × Table K V × List (GetCall K)) :=
  let shard := t.shard_for_key env k
  match wait_untainted env fuel t shard with
  | .error e => .error e
  | .ok t1 =>
    if t1.is_local_shard shard then
      .ok (((t1.typed_shard shard).find k).isSome, t1, [])
    else
      match get_remote env t1 shard k env.fresh with
      | .error e => .error e
      | .ok (result, _, t2, calls) => .ok (result, t2, calls)

end Table

/-- Modelled from the spec: the accumulator `Sum<V>` (its source is not among the files):
`new = current + update`. -/
def Sum.accumulate (current update : Int) : Int := current + update

/-- Modelled from the spec: the accumulator `Replace<V>` (its source is not among the files):
`new = update`. -/
def Replace.accumulate {V : Type} (_current update : V) : V := update

/-- Modelled from the spec: the sharder `Modulo<K>` (its source is not among the files) on
integer keys: `k mod num_shards`. -/
def Modulo.shard_for_key (k : Int) (num_shards : Nat) : Nat := (k % (num_shards : Int)).toNat

/-- The fold of an accumulator over a sequence of updates `v_1 .. v_n`:
`accumulate(.. accumulate(v_1, v_2) .., v_n)`; `none` for the empty sequence. -/
def accFold {V : Type} (acc : V → V → V) : List V → Option V
  | [] => none
  | a :: r => some (r.foldl acc a)

/-- A single worker with nothing arriving from the network: integer keys and values, the
Modulo sharder, the given accumulator, `check_network` finds no request, and a Get call (never
issued for local shards) is answered with `missing_key`; fresh memory happens to hold 0. -/
def quietEnv (acc : Int → Int → Int) : TableEnv Int Int :=
  { shard_for_key := Modulo.shard_for_key,
    accumulate := acc,
    peer_for_shard := fun _ _ => 0,
    check_network := fun t => t,
    call := fun c =>
      { table := c.req.table, shard := c.req.shard, source := 0, epoch := 0,
        kv_data := [], done := false, missing_key := true },
    now := 0,
    fresh := 0 }

/-- The table of worker `w` after `init(id, n)`, `set_helper` and a shard assignment giving
shard `i` to worker `owners[i]`. -/
def tableOf (id : Int) (w : Int) (owners : List Int) : Table Int Int :=
  { (Table.init id owners.length : Table Int Int) with
    helper_ := some { id := w, epoch := 0 },
    shard_info_ := owners.enum.map
      (fun p => { shard := p.1, owner := p.2, entries := 0, dirty := false, tainted := false }) }

/-- Modelled from the spec: the message `ClearTable{table}` (sparrow.pb.h). -/
structure ClearTable where
  table : Int
deriving DecidableEq, Repr

/-- The method `clear()`: builds `ClearTable{table = id()}` and hands it to
`SyncBroadcast(CLEAR_TABLE, req)`.  The body writes no field of the table; the handlers the
receiving workers run are outside this file, and `cache_` is private to `TableT`, written only by
`get_remote`.  Returns the table afterwards and the request broadcast. -/
def Table.clear {K V : Type} (t : Table K V) : Table K V × ClearTable :=
  (t, { table := t.id_ })

/-! ## cextent.cc : extents -/

/-- The range of `unsigned long long`. -/
def U64 : Nat := 18446744073709551616

/-- The range of `unsigned`. -/
def U32 : Nat := 4294967296

/-- The conversion of an `unsigned long long` value to `long long` (two's complement). -/
def toInt64 (x : Nat) : Int :=
  if x % U64 < 9223372036854775808 then ((x % U64 : Nat) : Int)
  else ((x % U64 : Nat) : Int) - (U64 : Int)

/-- The subtraction `a - b` of two `unsigned long long` values: modulo 2^64. -/
def subU64 (a b : Nat) : Nat := (a + U64 - b % U64) % U64

/-- The struct `Slice` (declared in cextent.h, which is not among the sources): the fields
`start`, `stop`, `step` the code uses, signed 64-bit as the `< 0` tests and the `long long`
callers show. -/
structure Slice where
  start : Int
  stop : Int
  step : Int
deriving DecidableEq, Repr

/-- The class `CExtent` (declared in cextent.h): `ndim`, `has_array_shape`, the arrays `ul`, `lr`,
`shape`, `array_shape` (kept as the lists of their first `ndim` entries) and `size`. -/
structure CExtent where
  ndim : Nat
  has_array_shape : Bool
  ul : List Nat
  lr : List Nat
  shape : List Nat
  array_shape : List Nat
  size : Nat
deriving DecidableEq, Repr

/-- One pass of the loop of `extent_create` for dimension `i`: `none` when `ul[i] >= lr[i]`,
else the entries of dimension `i` are filled in and `size *= shape[i]` (64-bit). -/
def extent_create_step (ul lr : List Nat) (array_shape : Option (List Nat)) (ex : CExtent)
    (i : Nat) : Option CExtent :=
  if ul.getD i 0 ≥ lr.getD i 0 then none
  else
    let sh := if lr.getD i 0 - ul.getD i 0 = 0 then 1 else lr.getD i 0 - ul.getD i 0
    some { ex with
      ul := ex.ul ++ [ul.getD i 0],
      lr := ex.lr ++ [lr.getD i 0],
      shape := ex.shape ++ [sh],
      size := (ex.size * sh) % U64,
      array_shape :=
        match array_shape with
        | none => ex.array_shape
        | some a => ex.array_shape ++ [a.getD i 0] }

/-- The loop of `extent_create` over the dimensions `0 .. n-1`. -/
def extent_create_loop (ul lr : List Nat) (array_shape : Option (List Nat)) (ex : CExtent) :
    Nat → Option CExtent
  | 0 => some ex
  | n + 1 =>
    match extent_create_loop ul lr array_shape ex n with
    | none => none
    | some ex1 => extent_create_step ul lr array_shape ex1 n

/-- The function `extent_create(ul, lr, array_shape, ndim)`; `none` for the NULL result and for
a NULL `array_shape` argument. -/
def extent_create (ul lr : List Nat) (array_shape : Option (List Nat)) (ndim : Nat) :
    Option CExtent :=
  extent_create_loop ul lr array_shape
    { ndim := ndim, has_array_shape := array_shape.isSome, ul := [], lr := [], shape := [],
      array_shape := [], size := 1 } ndim

/-- The loop of `unravelled_pos` for `i = n-1` down to `0`:
`pos[i] = idx % array_shape[i]; idx /= ndim`. -/
def unravelled_pos_loop (array_shape : List Nat) (ndim : Nat) : Nat → Nat → List Nat → List Nat
  | 0, _, pos => pos
  | i + 1, idx, pos =>
    unravelled_pos_loop array_shape ndim i (idx / ndim) (pos.set i (idx % array_shape.getD i 0))

/-- The function `unravelled_pos(idx, array_shape, ndim, pos)`: the `ndim` entries written to
`pos`.  A zero `array_shape[i]` is a division by zero in the source and outside the model. -/
def unravelled_pos (idx : Nat) (array_shape : List Nat) (ndim : Nat) : List Nat :=
  unravelled_pos_loop array_shape ndim ndim idx (List.replicate ndim 0)

/-- The loop of `ravelled_pos` for `i = n-1` down to `0`, on the 32-bit `rpos` and `mul`:
`rpos += mul * idx[i]; mul *= array_shape[i]`. -/
def ravelled_pos_loop (idx array_shape : List Nat) : Nat → Nat → Nat → Nat
  | 0, rpos, _ => rpos
  | i + 1, rpos, mul =>
    ravelled_pos_loop idx array_shape i ((rpos + mul * idx.getD i 0) % U32)
      ((mul * array_shape.getD i 0) % U32)

/-- The function `ravelled_pos(idx, array_shape, ndim)`. -/
def ravelled_pos (idx array_shape : List Nat) (ndim : Nat) : Nat :=
  ravelled_pos_loop idx array_shape ndim 0 1

/-- The loop of `offset_from` over the dimensions `0 .. n-1`: `none` (NULL) as soon as `other`
is not inside `base`, else the offsets `ul[i]`, `lr[i]` collected so far. -/
def offset_from_loop (base other : CExtent) : Nat → Option (List Nat × List Nat)
  | 0 => some ([], [])
  | n + 1 =>
    match offset_from_loop base other n with
    | none => none
    | some (ul, lr) =>
      if other.ul.getD n 0 < base.ul.getD n 0 ∨ other.lr.getD n 0 > base.lr.getD n 0 then none
      else some (ul ++ [subU64 (other.ul.getD n 0) (base.ul.getD n 0)],
                 lr ++ [subU64 (other.lr.getD n 0) (base.ul.getD n 0)])

/-- The function `offset_from(base, other)`; the member array `other->array_shape` it passes on
is never NULL. -/
def offset_from (base other : CExtent) : Option CExtent :=
  match offset_from_loop base other base.ndim with
  | none => none
  | some (ul, lr) =>
    extent_create ul lr (some other.array_shape) base.ndim

/-- The function `offset_slice(base, other)`: for each `i < base->ndim`,
`start = other->ul[i] - base->ul[i]`, `stop = other->lr[i] - base->lr[i]`, `step = 1`. -/
def offset_slice (base other : CExtent) : List Slice :=
  (List.range base.ndim).map (fun i =>
    { start := toInt64 (subU64 (other.ul.getD i 0) (base.ul.getD i 0)),
      stop := toInt64 (subU64 (other.lr.getD i 0) (base.lr.getD i 0)),
      step := 1 })

/-- The ways a function of cextent.cc stops without returning: a failed `assert(0)` (asserts
enabled), or a write past the end of a local array of `MAX_NDIM` entries. -/
inductive Abort where
  | assertion
  | overflow
deriving DecidableEq, Repr

instance : Inhabited Slice := ⟨{ start := 0, stop := 0, step := 0 }⟩

/-- The conversion of a `long long` value to `unsigned long long`: modulo 2^64. -/
def toU64 (x : Int) : Nat := (x % (U64 : Int)).toNat

/-- The inner loop of `find_shape` for the extent `ex` with outer index `i`, run `n` times:
`if (shape[i] < ex->lr[i]) shape[i] = ex->lr[i]`.  An index `i` past the end of `shape` is a
write out of bounds in the source and outside the model. -/
def find_shape_inner (ex : CExtent) (i : Nat) : Nat → List Nat → List Nat
  | 0, shape => shape
  | n + 1, shape =>
    find_shape_inner ex i n
      (if shape.getD i 0 < ex.lr.getD i 0 then shape.set i (ex.lr.getD i 0) else shape)

/-- The outer loop of `find_shape`: `ex = extents[i]`, inner loop for `j < ex->ndim`. -/
def find_shape_outer : List CExtent → Nat → List Nat → List Nat
  | [], _, shape => shape
  | ex :: rest, i, shape => find_shape_outer rest (i + 1) (find_shape_inner ex i ex.ndim shape)

/-- The function `find_shape(extents, num_ex, shape)` with `num_ex` the length of `extents`:
the `extents[0]->ndim` entries written to `shape`.  An empty list is outside the model. -/
def find_shape (extents : List CExtent) : List Nat :=
  match extents with
  | [] => []
  | e0 :: _ => find_shape_outer extents 0 (List.replicate e0.ndim 1)

/-- The loop of `intersection` over the dimensions `0 .. n-1`: the assertion on the array
shapes, `none` (NULL) when the extents are apart in a dimension, else the corners so far. -/
def intersection_loop (a b : CExtent) : Nat → Except Abort (Option (List Nat × List Nat))
  | 0 => .ok (some ([], []))
  | n + 1 =>
    match intersection_loop a b n with
    | .error e => .error e
    | .ok none => .ok none
    | .ok (some (ul, lr)) =>
      if a.array_shape.getD n 0 ≠ b.array_shape.getD n 0 then .error Abort.assertion
      else if b.lr.getD n 0 < a.ul.getD n 0 then .ok none
      else if a.lr.getD n 0 < b.ul.getD n 0 then .ok none
      else
        .ok (some
          (ul ++ [if a.ul.getD n 0 ≥ b.ul.getD n 0 then a.ul.getD n 0 else b.ul.getD n 0],
           lr ++ [if a.lr.getD n 0 < b.lr.getD n 0 then a.lr.getD n 0 else b.lr.getD n 0]))

/-- The function `intersection(a, b)`; `none` stands for a NULL pointer, as argument and as
result. -/
def intersection (a b : Option CExtent) : Except Abort (Option CExtent) :=
  match a, b with
  | some a, some b =>
    match intersection_loop a b a.ndim with
    | .error e => .error e
    | .ok none => .ok none
    | .ok (some (ul, lr)) => .ok (extent_create ul lr (some a.array_shape) a.ndim)
  | _, _ => .ok none

/-- The method `CExtent::add_dim()`: the corners and the array shape are copied into local
arrays of `MAX_NDIM` entries (a constant of cextent.h, taken as a parameter) and extended by
`ul = 0`, `lr = 1`, `array_shape = 1`. -/
def CExtent.add_dim (MAX_NDIM : Nat) (e : CExtent) : Except Abort (Option CExtent) :=
  if e.ndim ≥ MAX_NDIM then .error Abort.overflow
  else
    .ok (extent_create
      ((List.range e.ndim).map (fun i => e.ul.getD i 0) ++ [0])
      ((List.range e.ndim).map (fun i => e.lr.getD i 0) ++ [1])
      (some ((List.range e.ndim).map (fun i => e.array_shape.getD i 0) ++ [1]))
      (e.ndim + 1))

/-- The entries the two copy loops of `drop_axis` leave in a local array: entry `i` of the
source for `i < axis`, entry `i + 1` from there on. -/
def drop_axis_copy (l : List Nat) (axis : Nat) (n : Nat) : List Nat :=
  (List.range n).map (fun i => if i < axis then l.getD i 0 else l.getD (i + 1) 0)

/-- The function `drop_axis(ex, axis)`: a negative axis counts from the end; the entries of the
other axes are copied and `extent_create` is called with `ndim - 1`.  An extent without
dimensions, or an axis still negative after the adjustment, makes `extent_create` read local
arrays that were never written: outside the model, here `overflow`. -/
def drop_axis (MAX_NDIM : Nat) (ex : CExtent) (axis : Int) : Except Abort (Option CExtent) :=
  let axis1 : Int := if axis < 0 then (ex.ndim : Int) + axis else axis
  if ex.ndim = 0 ∨ axis1 < 0 ∨ axis1 > (MAX_NDIM : Int) then .error Abort.overflow
  else
    .ok (extent_create
      (drop_axis_copy ex.ul axis1.toNat (ex.ndim - 1))
      (drop_axis_copy ex.lr axis1.toNat (ex.ndim - 1))
      (some (drop_axis_copy ex.array_shape axis1.toNat (ex.ndim - 1)))
      (ex.ndim - 1))

/-- The loop of `from_slice` over the dimensions `0 .. n-1`.  The two tests compare the signed
`start` and `stop` with the unsigned `dim`, so both are converted to unsigned first; a negative
value that passes them is shifted by `dim`. -/
def from_slice_loop (idx : List Slice) (shape : List Nat) :
    Nat → Except Abort (List Nat × List Nat)
  | 0 => .ok ([], [])
  | n + 1 =>
    match from_slice_loop idx shape n with
    | .error e => .error e
    | .ok (ul, lr) =>
      if toU64 (idx.getD n default).start ≥ shape.getD n 0 then .error Abort.assertion
      else if toU64 (idx.getD n default).stop ≥ shape.getD n 0 then .error Abort.assertion
      else
        .ok (ul ++ [toU64 (if (idx.getD n default).start < 0
                      then toInt64 (toU64 (idx.getD n default).start + shape.getD n 0)
                      else (idx.getD n default).start)],
             lr ++ [toU64 (if (idx.getD n default).stop < 0
                      then toInt64 (toU64 (idx.getD n default).stop + shape.getD n 0)
                      else (idx.getD n default).stop)])

/-- The function `from_slice(idx, shape, ndim)`. -/
def from_slice (idx : List Slice) (shape : List Nat) (ndim : Nat) :
    Except Abort (Option CExtent) :=
  match from_slice_loop idx shape ndim with
  | .error e => .error e
  | .ok (ul, lr) => .ok (extent_create ul lr (some shape) ndim)

/-- The function `is_complete(shape, ndim, slices)`: every slice has `start == 0` and
`stop == shape[i]` (the signed `stop` converted to unsigned for the comparison). -/
def is_complete (shape : List Nat) (ndim : Nat) (slices : List Slice) : Bool :=
  (List.range ndim).all (fun i =>
    (slices.getD i default).start == 0 && toU64 (slices.getD i default).stop == shape.getD i 0)

/-- The row-major linear index as the specification words it: the sum over `i < ndim` of
`idx[i]` times the product of `shape[j]` for `i < j < ndim`. -/
def rowMajorIndex (idx shape : List Nat) (ndim : Nat) : Nat :=
  Finset.sum (Finset.range ndim) (fun i =>
    idx.getD i 0 * Finset.prod (Finset.Ico (i + 1) ndim) (fun j => shape.getD j 0))

/-- A worker whose peers hold the entries `store`: as `quietEnv`, but a Get call is answered
with the entry of the key in `store`, or with `missing_key` when there is none. -/
def peerEnv (acc : Int → Int → Int) (store : ShardT Int Int) : TableEnv Int Int :=
  { quietEnv acc with
    call := fun c =>
      match ShardT.find store c.req.key with
      | some v =>
        { table := c.req.table, shard := c.req.shard, source := 0, epoch := 0,
          kv_data := [(c.req.key, v)], done := false, missing_key := false }
      | none =>
        { table := c.req.table, shard := c.req.shard, source := 0, epoch := 0,
          kv_data := [], done := false, missing_key := true } }

/-- As `quietEnv`, but the network holds the final batch (`done = true`) of every delta stream:
one `check_network` clears the taint flag of every shard. -/
def deliverEnv (acc : Int → Int → Int) : TableEnv Int Int :=
  { quietEnv acc with
    check_network := fun t =>
      { t with shard_info_ := t.shard_info_.map (fun p => { p with tainted := false }) } }

/-! ## Theorems: the task maps -/

theorem TaskMap.erase_length_le (m : TaskMap) (k : ShardId) :
    (TaskMap.erase m k).length ≤ m.length := by
  induction m with
  | nil => simp [TaskMap.erase]
  | cons e rest ih =>
    obtain ⟨k', v⟩ := e
    unfold TaskMap.erase
    split
    · simp
    · simpa using ih

theorem TaskMap.erase_of_find_none (m : TaskMap) (k : ShardId)
    (h : TaskMap.find m k = none) : TaskMap.erase m k = m := by
  induction m with
  | nil => rfl
  | cons e rest ih =>
    obtain ⟨k', v'⟩ := e
    unfold TaskMap.find at h
    split at h
    · exact absurd h (by simp)
    · rename_i hne
      simp [TaskMap.erase, hne, ih h]

theorem TaskMap.erase_insert_of_find_none (m : TaskMap) (k : ShardId) (v : TaskState)
    (h : TaskMap.find m k = none) : TaskMap.erase (TaskMap.insert m k v) k = m := by
  induction m with
  | nil => simp [TaskMap.insert, TaskMap.erase]
  | cons e rest ih =>
    obtain ⟨k', v'⟩ := e
    unfold TaskMap.find at h
    split at h
    · exact absurd h (by simp)
    · rename_i hne
      unfold TaskMap.insert
      split
      · simp [TaskMap.erase]
      · simp [TaskMap.erase, hne, ih h]

/-- The active map after `set_finished` is the old one with the entry of `id` dropped. -/
theorem WorkerState.set_finished_active (w : WorkerState) (id : ShardId) :
    (w.set_finished id).active = TaskMap.erase w.active id := by
  unfold WorkerState.set_finished TaskMap.index
  cases h : TaskMap.find w.active id with
  | none => simp [TaskMap.erase_insert_of_find_none _ _ _ h, TaskMap.erase_of_find_none _ _ h]
  | some v => simp

theorem WorkerState.get_next_active_length (w : WorkerState) (r : RunDescriptor)
    (msg : RunKernelReq) (h : w.active.length ≤ 1) :
    (w.get_next r msg).2.1.active.length ≤ 1 := by
  unfold WorkerState.get_next
  split
  · exact h
  · split
    · exact h
    · rename_i hemp
      have : w.active = [] := by simpa using hemp
      simp [this, TaskMap.insert]

theorem WorkerState.remove_task_of_pending (w : WorkerState) (id : ShardId)
    (h : (w.pending.find id).isSome) :
    w.remove_task id = some { w with pending := w.pending.erase id } := by
  unfold WorkerState.remove_task
  cases hf : TaskMap.find w.pending id with
  | none => simp [hf] at h
  | some v => rfl

theorem WorkerState.remove_task_active (w w' : WorkerState) (id : ShardId)
    (h : w.remove_task id = some w') : w'.active = w.active := by
  unfold WorkerState.remove_task at h
  split at h
  · exact absurd h (by simp)
  · cases h; rfl

theorem WorkerState.clear_tasks_active (w w' : WorkerState)
    (h : w.clear_tasks = some w') : w'.active = [] := by
  unfold WorkerState.clear_tasks at h
  split at h
  · cases h; rfl
  · exact absurd h (by simp)

/-- C1 (at-most-one-active).  From a state whose active map holds at most one task, every
method of `WorkerState` (assign_task, remove_task on a pending id, get_next, set_finished on any
id, clear_tasks) produces a state whose active map holds at most one task; remove_task on a
pending id and clear_tasks on an empty active map do produce a state.  Hence every state reachable
from a freshly constructed `WorkerState` has at most one active task. -/
theorem at_most_one_active :
    (∀ w : WorkerState, w.active.length ≤ 1 →
      (∀ id, (w.assign_task id).active.length ≤ 1) ∧
      (∀ id, (w.pending.find id).isSome →
        ∃ w', w.remove_task id = some w' ∧ w'.active.length ≤ 1) ∧
      (∀ r msg, (w.get_next r msg).2.1.active.length ≤ 1) ∧
      (∀ id, (w.set_finished id).active.length ≤ 1) ∧
      (∀ w', w.clear_tasks = some w' → w'.active.length ≤ 1) ∧
      (w.active = [] → ∃ w', w.clear_tasks = some w' ∧ w'.active.length ≤ 1)) ∧
    (∀ w, ReachableBy (fun _ _ => True) (fun _ _ => True) w → w.active.length ≤ 1) := by
  have step : ∀ w : WorkerState, w.active.length ≤ 1 →
      (∀ id, (w.assign_task id).active.length ≤ 1) ∧
      (∀ id, (w.pending.find id).isSome →
        ∃ w', w.remove_task id = some w' ∧ w'.active.length ≤ 1) ∧
      (∀ r msg, (w.get_next r msg).2.1.active.length ≤ 1) ∧
      (∀ id, (w.set_finished id).active.length ≤ 1) ∧
      (∀ w', w.clear_tasks = some w' → w'.active.length ≤ 1) ∧
      (w.active = [] → ∃ w', w.clear_tasks = some w' ∧ w'.active.length ≤ 1) := by
    intro w hw
    refine ⟨fun id => hw, ?_, ?_, ?_, ?_, ?_⟩
    · intro id hid
      exact ⟨_, WorkerState.remove_task_of_pending w id hid, hw⟩
    · intro r msg
      exact WorkerState.get_next_active_length w r msg hw
    · intro id
      rw [WorkerState.set_finished_active]
      exact le_trans (TaskMap.erase_length_le _ _) hw
    · intro w' h
      simp [WorkerState.clear_tasks_active w w' h]
    · intro h
      refine ⟨{ w with pending := [], active := [], finished := [] }, ?_, by simp⟩
      simp [WorkerState.clear_tasks, h]
  refine ⟨step, ?_⟩
  intro w hr
  induction hr with
  | fresh w_id => simp [WorkerState.new]
  | assign_task id _ _ ih => exact (step _ ih).1 id
  | remove_task id _ h ih => rw [WorkerState.remove_task_active _ _ id h]; exact ih
  | get_next r msg _ ih => exact (step _ ih).2.2.1 r msg
  | set_finished id _ _ ih => exact (step _ ih).2.2.2.1 id
  | clear_tasks _ h ih => exact (step _ ih).2.2.2.2.1 _ h

/-- C1 witness: a worker with two pending tasks, after one get_next, has exactly one active
task, and every method keeps it at most one. -/
theorem at_most_one_active_witness :
    (((WorkerState.new 0).assign_task (0, 1)).assign_task (0, 0)).active.length ≤ 1 ∧
    (((((WorkerState.new 0).assign_task (0, 1)).assign_task (0, 0)).get_next
        ⟨0, 7, [], [0, 1]⟩ ⟨0, 0, 0, []⟩).2.1.active.length ≤ 1) ∧
    (((((WorkerState.new 0).assign_task (0, 1)).assign_task (0, 0)).set_finished
        (0, 5)).active.length ≤ 1) :=
  ⟨by decide,
   ((at_most_one_active.1 (((WorkerState.new 0).assign_task (0, 1)).assign_task (0, 0))
      (by decide)).2.2.1 ⟨0, 7, [], [0, 1]⟩ ⟨0, 0, 0, []⟩),
   ((at_most_one_active.1 (((WorkerState.new 0).assign_task (0, 1)).assign_task (0, 0))
      (by decide)).2.2.2.1 (0, 5))⟩

/-- C2 (get_next pops the smallest ShardId).  For a worker with empty active and non-empty
pending (a `std::map`, keys ascending), get_next returns true; the entry `(k, st)` it takes is the
one with the smallest key of pending (strictly below every other key, hence with the smallest
shard index among the pending keys of the same table); pending loses exactly that entry, active
becomes the single entry `st` filed under `st.id`, finished is untouched; the request has
`shard = st.id.second` and kernel, table id and args of the run descriptor.  When pending is keyed
by task id (as assign_task files it), `st.id` is that smallest key. -/
theorem get_next_smallest (w : WorkerState) (r : RunDescriptor) (msg : RunKernelReq)
    (hact : w.active = []) (hpend : w.pending ≠ []) (hsorted : w.pending.Sorted) :
    ∃ k st rest,
      w.pending = (k, st) :: rest ∧
      (∀ e ∈ rest, ShardId.lt k e.1) ∧
      (∀ e ∈ w.pending, e.1.1 = k.1 → k.2 ≤ e.1.2) ∧
      w.get_next r msg =
        (true, { w with pending := rest, active := [(st.id, st)] },
         { kernel := r.kernel_id, table := r.table_id, shard := st.id.2, args := r.args }) ∧
      (w.get_next r msg).2.1.finished = w.finished ∧
      (w.get_next r msg).2.1.pending.length + 1 = w.pending.length ∧
      (w.get_next r msg).2.1.active.length = w.active.length + 1 ∧
      ((∀ e ∈ w.pending, e.2.id = e.1) → st.id = k) := by
  cases hp : w.pending with
  | nil => exact absurd hp hpend
  | cons e rest =>
    obtain ⟨k, st⟩ := e
    have hs : TaskMap.Sorted ((k, st) :: rest) := hp ▸ hsorted
    have hlt : ∀ e ∈ rest, ShardId.lt k e.1 := by
      intro e he
      exact (List.pairwise_cons.1 hs).1 e he
    have hget : w.get_next r msg =
        (true, { w with pending := rest, active := [(st.id, st)] },
         { kernel := r.kernel_id, table := r.table_id, shard := st.id.2, args := r.args }) := by
      unfold WorkerState.get_next
      simp [hp, hact, TaskMap.insert]
    refine ⟨k, st, rest, rfl, hlt, ?_, hget, ?_, ?_, ?_, ?_⟩
    · intro e he heq
      rcases List.mem_cons.1 he with h | h
      · subst h; exact le_refl _
      · rcases hlt e h with h1 | ⟨_, h2⟩
        · exact absurd heq.symm (ne_of_lt h1)
        · exact le_of_lt h2
    · rw [hget]
    · rw [hget]; simp
    · rw [hget]; simp [hact]
    · intro hk
      exact hk (k, st) (List.mem_cons_self _ _)

/-- C2 witness: pending holds shards 2 and 1 of table 0; get_next takes shard 1. -/
theorem get_next_smallest_witness :
    (((WorkerState.new 0).assign_task (0, 2)).assign_task (0, 1)).get_next
        ⟨0, 7, [], [1, 2]⟩ ⟨0, 0, 0, []⟩ =
      (true,
       { (WorkerState.new 0) with
           pending := [((0, 2), TaskState.ofId (0, 2) 1)],
           active := [((0, 1), TaskState.ofId (0, 1) 1)] },
       ⟨7, 0, 1, []⟩) := by
  obtain ⟨k, st, rest, h1, _, _, h4, _⟩ :=
    get_next_smallest (((WorkerState.new 0).assign_task (0, 2)).assign_task (0, 1))
      ⟨0, 7, [], [1, 2]⟩ ⟨0, 0, 0, []⟩ (by decide) (by decide) (by decide)
  have h0 : (((WorkerState.new 0).assign_task (0, 2)).assign_task (0, 1)).pending =
      [((0, 1), TaskState.ofId (0, 1) 1), ((0, 2), TaskState.ofId (0, 2) 1)] := by decide
  rw [h0] at h1
  cases h1
  rw [h4]
  decide

/-! ## Theorems: ordered insertion -/

theorem ShardId.lt_trans {a b c : ShardId} (h1 : ShardId.lt a b) (h2 : ShardId.lt b c) :
    ShardId.lt a c := by
  unfold ShardId.lt at *
  omega

theorem ShardId.lt_irrefl (a : ShardId) : ¬ ShardId.lt a a := by
  unfold ShardId.lt
  omega

theorem ShardId.lt_of_not_lt_of_ne {a b : ShardId} (h1 : ¬ ShardId.lt a b) (h2 : b ≠ a) :
    ShardId.lt b a := by
  unfold ShardId.lt at *
  have : ¬ (b.1 = a.1 ∧ b.2 = a.2) := fun h => h2 (Prod.ext h.1 h.2)
  omega

theorem TaskMap.mem_insert (m : TaskMap) (k : ShardId) (v : TaskState) (e : ShardId × TaskState)
    (h : e ∈ TaskMap.insert m k v) : e = (k, v) ∨ e ∈ m := by
  induction m with
  | nil => simpa [TaskMap.insert] using h
  | cons e' rest ih =>
    obtain ⟨k', v'⟩ := e'
    unfold TaskMap.insert at h
    split at h
    · rcases List.mem_cons.1 h with h | h
      · exact Or.inl h
      · exact Or.inr h
    · split at h
      · rcases List.mem_cons.1 h with h | h
        · exact Or.inl h
        · exact Or.inr (List.mem_cons_of_mem _ h)
      · rcases List.mem_cons.1 h with h | h
        · exact Or.inr (h ▸ List.mem_cons_self _ _)
        · rcases ih h with h | h
          · exact Or.inl h
          · exact Or.inr (List.mem_cons_of_mem _ h)

theorem TaskMap.mem_keys_insert (m : TaskMap) (k : ShardId) (v : TaskState) (k' : ShardId) :
    k' ∈ TaskMap.keys (TaskMap.insert m k v) ↔ k' = k ∨ k' ∈ TaskMap.keys m := by
  induction m with
  | nil => simp [TaskMap.insert, TaskMap.keys]
  | cons e rest ih =>
    obtain ⟨k1, v1⟩ := e
    unfold TaskMap.insert
    split
    · simp [TaskMap.keys]
    · split
      · rename_i _ heq
        subst heq
        simp [TaskMap.keys]
      · simp only [TaskMap.keys, List.map_cons, List.mem_cons] at ih ⊢
        rw [ih]
        tauto

theorem TaskMap.insert_sorted (m : TaskMap) (k : ShardId) (v : TaskState)
    (h : TaskMap.Sorted m) : TaskMap.Sorted (TaskMap.insert m k v) := by
  induction m with
  | nil => simp [TaskMap.insert, TaskMap.Sorted]
  | cons e rest ih =>
    obtain ⟨k', v'⟩ := e
    have hc := List.pairwise_cons.1 h
    unfold TaskMap.insert
    split
    · rename_i hlt
      refine List.pairwise_cons.2 ⟨?_, h⟩
      intro e he
      rcases List.mem_cons.1 he with he | he
      · subst he; exact hlt
      · exact ShardId.lt_trans hlt (hc.1 e he)
    · split
      · rename_i _ heq
        subst heq
        exact List.pairwise_cons.2 ⟨hc.1, hc.2⟩
      · rename_i hnlt hne
        refine List.pairwise_cons.2 ⟨?_, ih hc.2⟩
        intro e he
        rcases TaskMap.mem_insert rest k v e he with he | he
        · subst he; exact ShardId.lt_of_not_lt_of_ne hnlt hne
        · exact hc.1 e he

theorem TaskMap.sorted_keys_nodup (m : TaskMap) (h : TaskMap.Sorted m) :
    (TaskMap.keys m).Nodup := by
  unfold TaskMap.keys List.Nodup
  rw [List.pairwise_map]
  refine List.Pairwise.imp ?_ h
  intro a b hab heq
  rw [heq] at hab
  exact ShardId.lt_irrefl b.1 hab

/-! ## Theorems: draining one worker -/

/-- The pending map built by a run of assign_task calls. -/
theorem WorkerState.foldl_assign_task (ids : List ShardId) (w : WorkerState) :
    (ids.foldl WorkerState.assign_task w).active = w.active ∧
    (ids.foldl WorkerState.assign_task w).finished = w.finished ∧
    (ids.foldl WorkerState.assign_task w).pending =
      ids.foldl (fun m id => TaskMap.insert m id (TaskState.ofId id 1)) w.pending := by
  induction ids generalizing w with
  | nil => simp
  | cons id rest ih =>
    simp only [List.foldl_cons]
    obtain ⟨h1, h2, h3⟩ := ih (w.assign_task id)
    exact ⟨h1, h2, h3⟩

theorem TaskMap.foldl_insert_entries (P : TaskMap) (F : TaskMap) (hs : TaskMap.Sorted F) :
    TaskMap.Sorted (P.foldl (fun f e => TaskMap.insert f e.1 e.2) F) ∧
    (∀ e ∈ P.foldl (fun f e => TaskMap.insert f e.1 e.2) F, e ∈ P ∨ e ∈ F) ∧
    (∀ k, k ∈ TaskMap.keys (P.foldl (fun f e => TaskMap.insert f e.1 e.2) F)
      ↔ k ∈ TaskMap.keys P ∨ k ∈ TaskMap.keys F) := by
  induction P generalizing F with
  | nil => exact ⟨hs, fun e he => Or.inr he, by simp [TaskMap.keys]⟩
  | cons p rest ih =>
    simp only [List.foldl_cons]
    obtain ⟨h1, h2, h3⟩ := ih _ (TaskMap.insert_sorted F p.1 p.2 hs)
    refine ⟨h1, ?_, ?_⟩
    · intro e he
      rcases h2 e he with h | h
      · exact Or.inl (List.mem_cons_of_mem _ h)
      · rcases TaskMap.mem_insert F p.1 p.2 e h with h | h
        · exact Or.inl (h ▸ List.mem_cons_self _ _)
        · exact Or.inr h
    · intro k
      rw [h3, TaskMap.mem_keys_insert]
      simp only [TaskMap.keys, List.map_cons, List.mem_cons]
      tauto

theorem TaskMap.find_of_mem_keys (m : TaskMap) (k : ShardId) (h : k ∈ TaskMap.keys m) :
    ∃ v, TaskMap.find m k = some v ∧ (k, v) ∈ m := by
  induction m with
  | nil => simp [TaskMap.keys] at h
  | cons e rest ih =>
    obtain ⟨k', v'⟩ := e
    unfold TaskMap.find
    by_cases hk : k' = k
    · subst hk
      exact ⟨v', by simp, List.mem_cons_self _ _⟩
    · have h' : k ∈ TaskMap.keys rest := by
        simp only [TaskMap.keys, List.map_cons, List.mem_cons] at h
        rcases h with h | h
        · exact absurd h.symm hk
        · exact h
      obtain ⟨v, hv1, hv2⟩ := ih h'
      exact ⟨v, by simp [hk, hv1], List.mem_cons_of_mem _ hv2⟩

/-- Draining a worker with empty active: one round per pending entry, each entry is filed in
finished under its id, pending and active end empty. -/
theorem drain_spec (r : RunDescriptor) (P : TaskMap) :
    ∀ (w : WorkerState) (msg : RunKernelReq) (fuel : Nat),
      w.pending = P → w.active = [] → (∀ e ∈ P, e.2.id = e.1) → P.length < fuel →
      ∃ w', drain r msg fuel w = some (P.length, w') ∧ w'.pending = [] ∧ w'.active = [] ∧
        w'.finished = P.foldl (fun f e => TaskMap.insert f e.1 e.2) w.finished := by
  induction P with
  | nil =>
    intro w msg fuel hp ha _ hfuel
    obtain ⟨n, rfl⟩ : ∃ n, fuel = n + 1 := ⟨fuel - 1, by simp at hfuel; omega⟩
    refine ⟨w, ?_, hp, ha, rfl⟩
    simp [drain, WorkerState.get_next, hp]
  | cons e rest ih =>
    intro w msg fuel hp ha hk hfuel
    obtain ⟨k, st⟩ := e
    obtain ⟨n, rfl⟩ : ∃ n, fuel = n + 1 := ⟨fuel - 1, by simp at hfuel; omega⟩
    have hid : st.id = k := hk (k, st) (List.mem_cons_self _ _)
    have hget : w.get_next r msg =
        (true, { w with pending := rest, active := [(k, st)] },
         { kernel := r.kernel_id, table := r.table_id, shard := st.id.2, args := r.args }) := by
      unfold WorkerState.get_next
      simp [hp, ha, TaskMap.insert, hid]
    have hfin : ({ w with pending := rest, active := [(k, st)] } : WorkerState).set_finished k =
        { w with pending := rest, active := [], finished := TaskMap.insert w.finished k st } := by
      simp [WorkerState.set_finished, TaskMap.index, TaskMap.find, TaskMap.erase]
    obtain ⟨w', h1, h2, h3, h4⟩ :=
      ih { w with pending := rest, active := [], finished := TaskMap.insert w.finished k st }
        { kernel := r.kernel_id, table := r.table_id, shard := st.id.2, args := r.args } n rfl rfl
        (fun e he => hk e (List.mem_cons_of_mem _ he)) (by simp at hfuel; omega)
    refine ⟨w', ?_, h2, h3, ?_⟩
    · unfold drain
      rw [hget]
      simp only
      rw [hfin, h1]
      simp
    · rw [h4]
      simp

/-- C3 (completion coverage for one worker).  Start from a worker with empty pending, active and
finished, call assign_task for each id of the list `ids`, then repeat "get_next, set_finished on
the id get_next made active" until get_next returns false.  With enough fuel the loop ends after
exactly as many rounds as there are distinct ids, with pending and active empty and with the keys
of finished being the ids, each once. -/
theorem completion_coverage (r : RunDescriptor) (msg : RunKernelReq) (w : WorkerState)
    (ids : List ShardId) (fuel : Nat)
    (hp : w.pending = []) (ha : w.active = []) (hf : w.finished = [])
    (hfuel : ids.toFinset.card < fuel) :
    ∃ w', drain r msg fuel (ids.foldl WorkerState.assign_task w) = some (ids.toFinset.card, w') ∧
      w'.pending = [] ∧ w'.active = [] ∧
      (TaskMap.keys w'.finished).Nodup ∧
      (TaskMap.keys w'.finished).toFinset = ids.toFinset ∧
      (∀ id ∈ ids, TaskMap.find w'.finished id = some (TaskState.ofId id 1)) := by
  obtain ⟨h1, h2, h3⟩ := WorkerState.foldl_assign_task ids w
  rw [hp] at h3
  rw [ha] at h1
  rw [hf] at h2
  have h3' : (ids.foldl WorkerState.assign_task w).pending =
      (ids.map (fun id => (id, TaskState.ofId id 1))).foldl
        (fun f e => TaskMap.insert f e.1 e.2) [] := by
    rw [h3, List.foldl_map]
  obtain ⟨ps, pm, pk⟩ := TaskMap.foldl_insert_entries
    (ids.map (fun id => (id, TaskState.ofId id 1))) [] List.Pairwise.nil
  rw [← h3'] at ps pm pk
  have pent : ∀ e ∈ (ids.foldl WorkerState.assign_task w).pending,
      e.2 = TaskState.ofId e.1 1 := by
    intro e he
    rcases pm e he with h | h
    · obtain ⟨id, _, rfl⟩ := List.mem_map.1 h
      rfl
    · simp at h
  have pkeys : ∀ k, k ∈ TaskMap.keys (ids.foldl WorkerState.assign_task w).pending ↔ k ∈ ids := by
    intro k
    rw [pk]
    simp [TaskMap.keys]
  have pcard : (ids.foldl WorkerState.assign_task w).pending.length = ids.toFinset.card := by
    have hn := TaskMap.sorted_keys_nodup _ ps
    have hlen : (TaskMap.keys (ids.foldl WorkerState.assign_task w).pending).length =
        (ids.foldl WorkerState.assign_task w).pending.length := by simp [TaskMap.keys]
    rw [← hlen, ← List.toFinset_card_of_nodup hn]
    congr 1
    ext k
    simp [pkeys]
  obtain ⟨w', d1, d2, d3, d4⟩ := drain_spec r _ (ids.foldl WorkerState.assign_task w) msg fuel rfl h1
    (fun e he => by rw [pent e he]; rfl) (by rw [pcard]; exact hfuel)
  rw [pcard] at d1
  rw [h2] at d4
  obtain ⟨fs, fm, fk⟩ := TaskMap.foldl_insert_entries
    (ids.foldl WorkerState.assign_task w).pending [] List.Pairwise.nil
  rw [← d4] at fs fm fk
  have fkeys : ∀ k, k ∈ TaskMap.keys w'.finished ↔ k ∈ ids := by
    intro k
    rw [fk, pkeys]
    simp [TaskMap.keys]
  refine ⟨w', d1, d2, d3, TaskMap.sorted_keys_nodup _ fs, ?_, ?_⟩
  · ext k
    simp [fkeys]
  · intro id hid
    obtain ⟨v, hv1, hv2⟩ := TaskMap.find_of_mem_keys w'.finished id ((fkeys id).2 hid)
    rcases fm (id, v) hv2 with h | h
    · have hv := pent (id, v) h
      simp only at hv
      rw [hv1, hv]
    · simp at h

/-- C3 witness: three assign_task calls on two distinct shards drain in exactly two rounds. -/
theorem completion_coverage_witness :
    ∃ w', drain ⟨0, 7, [], [0, 1]⟩ ⟨0, 0, 0, []⟩ 5
        (([(0, 1), (0, 0), (0, 1)] : List ShardId).foldl WorkerState.assign_task
          (WorkerState.new 3)) =
        some (([(0, 1), (0, 0), (0, 1)] : List ShardId).toFinset.card, w') ∧
      w'.pending = [] ∧ w'.active = [] ∧
      (TaskMap.keys w'.finished).Nodup ∧
      (TaskMap.keys w'.finished).toFinset = ([(0, 1), (0, 0), (0, 1)] : List ShardId).toFinset ∧
      (∀ id ∈ ([(0, 1), (0, 0), (0, 1)] : List ShardId),
        TaskMap.find w'.finished id = some (TaskState.ofId id 1)) :=
  completion_coverage ⟨0, 7, [], [0, 1]⟩ ⟨0, 0, 0, []⟩ (WorkerState.new 3)
    [(0, 1), (0, 0), (0, 1)] 5 rfl rfl rfl (by decide)

/-! ## Theorems: duplicate completion -/

theorem TaskMap.insert_insert (m : TaskMap) (k : ShardId) (v v' : TaskState) :
    TaskMap.insert (TaskMap.insert m k v) k v' = TaskMap.insert m k v' := by
  induction m with
  | nil => simp [TaskMap.insert, ShardId.lt_irrefl]
  | cons e rest ih =>
    obtain ⟨k1, v1⟩ := e
    by_cases h1 : ShardId.lt k k1
    · simp [TaskMap.insert, h1, ShardId.lt_irrefl]
    · by_cases h2 : k1 = k
      · simp [TaskMap.insert, h1, h2, ShardId.lt_irrefl]
      · simp [TaskMap.insert, h1, h2, ih]

theorem TaskMap.keys_insert_value (m : TaskMap) (k : ShardId) (v v' : TaskState) :
    TaskMap.keys (TaskMap.insert m k v) = TaskMap.keys (TaskMap.insert m k v') := by
  induction m with
  | nil => simp [TaskMap.insert, TaskMap.keys]
  | cons e rest ih =>
    obtain ⟨k1, v1⟩ := e
    by_cases h1 : ShardId.lt k k1
    · simp [TaskMap.insert, h1, TaskMap.keys]
    · by_cases h2 : k1 = k
      · subst h2
        simp [TaskMap.insert, h1, TaskMap.keys]
      · simp only [TaskMap.insert, h1, h2, if_false, TaskMap.keys, List.map_cons] at ih ⊢
        rw [ih]

theorem TaskMap.find_insert_ne (m : TaskMap) (k k' : ShardId) (v : TaskState) (h : k' ≠ k) :
    TaskMap.find (TaskMap.insert m k v) k' = TaskMap.find m k' := by
  induction m with
  | nil => simp [TaskMap.insert, TaskMap.find, Ne.symm h]
  | cons e rest ih =>
    obtain ⟨k1, v1⟩ := e
    by_cases h1 : ShardId.lt k k1
    · simp [TaskMap.insert, h1, TaskMap.find, Ne.symm h]
    · by_cases h2 : k1 = k
      · subst h2
        simp [TaskMap.insert, h1, TaskMap.find, Ne.symm h]
      · simp [TaskMap.insert, h1, h2, TaskMap.find, ih]

theorem TaskMap.find_insert_self (m : TaskMap) (k : ShardId) (v : TaskState) :
    TaskMap.find (TaskMap.insert m k v) k = some v := by
  induction m with
  | nil => simp [TaskMap.insert, TaskMap.find]
  | cons e rest ih =>
    obtain ⟨k1, v1⟩ := e
    by_cases h1 : ShardId.lt k k1
    · simp [TaskMap.insert, h1, TaskMap.find]
    · by_cases h2 : k1 = k
      · subst h2
        simp [TaskMap.insert, h1, TaskMap.find]
      · simp [TaskMap.insert, h1, h2, TaskMap.find, ih]

theorem TaskMap.erase_sublist (m : TaskMap) (k : ShardId) :
    List.Sublist (TaskMap.erase m k) m := by
  induction m with
  | nil => simp [TaskMap.erase]
  | cons e rest ih =>
    obtain ⟨k1, v1⟩ := e
    unfold TaskMap.erase
    split
    · exact List.sublist_cons_self _ _
    · exact List.Sublist.cons₂ _ ih

theorem TaskMap.mem_keys_of_find (m : TaskMap) (k : ShardId) (v : TaskState)
    (hf : TaskMap.find m k = some v) : k ∈ TaskMap.keys m := by
  induction m with
  | nil => simp [TaskMap.find] at hf
  | cons e rest ih =>
    obtain ⟨k1, v1⟩ := e
    unfold TaskMap.find at hf
    split at hf
    · rename_i h1; simp [TaskMap.keys, h1]
    · simp only [TaskMap.keys, List.map_cons, List.mem_cons]
      exact Or.inr (ih hf)

theorem TaskMap.find_erase_self (m : TaskMap) (k : ShardId) (h : TaskMap.Sorted m) :
    TaskMap.find (TaskMap.erase m k) k = none := by
  induction m with
  | nil => simp [TaskMap.erase, TaskMap.find]
  | cons e rest ih =>
    obtain ⟨k1, v1⟩ := e
    have hc := List.pairwise_cons.1 h
    unfold TaskMap.erase
    split
    · rename_i heq
      subst heq
      cases hf : TaskMap.find rest k1 with
      | none => rfl
      | some v =>
        exfalso
        have hmem : k1 ∈ TaskMap.keys rest := TaskMap.mem_keys_of_find rest k1 v hf
        obtain ⟨e, he, hek⟩ := List.mem_map.1 hmem
        have := hc.1 e he
        rw [hek] at this
        exact ShardId.lt_irrefl _ this
    · rename_i hne
      simp [TaskMap.find, hne, ih hc.2]

/-- C4 counterexample: with task (0,1) active, the second set_finished((0,1)) replaces the
TaskState filed under (0,1) in finished by the default `TaskState()` (size -1, id (0,0)). -/
theorem set_finished_twice_counterexample :
    (TaskMap.find
      ({ pending := [], active := [((0, 1), TaskState.ofId (0, 1) 1)], finished := [],
         shards := [], status := 0, id := 0, alive := true } : WorkerState).active (0, 1)).isSome
      = true ∧
    TaskMap.find
      (({ pending := [], active := [((0, 1), TaskState.ofId (0, 1) 1)], finished := [],
          shards := [], status := 0, id := 0, alive := true } : WorkerState).set_finished
        (0, 1)).finished (0, 1) = some { id := (0, 1), size := 1, stolen := false } ∧
    TaskMap.find
      ((({ pending := [], active := [((0, 1), TaskState.ofId (0, 1) 1)], finished := [],
           shards := [], status := 0, id := 0, alive := true } : WorkerState).set_finished
        (0, 1)).set_finished (0, 1)).finished (0, 1)
        = some { id := (0, 0), size := -1, stolen := false } ∧
    (({ pending := [], active := [((0, 1), TaskState.ofId (0, 1) 1)], finished := [],
        shards := [], status := 0, id := 0, alive := true } : WorkerState).set_finished
      (0, 1)).set_finished (0, 1) ≠
    ({ pending := [], active := [((0, 1), TaskState.ofId (0, 1) 1)], finished := [],
       shards := [], status := 0, id := 0, alive := true } : WorkerState).set_finished (0, 1) := by
  decide

/-- C4 (amended).  For a worker whose active map is a well-formed `std::map` and every id (in
particular one that is in active), applying set_finished(id) twice gives the same pending map,
the same active map, the same key set of finished and the same TaskState under every key of
finished other than `id` as applying it once. -/
theorem set_finished_twice (w : WorkerState) (id : ShardId) (hs : w.active.Sorted) :
    ((w.set_finished id).set_finished id).pending = (w.set_finished id).pending ∧
    ((w.set_finished id).set_finished id).active = (w.set_finished id).active ∧
    TaskMap.keys ((w.set_finished id).set_finished id).finished
      = TaskMap.keys (w.set_finished id).finished ∧
    (∀ k, k ≠ id → TaskMap.find ((w.set_finished id).set_finished id).finished k
      = TaskMap.find (w.set_finished id).finished k) ∧
    ((w.set_finished id).set_finished id).shards = (w.set_finished id).shards := by
  have hact : (w.set_finished id).active = TaskMap.erase w.active id :=
    WorkerState.set_finished_active w id
  have hnone : TaskMap.find (w.set_finished id).active id = none := by
    rw [hact]; exact TaskMap.find_erase_self _ _ hs
  refine ⟨rfl, ?_, ?_, ?_, rfl⟩
  · rw [WorkerState.set_finished_active, TaskMap.erase_of_find_none _ _ hnone]
  · show TaskMap.keys (TaskMap.insert (TaskMap.insert w.finished id _) id _) = _
    rw [TaskMap.insert_insert]
    exact TaskMap.keys_insert_value _ _ _ _
  · intro k hk
    show TaskMap.find (TaskMap.insert (TaskMap.insert w.finished id _) id _) k = _
    rw [TaskMap.insert_insert, TaskMap.find_insert_ne _ _ _ _ hk]
    exact (TaskMap.find_insert_ne _ _ _ _ hk).symm

/-- C4 witness (amended claim): a worker with task (0,1) active and (0,0) already finished. -/
theorem set_finished_twice_witness :
    TaskMap.keys
      ((({ pending := [], active := [((0, 1), TaskState.ofId (0, 1) 1)],
           finished := [((0, 0), TaskState.ofId (0, 0) 1)],
           shards := [], status := 0, id := 0, alive := true } : WorkerState).set_finished
        (0, 1)).set_finished (0, 1)).finished
    = TaskMap.keys
      (({ pending := [], active := [((0, 1), TaskState.ofId (0, 1) 1)],
          finished := [((0, 0), TaskState.ofId (0, 0) 1)],
          shards := [], status := 0, id := 0, alive := true } : WorkerState).set_finished
        (0, 1)).finished :=
  (set_finished_twice
    { pending := [], active := [((0, 1), TaskState.ofId (0, 1) 1)],
      finished := [((0, 0), TaskState.ofId (0, 0) 1)],
      shards := [], status := 0, id := 0, alive := true } (0, 1) (by decide)).2.2.1

/-! ## Theorems: disjointness of the three task maps -/

theorem TaskMap.mem_keys_of_sublist {m m' : TaskMap} (h : List.Sublist m' m) (k : ShardId)
    (hk : k ∈ TaskMap.keys m') : k ∈ TaskMap.keys m :=
  (List.Sublist.map Prod.fst h).subset hk

/-- The invariant behind C5: in every state reached with assign_task applied only to ids that
are neither active nor finished, pending and finished are sorted, pending is keyed by task id,
active holds at most one task, and the key sets of the three maps are pairwise disjoint. -/
theorem ReachableBy.task_maps_inv (w : WorkerState)
    (h : ReachableBy
      (fun w id => id ∉ TaskMap.keys w.active ∧ id ∉ TaskMap.keys w.finished)
      (fun w id => (TaskMap.find w.active id).isSome = true) w) :
    TaskMap.Sorted w.pending ∧ (∀ e ∈ w.pending, e.2.id = e.1) ∧ w.active.length ≤ 1 ∧
    TaskMap.Sorted w.finished ∧
    (∀ k, k ∈ TaskMap.keys w.pending → k ∉ TaskMap.keys w.active) ∧
    (∀ k, k ∈ TaskMap.keys w.pending → k ∉ TaskMap.keys w.finished) ∧
    (∀ k, k ∈ TaskMap.keys w.active → k ∉ TaskMap.keys w.finished) := by
  induction h with
  | fresh w_id => simp [WorkerState.new, TaskMap.Sorted, TaskMap.keys]
  | @assign_task w id _ hok ih =>
    obtain ⟨i1, i2, i3, i4, i5, i6, i7⟩ := ih
    refine ⟨TaskMap.insert_sorted _ _ _ i1, ?_, i3, i4, ?_, ?_, i7⟩
    · intro e he
      rcases TaskMap.mem_insert _ _ _ e he with h | h
      · subst h; rfl
      · exact i2 e h
    · intro k hk
      rcases (TaskMap.mem_keys_insert _ _ _ k).1 hk with h | h
      · subst h; exact hok.1
      · exact i5 k h
    · intro k hk
      rcases (TaskMap.mem_keys_insert _ _ _ k).1 hk with h | h
      · subst h; exact hok.2
      · exact i6 k h
  | @remove_task w w' id _ hrm ih =>
    obtain ⟨i1, i2, i3, i4, i5, i6, i7⟩ := ih
    unfold WorkerState.remove_task at hrm
    split at hrm
    · exact absurd hrm (by simp)
    · cases hrm
      have hsub := TaskMap.erase_sublist w.pending id
      refine ⟨List.Pairwise.sublist hsub i1, fun e he => i2 e (hsub.subset he), i3, i4, ?_, ?_, i7⟩
      · intro k hk
        exact i5 k (TaskMap.mem_keys_of_sublist hsub k hk)
      · intro k hk
        exact i6 k (TaskMap.mem_keys_of_sublist hsub k hk)
  | @get_next w r msg _ ih =>
    obtain ⟨i1, i2, i3, i4, i5, i6, i7⟩ := ih
    unfold WorkerState.get_next
    split
    · exact ⟨i1, i2, i3, i4, i5, i6, i7⟩
    · rename_i k st rest hp
      split
      · exact ⟨i1, i2, i3, i4, i5, i6, i7⟩
      · rename_i hemp
        have hact : w.active = [] := by simpa using hemp
        rw [hp] at i1 i2 i5 i6
        have hid : st.id = k := i2 (k, st) (List.mem_cons_self _ _)
        have hc := List.pairwise_cons.1 i1
        simp only [hact, TaskMap.insert, hid]
        refine ⟨hc.2, fun e he => i2 e (List.mem_cons_of_mem _ he), by simp, i4, ?_, ?_, ?_⟩
        · intro k' hk' hmem
          have hkk : k' = k := by simpa [TaskMap.keys] using hmem
          subst hkk
          obtain ⟨e, he, hek⟩ := List.mem_map.1 hk'
          have := hc.1 e he
          rw [hek] at this
          exact ShardId.lt_irrefl _ this
        · intro k' hk'
          exact i6 k' (by simp only [TaskMap.keys, List.map_cons, List.mem_cons]; exact Or.inr hk')
        · intro k' hmem
          have hkk : k' = k := by simpa [TaskMap.keys] using hmem
          subst hkk
          exact i6 k' (by simp [TaskMap.keys])
  | @set_finished w id _ hok ih =>
    obtain ⟨i1, i2, i3, i4, i5, i6, i7⟩ := ih
    have hact : (w.set_finished id).active = [] := by
      rw [WorkerState.set_finished_active]
      match hw : w.active, i3, hok with
      | [], _, hok => simp [hw, TaskMap.find] at hok
      | [(a, v)], _, hok =>
        have : a = id := by
          by_contra hne
          simp [TaskMap.find, hne] at hok
        simp [TaskMap.erase, this]
      | _ :: _ :: _, hlen, _ => simp [hw] at hlen
    have hidact : id ∈ TaskMap.keys w.active := by
      cases hf : TaskMap.find w.active id with
      | none => simp [hf] at hok
      | some v => exact TaskMap.mem_keys_of_find _ _ v hf
    refine ⟨i1, i2, by rw [hact]; simp, TaskMap.insert_sorted _ _ _ i4, ?_, ?_, ?_⟩
    · intro k _
      rw [hact]; simp [TaskMap.keys]
    · intro k hk hmem
      rcases (TaskMap.mem_keys_insert _ _ _ k).1 hmem with h | h
      · subst h; exact i5 k hk hidact
      · exact i6 k hk h
    · intro k hk
      rw [hact] at hk
      simp [TaskMap.keys] at hk
  | @clear_tasks w w' _ hcl ih =>
    unfold WorkerState.clear_tasks at hcl
    split at hcl
    · cases hcl
      simp [TaskMap.Sorted, TaskMap.keys]
    · exact absurd hcl (by simp)

/-- C5 counterexample: fresh, assign_task((0,1)), get_next, assign_task((0,1)) is a run of the
allowed operations that leaves (0,1) both in pending and in active. -/
theorem disjoint_task_maps_counterexample :
    ReachableBy (fun _ _ => True) (fun w id => (TaskMap.find w.active id).isSome = true)
      ((((WorkerState.new 0).assign_task (0, 1)).get_next
          ⟨0, 7, [], [1]⟩ ⟨0, 0, 0, []⟩).2.1.assign_task (0, 1)) ∧
    (0, 1) ∈ TaskMap.keys ((((WorkerState.new 0).assign_task (0, 1)).get_next
          ⟨0, 7, [], [1]⟩ ⟨0, 0, 0, []⟩).2.1.assign_task (0, 1)).pending ∧
    (0, 1) ∈ TaskMap.keys ((((WorkerState.new 0).assign_task (0, 1)).get_next
          ⟨0, 7, [], [1]⟩ ⟨0, 0, 0, []⟩).2.1.assign_task (0, 1)).active :=
  ⟨ReachableBy.assign_task _
      (ReachableBy.get_next _ _ (ReachableBy.assign_task _ (ReachableBy.fresh 0) trivial))
      trivial,
   by decide, by decide⟩

/-- C5 (amended).  In every state reachable from a freshly constructed WorkerState by assign_task
on ids that are neither active nor finished, remove_task on a pending id, get_next, set_finished
on an active id and clear_tasks with empty active, pending and active have no ShardId in common,
no ShardId is in more than one of pending, active and finished, and within each map every
ShardId occurs once. -/
theorem disjoint_task_maps (w : WorkerState)
    (h : ReachableBy
      (fun w id => id ∉ TaskMap.keys w.active ∧ id ∉ TaskMap.keys w.finished)
      (fun w id => (TaskMap.find w.active id).isSome = true) w) :
    (∀ k, k ∈ TaskMap.keys w.pending → k ∉ TaskMap.keys w.active) ∧
    (∀ k, k ∈ TaskMap.keys w.pending → k ∉ TaskMap.keys w.finished) ∧
    (∀ k, k ∈ TaskMap.keys w.active → k ∉ TaskMap.keys w.finished) ∧
    (TaskMap.keys w.pending).Nodup ∧ (TaskMap.keys w.active).Nodup ∧
    (TaskMap.keys w.finished).Nodup := by
  obtain ⟨i1, _, i3, i4, i5, i6, i7⟩ := ReachableBy.task_maps_inv w h
  refine ⟨i5, i6, i7, TaskMap.sorted_keys_nodup _ i1, ?_, TaskMap.sorted_keys_nodup _ i4⟩
  match hw : w.active, i3 with
  | [], _ => simp [TaskMap.keys]
  | [_], _ => simp [TaskMap.keys]
  | _ :: _ :: _, hlen => simp at hlen

/-- C5 witness (amended claim): assign (0,1) and (0,2), run (0,1) to completion; the pending
id (0,2) is not among the finished ones. -/
theorem disjoint_task_maps_witness :
    (0, 2) ∉ TaskMap.keys
        (((((WorkerState.new 0).assign_task (0, 1)).assign_task (0, 2)).get_next
          ⟨0, 7, [], [1, 2]⟩ ⟨0, 0, 0, []⟩).2.1.set_finished (0, 1)).finished :=
  (disjoint_task_maps _
    (ReachableBy.set_finished (0, 1)
      (ReachableBy.get_next ⟨0, 7, [], [1, 2]⟩ ⟨0, 0, 0, []⟩
        (ReachableBy.assign_task (0, 2)
          (ReachableBy.assign_task (0, 1) (ReachableBy.fresh 0) (by decide))
          (by decide)))
      (by decide))).2.1 (0, 2) (by decide)

/-! ## Theorems: shards and routing -/

theorem ShardT.find_set_self {K V : Type} [DecidableEq K] (s : ShardT K V) (k : K) (v : V) :
    ShardT.find (ShardT.set s k v) k = some v := by
  induction s with
  | nil => simp [ShardT.set, ShardT.find]
  | cons e rest ih =>
    obtain ⟨k1, v1⟩ := e
    by_cases h : k1 = k
    · simp [ShardT.set, ShardT.find, h]
    · simp [ShardT.set, ShardT.find, h, ih]

theorem ShardT.find_set_ne {K V : Type} [DecidableEq K] (s : ShardT K V) (k k' : K) (v : V)
    (hne : k' ≠ k) : ShardT.find (ShardT.set s k v) k' = ShardT.find s k' := by
  induction s with
  | nil => simp [ShardT.set, ShardT.find, Ne.symm hne]
  | cons e rest ih =>
    obtain ⟨k1, v1⟩ := e
    by_cases h : k1 = k
    · subst h
      simp [ShardT.set, ShardT.find, Ne.symm hne]
    · simp [ShardT.set, ShardT.find, h, ih]

theorem Table.typed_shard_set_shard_self {K V : Type} (t : Table K V) (i : Nat) (s : ShardT K V)
    (h : i < t.shards_.length) : (t.set_shard i s).typed_shard i = s := by
  simp [Table.typed_shard, Table.set_shard, List.getD_eq_getElem?_getD, h]

theorem Table.typed_shard_set_shard_ne {K V : Type} (t : Table K V) (i j : Nat) (s : ShardT K V)
    (h : j ≠ i) : (t.set_shard i s).typed_shard j = t.typed_shard j := by
  simp [Table.typed_shard, Table.set_shard, List.getD_eq_getElem?_getD,
    List.getElem?_set_ne (Ne.symm h)]

theorem Table.set_shard_typed_shard {K V : Type} (t : Table K V) (i : Nat) :
    t.set_shard i (t.typed_shard i) = t := by
  have : t.shards_.set i (t.shards_.getD i []) = t.shards_ := by
    apply List.ext_getElem?
    intro j
    by_cases hj : i = j
    · subst hj
      by_cases hi : i < t.shards_.length
      · simp [List.getD_eq_getElem?_getD, hi]
      · have hle : t.shards_.length ≤ i := Nat.le_of_not_lt hi
        simp [List.getElem?_eq_none hle, hle]
    · simp [List.getElem?_set_ne hj]
  cases t
  simp only [Table.set_shard, Table.typed_shard] at this ⊢
  rw [this]

theorem Table.wait_untainted_clean {K V : Type} (env : TableEnv K V) (fuel : Nat)
    (t : Table K V) (shard : Nat) (h : t.tainted shard = false) :
    Table.wait_untainted env fuel t shard = .ok t := by
  unfold Table.wait_untainted
  simp [h]


/-- Reading a key that is present in its local, untainted shard returns the stored value, leaves
the table as it is and issues no Get call. -/
theorem Table.get_local_present {K V : Type} [DecidableEq K] [Inhabited V] (env : TableEnv K V)
    (fuel : Nat) (t : Table K V) (k : K) (u : V)
    (hlocal : t.is_local_shard (t.shard_for_key env k) = true)
    (hclean : t.tainted (t.shard_for_key env k) = false)
    (hfind : (t.typed_shard (t.shard_for_key env k)).find k = some u) :
    t.get env fuel k = .ok (u, t, []) := by
  unfold Table.get
  simp only [Table.wait_untainted_clean env fuel t _ hclean]
  cases hh : t.helper_ with
  | none => simp [Table.is_local_shard, hh] at hlocal
  | some h =>
    simp only [hlocal, if_true, ShardT.index, hfind]
    rw [Table.set_shard_typed_shard]

theorem Table.put_write_local {K V : Type} [DecidableEq K] (env : TableEnv K V) (t : Table K V)
    (k : K) (v : V) (hlocal : t.is_local_shard (t.shard_for_key env k) = true) :
    t.put_write env k v =
      t.set_shard (t.shard_for_key env k) ((t.typed_shard (t.shard_for_key env k)).set k v) := by
  have h1 : (t.set_shard (t.shard_for_key env k)
      ((t.typed_shard (t.shard_for_key env k)).set k v)).is_local_shard (t.shard_for_key env k)
      = true := hlocal
  unfold Table.put_write
  simp only [h1]
  rfl

/-- C6 (put/get round trip on a local shard).  For a table whose sharder returns indices below
`num_shards`, a key `k` whose shard is local and not tainted, and no flush due, `put(k, v)`
returns, the following `get(k)` returns `v` without a Get call, and for every other key `k'` that
is present in a local, untainted shard, `get(k')` returns the same value after the put as
before it. -/
theorem put_get_roundtrip {K V : Type} [DecidableEq K] [Inhabited V] (env : TableEnv K V)
    (fuel : Nat) (t : Table K V) (k : K) (v : V)
    (hsharder : ∀ k', env.shard_for_key k' t.num_shards < t.num_shards)
    (hlocal : t.is_local_shard (t.shard_for_key env k) = true)
    (hclean : t.tainted (t.shard_for_key env k) = false)
    (hnoflush : t.pending_writes_ ≤ t.flush_frequency) :
    t.put env k v = .ok (t.put_write env k v, []) ∧
    (t.put_write env k v).get env fuel k = .ok (v, t.put_write env k v, []) ∧
    (∀ k' u, k' ≠ k →
      t.is_local_shard (t.shard_for_key env k') = true →
      t.tainted (t.shard_for_key env k') = false →
      (t.typed_shard (t.shard_for_key env k')).find k' = some u →
      t.get env fuel k' = .ok (u, t, []) ∧
      (t.put_write env k v).get env fuel k' = .ok (u, t.put_write env k v, [])) := by
  have hpw := Table.put_write_local env t k v hlocal
  have hroute : ∀ k', (t.put_write env k v).shard_for_key env k' = t.shard_for_key env k' := by
    intro k'
    rw [hpw]
    simp [Table.shard_for_key, Table.num_shards, Table.set_shard]
  have hloc : ∀ i, (t.put_write env k v).is_local_shard i = t.is_local_shard i := by
    intro i; rw [hpw]; rfl
  have htaint : ∀ i, (t.put_write env k v).tainted i = t.tainted i := by
    intro i; rw [hpw]; rfl
  have hrange : t.shard_for_key env k < t.shards_.length := hsharder k
  refine ⟨?_, ?_, ?_⟩
  · unfold Table.put Table.flush_if_due
    have : (t.put_write env k v).pending_writes_ = t.pending_writes_ := by rw [hpw]; rfl
    have hff : (t.put_write env k v).flush_frequency = t.flush_frequency := by rw [hpw]; rfl
    rw [this, hff, if_neg (not_lt.2 hnoflush)]
  · apply Table.get_local_present
    · rw [hroute, hloc]; exact hlocal
    · rw [hroute, htaint]; exact hclean
    · rw [hroute]
      conv => lhs; rw [hpw]
      rw [Table.typed_shard_set_shard_self _ _ _ hrange]
      exact ShardT.find_set_self _ _ _
  · intro k' u hne hl' hc' hf'
    refine ⟨Table.get_local_present env fuel t k' u hl' hc' hf', ?_⟩
    apply Table.get_local_present
    · rw [hroute, hloc]; exact hl'
    · rw [hroute, htaint]; exact hc'
    · rw [hroute]
      conv => lhs; rw [hpw]
      by_cases hs : t.shard_for_key env k' = t.shard_for_key env k
      · rw [hs, Table.typed_shard_set_shard_self _ _ _ hrange, ShardT.find_set_ne _ _ _ _ hne]
        rw [← hs]; exact hf'
      · rw [Table.typed_shard_set_shard_ne _ _ _ _ hs]
        exact hf'

theorem Modulo.shard_for_key_lt (k : Int) (n : Nat) (hn : 0 < n) :
    Modulo.shard_for_key k n < n := by
  unfold Modulo.shard_for_key
  have h1 : 0 ≤ k % (n : Int) := Int.emod_nonneg k (by omega)
  have h2 : k % (n : Int) < n := Int.emod_lt_of_pos k (by omega)
  omega

/-- C6 witness: one worker, three shards, Modulo sharder; after put(1,10), put(4,40) is read
back as 40 (key 4 routes to shard 1). -/
theorem put_get_roundtrip_witness :
    (((tableOf 0 0 [0, 0, 0]).put_write (quietEnv Replace.accumulate) 1 10).put_write
        (quietEnv Replace.accumulate) 4 40).get (quietEnv Replace.accumulate) 0 4 =
      .ok (40, ((tableOf 0 0 [0, 0, 0]).put_write (quietEnv Replace.accumulate) 1 10).put_write
        (quietEnv Replace.accumulate) 4 40, []) :=
  (put_get_roundtrip (quietEnv Replace.accumulate) 0
    ((tableOf 0 0 [0, 0, 0]).put_write (quietEnv Replace.accumulate) 1 10) 4 40
    (fun k' => Modulo.shard_for_key_lt k' 3 (by decide)) (by decide) (by decide)
    (by decide)).2.1

/-! ## Theorems: update -/

theorem Table.update_write_length {K V : Type} [DecidableEq K] (env : TableEnv K V)
    (t : Table K V) (k : K) (v : V) :
    (t.update_write env k v).shards_.length = t.shards_.length := by
  simp [Table.update_write, Table.set_shard]

theorem Table.update_write_route {K V : Type} [DecidableEq K] (env : TableEnv K V)
    (t : Table K V) (k k' : K) (v : V) :
    (t.update_write env k v).shard_for_key env k' = t.shard_for_key env k' := by
  simp [Table.shard_for_key, Table.num_shards, Table.update_write_length]

theorem Table.update_write_shard {K V : Type} [DecidableEq K] (env : TableEnv K V)
    (t : Table K V) (k : K) (v : V) (hrange : t.shard_for_key env k < t.num_shards) :
    (t.update_write env k v).typed_shard (t.shard_for_key env k) =
      match (t.typed_shard (t.shard_for_key env k)).find k with
      | none => (t.typed_shard (t.shard_for_key env k)).set k v
      | some c => (t.typed_shard (t.shard_for_key env k)).set k (env.accumulate c v) := by
  have := Table.typed_shard_set_shard_self t (t.shard_for_key env k)
    (match (t.typed_shard (t.shard_for_key env k)).find k with
      | none => (t.typed_shard (t.shard_for_key env k)).set k v
      | some c => (t.typed_shard (t.shard_for_key env k)).set k (env.accumulate c v)) hrange
  rw [← this]
  rfl

/-- C7 (effect of update).  With the routed shard index in range, `update(k, v)` before any
flush changes the shard of `k` so that a present `k` with value `c` gets `accumulate(c, v)`, an
absent `k` is inserted with `v`, every other key of that shard keeps its value and every other
shard is unchanged; when no flush is due, that is the table `update` returns. -/
theorem update_effect {K V : Type} [DecidableEq K] (env : TableEnv K V) (t : Table K V)
    (k : K) (v : V) (hrange : t.shard_for_key env k < t.num_shards) :
    (∀ c, (t.typed_shard (t.shard_for_key env k)).find k = some c →
      ((t.update_write env k v).typed_shard (t.shard_for_key env k)).find k
        = some (env.accumulate c v)) ∧
    ((t.typed_shard (t.shard_for_key env k)).find k = none →
      ((t.update_write env k v).typed_shard (t.shard_for_key env k)).find k = some v) ∧
    (∀ k', k' ≠ k →
      ((t.update_write env k v).typed_shard (t.shard_for_key env k)).find k'
        = (t.typed_shard (t.shard_for_key env k)).find k') ∧
    (∀ j, j ≠ t.shard_for_key env k →
      (t.update_write env k v).typed_shard j = t.typed_shard j) ∧
    (t.update_write env k v).shards_.length = t.shards_.length ∧
    t.update env k v = Table.flush_if_due env (t.update_write env k v) ∧
    (t.pending_writes_ + 1 ≤ t.flush_frequency →
      t.update env k v = .ok (t.update_write env k v, [])) := by
  have hs := Table.update_write_shard env t k v hrange
  refine ⟨?_, ?_, ?_, ?_, Table.update_write_length env t k v, rfl, ?_⟩
  · intro c hc
    rw [hs, hc]
    exact ShardT.find_set_self _ _ _
  · intro hn
    rw [hs, hn]
    exact ShardT.find_set_self _ _ _
  · intro k' hne
    rw [hs]
    cases (t.typed_shard (t.shard_for_key env k)).find k with
    | none => exact ShardT.find_set_ne _ _ _ _ hne
    | some c => exact ShardT.find_set_ne _ _ _ _ hne
  · intro j hj
    exact Table.typed_shard_set_shard_ne t _ j _ hj
  · intro hle
    unfold Table.update Table.flush_if_due
    have h1 : (t.update_write env k v).pending_writes_ = t.pending_writes_ + 1 := rfl
    have h2 : (t.update_write env k v).flush_frequency = t.flush_frequency := rfl
    rw [h1, h2, if_neg (not_lt.2 hle)]

/-- C7 witness: with the Sum accumulator, update(4, 2) on a table holding 4 -> 40 gives 42. -/
theorem update_effect_witness :
    ((((tableOf 0 0 [0, 0, 0]).put_write (quietEnv Sum.accumulate) 4 40).update_write
        (quietEnv Sum.accumulate) 4 2).typed_shard 1).find 4 = some 42 :=
  (update_effect (quietEnv Sum.accumulate)
    ((tableOf 0 0 [0, 0, 0]).put_write (quietEnv Sum.accumulate) 4 40) 4 2 (by decide)).1
    40 (by decide)

/-! ## Theorems: accumulation is order independent -/

theorem Table.foldl_update_write_route {K V : Type} [DecidableEq K] (env : TableEnv K V)
    (k : K) (ws : List V) (t : Table K V) :
    (ws.foldl (fun t w => t.update_write env k w) t).shards_.length = t.shards_.length ∧
    (ws.foldl (fun t w => t.update_write env k w) t).shard_for_key env k
      = t.shard_for_key env k := by
  induction ws generalizing t with
  | nil => simp
  | cons w rest ih =>
    simp only [List.foldl_cons]
    obtain ⟨h1, h2⟩ := ih (t.update_write env k w)
    exact ⟨by rw [h1, Table.update_write_length], by rw [h2, Table.update_write_route]⟩

theorem Table.foldl_update_write_present {K V : Type} [DecidableEq K] (env : TableEnv K V)
    (k : K) (ws : List V) (t : Table K V) (c : V)
    (hrange : t.shard_for_key env k < t.num_shards)
    (hc : (t.typed_shard (t.shard_for_key env k)).find k = some c) :
    ((ws.foldl (fun t w => t.update_write env k w) t).typed_shard
      (t.shard_for_key env k)).find k = some (ws.foldl env.accumulate c) := by
  induction ws generalizing t c with
  | nil => simpa using hc
  | cons w rest ih =>
    simp only [List.foldl_cons]
    have hr : (t.update_write env k w).shard_for_key env k = t.shard_for_key env k :=
      Table.update_write_route env t k k w
    have h1 := ih (t.update_write env k w) (env.accumulate c w)
      (by rw [hr]; simpa [Table.num_shards, Table.update_write_length] using hrange)
      (by rw [hr, Table.update_write_shard env t k w hrange, hc]
          exact ShardT.find_set_self _ _ _)
    rw [hr] at h1
    exact h1

theorem Table.foldl_update_write_absent {K V : Type} [DecidableEq K] (env : TableEnv K V)
    (k : K) (w : V) (ws : List V) (t : Table K V)
    (hrange : t.shard_for_key env k < t.num_shards)
    (hc : (t.typed_shard (t.shard_for_key env k)).find k = none) :
    (((w :: ws).foldl (fun t w => t.update_write env k w) t).typed_shard
      (t.shard_for_key env k)).find k = some (ws.foldl env.accumulate w) := by
  simp only [List.foldl_cons]
  have hr : (t.update_write env k w).shard_for_key env k = t.shard_for_key env k :=
    Table.update_write_route env t k k w
  have h1 := Table.foldl_update_write_present env k ws (t.update_write env k w) w
    (by rw [hr]; simpa [Table.num_shards, Table.update_write_length] using hrange)
    (by rw [hr, Table.update_write_shard env t k w hrange, hc]
        exact ShardT.find_set_self _ _ _)
  rw [hr] at h1
  exact h1

/-- The fold of an associative, commutative operation over a non-empty list does not depend on
the order of the list. -/
theorem foldl_head_perm {V : Type} (acc : V → V → V)
    (hassoc : ∀ a b c, acc (acc a b) c = acc a (acc b c)) (hcomm : ∀ a b, acc a b = acc b a)
    (l l' : List V) (hp : List.Perm l l') : accFold acc l = accFold acc l' := by
  have hrc : ∀ b a1 a2, acc (acc b a1) a2 = acc (acc b a2) a1 := by
    intro b a1 a2
    rw [hassoc, hassoc, hcomm a1 a2]
  induction hp with
  | nil => rfl
  | cons x hp' _ =>
    simp only [accFold]
    congr 1
    exact List.Perm.foldl_eq' hp' (fun x _ y _ z => hrc z x y) x
  | swap x y l =>
    simp only [accFold, List.foldl_cons]
    rw [hcomm y x]
  | trans _ _ ih1 ih2 => exact ih1.trans ih2

theorem foldl_sum_accumulate (v : Int) (vs : List Int) :
    vs.foldl Sum.accumulate v = v + vs.sum := by
  induction vs generalizing v with
  | nil => simp
  | cons w rest ih =>
    simp only [List.foldl_cons, List.sum_cons]
    rw [ih]
    unfold Sum.accumulate
    ring

/-- C8 (accumulation is order independent).  For an associative and commutative accumulator, a
key `k` absent from its shard and a non-empty sequence `v :: vs`, running `update(k, w)` (no flush
in between) over any permutation `ws` of the sequence leaves `k` with the fold of the
accumulator over `v :: vs`; with the Sum accumulator that is the sum of the sequence, and one
hundred updates of 3 leave 300. -/
theorem update_fold_perm :
    (∀ {K V : Type} [DecidableEq K] (env : TableEnv K V) (t : Table K V) (k : K) (v : V)
      (vs ws : List V),
      (∀ a b c, env.accumulate (env.accumulate a b) c = env.accumulate a (env.accumulate b c)) →
      (∀ a b, env.accumulate a b = env.accumulate b a) →
      t.shard_for_key env k < t.num_shards →
      (t.typed_shard (t.shard_for_key env k)).find k = none →
      List.Perm ws (v :: vs) →
      ((ws.foldl (fun t w => t.update_write env k w) t).typed_shard
        (t.shard_for_key env k)).find k = some (vs.foldl env.accumulate v)) ∧
    (∀ {K : Type} [DecidableEq K] (env : TableEnv K Int) (t : Table K Int) (k : K) (v : Int)
      (vs ws : List Int),
      env.accumulate = Sum.accumulate →
      t.shard_for_key env k < t.num_shards →
      (t.typed_shard (t.shard_for_key env k)).find k = none →
      List.Perm ws (v :: vs) →
      ((ws.foldl (fun t w => t.update_write env k w) t).typed_shard
        (t.shard_for_key env k)).find k = some (v :: vs).sum) ∧
    (∀ {K : Type} [DecidableEq K] (env : TableEnv K Int) (t : Table K Int) (k : K),
      env.accumulate = Sum.accumulate →
      t.shard_for_key env k < t.num_shards →
      (t.typed_shard (t.shard_for_key env k)).find k = none →
      (((List.replicate 100 (3 : Int)).foldl (fun t w => t.update_write env k w) t).typed_shard
        (t.shard_for_key env k)).find k = some 300) := by
  have gen : ∀ {K V : Type} [DecidableEq K] (env : TableEnv K V) (t : Table K V) (k : K) (v : V)
      (vs ws : List V),
      (∀ a b c, env.accumulate (env.accumulate a b) c = env.accumulate a (env.accumulate b c)) →
      (∀ a b, env.accumulate a b = env.accumulate b a) →
      t.shard_for_key env k < t.num_shards →
      (t.typed_shard (t.shard_for_key env k)).find k = none →
      List.Perm ws (v :: vs) →
      ((ws.foldl (fun t w => t.update_write env k w) t).typed_shard
        (t.shard_for_key env k)).find k = some (vs.foldl env.accumulate v) := by
    intro K V _ env t k v vs ws hassoc hcomm hrange habs hperm
    have hfold := foldl_head_perm env.accumulate hassoc hcomm ws (v :: vs) hperm
    cases ws with
    | nil => exact absurd hperm.symm (List.cons_ne_nil _ _ ∘ List.Perm.eq_nil)
    | cons w ws' =>
      rw [Table.foldl_update_write_absent env k w ws' t hrange habs]
      simpa [accFold] using hfold
  have sum : ∀ {K : Type} [DecidableEq K] (env : TableEnv K Int) (t : Table K Int) (k : K)
      (v : Int) (vs ws : List Int),
      env.accumulate = Sum.accumulate →
      t.shard_for_key env k < t.num_shards →
      (t.typed_shard (t.shard_for_key env k)).find k = none →
      List.Perm ws (v :: vs) →
      ((ws.foldl (fun t w => t.update_write env k w) t).typed_shard
        (t.shard_for_key env k)).find k = some (v :: vs).sum := by
    intro K _ env t k v vs ws hacc hrange habs hperm
    rw [gen env t k v vs ws (by intro a b c; rw [hacc]; unfold Sum.accumulate; ring)
      (by intro a b; rw [hacc]; unfold Sum.accumulate; ring) hrange habs hperm]
    rw [hacc, foldl_sum_accumulate, List.sum_cons]
  refine ⟨gen, sum, ?_⟩
  intro K _ env t k hacc hrange habs
  have h := sum env t k 3 (List.replicate 99 3) (List.replicate 100 3) hacc hrange habs
    (by rw [show (100 : Nat) = 99 + 1 from rfl, List.replicate_succ])
  rw [h]
  simp [List.sum_replicate]

/-- C8 witness: updates 5, 7, 9 of key 4 with the Sum accumulator, issued as 9, 5, 7. -/
theorem update_fold_perm_witness :
    ((([9, 5, 7] : List Int).foldl
        (fun t w => t.update_write (quietEnv Sum.accumulate) 4 w) (tableOf 0 0 [0, 0, 0])).typed_shard
      ((tableOf 0 0 [0, 0, 0]).shard_for_key (quietEnv Sum.accumulate) 4)).find 4
      = some ([5, 7, 9] : List Int).sum :=
  update_fold_perm.2.1 (quietEnv Sum.accumulate) (tableOf 0 0 [0, 0, 0]) 4 5 [7, 9] [9, 5, 7]
    rfl (by decide) (by decide) (by decide)

/-! ## Theorems: send_updates -/

theorem Table.must_send_congr {K V : Type} [DecidableEq K] (t t1 : Table K V) (i : Nat)
    (hinfo : t1.shard_info_ = t.shard_info_) (hhelper : t1.helper_ = t.helper_)
    (hshard : t1.typed_shard i = t.typed_shard i) : t1.must_send i = t.must_send i := by
  simp only [Table.must_send, Table.is_local_shard, Table.worker_for_shard, hinfo, hhelper,
    hshard]

theorem Table.batch_for_congr {K V : Type} [DecidableEq K] (h : TableHelper) (t t1 : Table K V)
    (i : Nat) (hinfo : t1.shard_info_ = t.shard_info_) (hid : t1.id_ = t.id_)
    (hshard : t1.typed_shard i = t.typed_shard i) : t1.batch_for h i = t.batch_for h i := by
  simp only [Table.batch_for, Table.worker_for_shard, hinfo, hid, hshard]

/-- The state of the `send_updates` loop after the first `n` shards, for a table with a helper:
one batch per shard that passes the test, in shard order; those shards are cleared, the others
and every other field are untouched. -/
theorem Table.send_loop_spec {K V : Type} [DecidableEq K] (t : Table K V) (h : TableHelper)
    (hh : t.helper_ = some h) (n : Nat) (hn : n ≤ t.shards_.length) :
    ∃ t1 : Table K V,
      Table.send_loop t n =
        .ok ((((List.range n).filter t.must_send).map (fun i => (t.typed_shard i).length)).sum,
             t1, ((List.range n).filter t.must_send).map (t.batch_for h)) ∧
      t1 = { t with shards_ := t1.shards_ } ∧
      t1.shards_.length = t.shards_.length ∧
      (∀ j, n ≤ j → t1.typed_shard j = t.typed_shard j) ∧
      (∀ j, j < n → t1.typed_shard j = if t.must_send j then [] else t.typed_shard j) := by
  induction n with
  | zero =>
    refine ⟨t, ?_, rfl, rfl, fun j _ => rfl, fun j hj => absurd hj (Nat.not_lt_zero j)⟩
    simp [Table.send_loop]
  | succ n ih =>
    obtain ⟨t1, h1, h2, hlen, h3, h4⟩ := ih (Nat.le_of_succ_le hn)
    have hn' : n < t1.shards_.length := by rw [hlen]; exact hn
    have hinfo : t1.shard_info_ = t.shard_info_ := by rw [h2]
    have hhelper : t1.helper_ = t.helper_ := by rw [h2]
    have hid : t1.id_ = t.id_ := by rw [h2]
    have hms : t1.must_send n = t.must_send n :=
      Table.must_send_congr t t1 n hinfo hhelper (h3 n (le_refl n))
    have hb : t1.batch_for h n = t.batch_for h n :=
      Table.batch_for_congr h t t1 n hinfo hid (h3 n (le_refl n))
    have hstep : Table.send_loop t (n + 1) =
        Table.send_shard t1 n
          (((List.range n).filter t.must_send).map (fun i => (t.typed_shard i).length)).sum
          (((List.range n).filter t.must_send).map (t.batch_for h)) := by
      rw [Table.send_loop, h1]
    rw [hstep]
    unfold Table.send_shard
    rw [hms]
    by_cases hm : t.must_send n = true
    · refine ⟨t1.set_shard n [], ?_, ?_, by simp [Table.set_shard, hlen], ?_, ?_⟩
      · rw [if_pos hm, hhelper, hh]
        simp only [hb]
        simp [hm, List.range_succ, List.filter_append, Table.batch_for]
      · clear h1 hstep ih h3 h4 hms hb hm
        cases t1
        cases t
        simp only [Table.mk.injEq] at h2
        simp [Table.set_shard, h2]
      · intro j hj
        rw [Table.typed_shard_set_shard_ne t1 n j [] (by omega)]
        exact h3 j (by omega)
      · intro j hj
        by_cases hjn : j = n
        · subst hjn
          rw [Table.typed_shard_set_shard_self t1 j [] hn', if_pos hm]
        · rw [Table.typed_shard_set_shard_ne t1 n j [] hjn]
          exact h4 j (by omega)
    · have hm' : t.must_send n = false := by simpa using hm
      refine ⟨t1, ?_, h2, hlen, ?_, ?_⟩
      · rw [if_neg hm]
        simp [hm', List.range_succ, List.filter_append]
      · intro j hj
        exact h3 j (by omega)
      · intro j hj
        by_cases hjn : j = n
        · subst hjn
          rw [if_neg hm]
          exact h3 j (le_refl j)
        · exact h4 j (by omega)

/-- C9 (send_updates sends one batch per dirty or non-empty remote shard).  For a table with a
helper, send_updates returns; it sends a batch for every non-local shard whose partition info is
dirty, also when nothing is buffered for it (the batch is then empty); every batch has
`done = true`, names its shard and the table, goes to `worker_for_shard(shard) + 1` (the network
rank of the owning worker), carries exactly the entries buffered for that shard (each key once,
as the shard is a map) and belongs to a non-local shard; no shard gets two batches. -/
theorem send_updates_batches {K V : Type} [DecidableEq K] (t : Table K V) (h : TableHelper)
    (hh : t.helper_ = some h) :
    ∃ (count : Nat) (t1 : Table K V) (out : List (PutSent K V)),
      t.send_updates = .ok (count, t1, out) ∧
      out = ((List.range t.shards_.length).filter t.must_send).map (t.batch_for h) ∧
      (∀ i, i < t.shards_.length → t.is_local_shard i = false →
        (t.shard_info_.getD i default).dirty = true →
        t.batch_for h i ∈ out ∧ (t.typed_shard i = [] → (t.batch_for h i).put.kv_data = [])) ∧
      (∀ m ∈ out, ∃ i, i < t.shards_.length ∧ t.is_local_shard i = false ∧
        m.put.shard = i ∧ m.put.table = t.id_ ∧ m.put.done = true ∧
        m.put.source = h.id ∧ m.put.epoch = h.epoch ∧
        m.dest = t.worker_for_shard i + 1 ∧
        m.put.kv_data = t.typed_shard i ∧
        ((ShardT.keys (t.typed_shard i)).Nodup → (ShardT.keys m.put.kv_data).Nodup)) ∧
      (∀ m ∈ out, t.is_local_shard m.put.shard = false) ∧
      (out.map (fun m => m.put.shard)).Nodup := by
  obtain ⟨t1, h1, _, _, _, _⟩ := Table.send_loop_spec t h hh t.shards_.length (le_refl _)
  have hmem : ∀ m, m ∈ ((List.range t.shards_.length).filter t.must_send).map (t.batch_for h) →
      ∃ i, i < t.shards_.length ∧ t.must_send i = true ∧ m = t.batch_for h i := by
    intro m hm
    obtain ⟨i, hi, rfl⟩ := List.mem_map.1 hm
    obtain ⟨hi1, hi2⟩ := List.mem_filter.1 hi
    exact ⟨i, List.mem_range.1 hi1, hi2, rfl⟩
  have hloc : ∀ i, t.must_send i = true → t.is_local_shard i = false := by
    intro i hi
    simp only [Table.must_send, Bool.and_eq_true, Bool.not_eq_true'] at hi
    exact hi.1
  refine ⟨(((List.range t.shards_.length).filter t.must_send).map
      (fun i => (t.typed_shard i).length)).sum, { t1 with pending_writes_ := 0 },
    ((List.range t.shards_.length).filter t.must_send).map (t.batch_for h),
    ?_, rfl, ?_, ?_, ?_, ?_⟩
  · unfold Table.send_updates
    rw [h1]
  · intro i hi hl hd
    refine ⟨?_, fun he => he⟩
    apply List.mem_map.2
    refine ⟨i, List.mem_filter.2 ⟨List.mem_range.2 hi, ?_⟩, rfl⟩
    unfold Table.must_send
    rw [hl, hd]
    rfl
  · intro m hm
    obtain ⟨i, hi, hms, rfl⟩ := hmem m hm
    exact ⟨i, hi, hloc i hms, rfl, rfl, rfl, rfl, rfl, rfl, rfl, fun hn => hn⟩
  · intro m hm
    obtain ⟨i, _, hms, rfl⟩ := hmem m hm
    exact hloc i hms
  · rw [List.map_map]
    have : ((fun m : PutSent K V => m.put.shard) ∘ t.batch_for h) = id := by
      funext i; rfl
    rw [this, List.map_id]
    exact List.Nodup.filter _ (List.nodup_range _)

/-- C9 witness: worker 0 with shards owned by workers 0, 1, 1; shard 1 is dirty and empty,
shard 2 holds one buffered write.  The dirty shard still gets its (empty) batch. -/
theorem send_updates_batches_witness :
    ∃ (count : Nat) (t1 : Table Int Int) (out : List (PutSent Int Int)),
      (((tableOf 0 0 [0, 1, 1]).update_partitions ⟨1, 1, 0, true, false⟩).put_write
          (quietEnv Replace.accumulate) 2 20).send_updates = .ok (count, t1, out) ∧
      ({ dest := 2, put := { table := 0, shard := 1, source := 0, epoch := 0, kv_data := [],
                             done := true, missing_key := false } } : PutSent Int Int) ∈ out := by
  obtain ⟨count, t1, out, h1, _, h3, _⟩ := send_updates_batches
    (((tableOf 0 0 [0, 1, 1]).update_partitions ⟨1, 1, 0, true, false⟩).put_write
      (quietEnv Replace.accumulate) 2 20) ⟨0, 0⟩ rfl
  exact ⟨count, t1, out, h1, (h3 1 (by decide) (by decide) (by decide)).1⟩

/-! ## Theorems: pending_writes -/

/-- The count kept by `put`: unchanged for a local shard, one more for a remote shard. -/
theorem Table.put_write_pending_writes {K V : Type} [DecidableEq K] (env : TableEnv K V)
    (t : Table K V) (k : K) (v : V) :
    (t.is_local_shard (t.shard_for_key env k) = true →
      (t.put_write env k v).pending_writes_ = t.pending_writes_) ∧
    (t.is_local_shard (t.shard_for_key env k) = false →
      (t.put_write env k v).pending_writes_ = t.pending_writes_ + 1) := by
  have h1 : (t.set_shard (t.shard_for_key env k)
      ((t.typed_shard (t.shard_for_key env k)).set k v)).is_local_shard (t.shard_for_key env k)
      = t.is_local_shard (t.shard_for_key env k) := rfl
  constructor
  · intro hl
    rw [Table.put_write_local env t k v hl]
    rfl
  · intro hl
    unfold Table.put_write
    simp only [h1, hl]
    rfl

/-- The count kept by `update`: one more, whatever shard the key routes to. -/
theorem Table.update_write_pending_writes {K V : Type} [DecidableEq K] (env : TableEnv K V)
    (t : Table K V) (k : K) (v : V) :
    (t.update_write env k v).pending_writes_ = t.pending_writes_ + 1 := rfl

/-- C10 (failing input).  Worker 0 owns all three shards of the table and nothing is pending;
key 4 routes to the local shard 1.  `update(4, 2)` leaves `pending_writes_ = 1` (also in the
table the full call returns), where `put(4, 2)` on the same table leaves it at 0. -/
theorem update_local_counts_pending :
    (tableOf 0 0 [0, 0, 0]).is_local_shard
      ((tableOf 0 0 [0, 0, 0]).shard_for_key (quietEnv Sum.accumulate) 4) = true ∧
    (tableOf 0 0 [0, 0, 0]).pending_writes_ = 0 ∧
    ((tableOf 0 0 [0, 0, 0]).update_write (quietEnv Sum.accumulate) 4 2).pending_writes_ = 1 ∧
    ((tableOf 0 0 [0, 0, 0]).put_write (quietEnv Sum.accumulate) 4 2).pending_writes_ = 0 ∧
    (∃ t1, (tableOf 0 0 [0, 0, 0]).update (quietEnv Sum.accumulate) 4 2 = .ok (t1, []) ∧
      t1.pending_writes_ = 1) := by
  refine ⟨by decide, by decide, by decide, by decide, ?_⟩
  exact ⟨_, rfl, by decide⟩

/-! ## Theorems: the remote-read cache -/

/-- A get of a key with a cache entry, on a remote untainted shard of a table with a helper,
returns the cached value, leaves the table as it is and issues no Get call. -/
theorem Table.get_cached {K V : Type} [DecidableEq K] [Inhabited V] (env : TableEnv K V)
    (fuel : Nat) (t : Table K V) (k : K) (c : CacheEntry V) (h : TableHelper)
    (hh : t.helper_ = some h)
    (hremote : t.is_local_shard (t.shard_for_key env k) = false)
    (hclean : t.tainted (t.shard_for_key env k) = false)
    (hc : t.cache_find k = some c) :
    t.get env fuel k = .ok (c.val, t, []) := by
  unfold Table.get
  simp only [Table.wait_untainted_clean env fuel t _ hclean, hh, hremote]
  simp [Table.get_remote, hc]

/-- The same for contains: it returns true. -/
theorem Table.contains_cached {K V : Type} [DecidableEq K] [Inhabited V] (env : TableEnv K V)
    (fuel : Nat) (t : Table K V) (k : K) (c : CacheEntry V)
    (hremote : t.is_local_shard (t.shard_for_key env k) = false)
    (hclean : t.tainted (t.shard_for_key env k) = false)
    (hc : t.cache_find k = some c) :
    t.contains env fuel k = .ok (true, t, []) := by
  unfold Table.contains
  simp only [Table.wait_untainted_clean env fuel t _ hclean, hremote]
  simp [Table.get_remote, hc]

/-- C11 (remote read cache).  Take a table with a helper and a key `k` that routes to a remote,
untainted shard and has no cache entry.  If the owner replies to the Get call with a value `v`,
get returns `v`, has issued exactly that one call and leaves a cache entry for `k`; from then on
get returns `v` and contains returns true on that table without any Get call and without
changing the table, whatever the owner would reply (any other `call`, `check_network`, clock and
fuel).  If the owner replies `missing_key`, the cache has no entry for `k` afterwards. -/
theorem remote_read_cache {K V : Type} [DecidableEq K] [Inhabited V] (env env' : TableEnv K V)
    (fuel fuel' : Nat) (t : Table K V) (k : K) (h : TableHelper)
    (hh : t.helper_ = some h)
    (hremote : t.is_local_shard (t.shard_for_key env k) = false)
    (hclean : t.tainted (t.shard_for_key env k) = false)
    (hmiss : t.cache_find k = none)
    (hroute : env'.shard_for_key = env.shard_for_key) :
    (∀ k0 v rest,
      (env.call { dest := env.peer_for_shard t.id_ (t.shard_for_key env k) + 1,
                  req := { key := k, table := t.id_, shard := t.shard_for_key env k } }).missing_key
        = false →
      (env.call { dest := env.peer_for_shard t.id_ (t.shard_for_key env k) + 1,
                  req := { key := k, table := t.id_, shard := t.shard_for_key env k } }).kv_data
        = (k0, v) :: rest →
      ∃ t1, t.get env fuel k =
          .ok (v, t1, [{ dest := env.peer_for_shard t.id_ (t.shard_for_key env k) + 1,
                         req := { key := k, table := t.id_, shard := t.shard_for_key env k } }]) ∧
        t1.cache_find k = some { last_read_time := env.now, val := v } ∧
        t1.get env' fuel' k = .ok (v, t1, []) ∧
        t1.contains env' fuel' k = .ok (true, t1, [])) ∧
    ((env.call { dest := env.peer_for_shard t.id_ (t.shard_for_key env k) + 1,
                 req := { key := k, table := t.id_, shard := t.shard_for_key env k } }).missing_key
        = true →
      ∃ r t1, t.get env fuel k =
          .ok (r, t1, [{ dest := env.peer_for_shard t.id_ (t.shard_for_key env k) + 1,
                         req := { key := k, table := t.id_, shard := t.shard_for_key env k } }]) ∧
        t1.cache_find k = none) := by
  constructor
  · intro k0 v rest hm hkv
    obtain ⟨t1, ht1⟩ : ∃ t1 : Table K V, t1 =
        { t with cache_ := ShardT.set t.cache_ k { last_read_time := env.now, val := v } } :=
      ⟨_, rfl⟩
    have hh1 : t1.helper_ = some h := by rw [ht1]; exact hh
    have hs1 : t1.shard_for_key env' k = t.shard_for_key env k := by
      rw [ht1]; simp [Table.shard_for_key, Table.num_shards, hroute]
    have hr1 : t1.is_local_shard (t1.shard_for_key env' k) = false := by
      rw [hs1, ht1]; exact hremote
    have hc1 : t1.tainted (t1.shard_for_key env' k) = false := by
      rw [hs1, ht1]; exact hclean
    have hf1 : t1.cache_find k = some { last_read_time := env.now, val := v } := by
      rw [ht1]; exact ShardT.find_set_self _ _ _
    refine ⟨t1, ?_, hf1, ?_, ?_⟩
    · rw [ht1]
      unfold Table.get
      simp only [Table.wait_untainted_clean env fuel t _ hclean, hh, hremote]
      simp [Table.get_remote, hmiss, hh, hm, hkv]
    · exact Table.get_cached env' fuel' t1 k _ h hh1 hr1 hc1 hf1
    · exact Table.contains_cached env' fuel' t1 k _ hr1 hc1 hf1
  · intro hm
    refine ⟨env.fresh, t, ?_, hmiss⟩
    unfold Table.get
    simp only [Table.wait_untainted_clean env fuel t _ hclean, hh, hremote]
    simp [Table.get_remote, hmiss, hh, hm]

/-- C11 witness: worker 0, key 2 on shard 2 owned by worker 1, which holds 2 -> 20.  The first
get issues one call; afterwards get answers 20 from the cache although the owner would now
reply `missing_key`. -/
theorem remote_read_cache_witness :
    ∃ t1, (tableOf 0 0 [0, 1, 1]).get (peerEnv Replace.accumulate [(2, 20)]) 0 2 =
        .ok (20, t1, [{ dest := 1, req := { key := 2, table := 0, shard := 2 } }]) ∧
      t1.cache_find 2 = some { last_read_time := 0, val := 20 } ∧
      t1.get (quietEnv Replace.accumulate) 3 2 = .ok (20, t1, []) ∧
      t1.contains (quietEnv Replace.accumulate) 3 2 = .ok (true, t1, []) :=
  (remote_read_cache (peerEnv Replace.accumulate [(2, 20)]) (quietEnv Replace.accumulate) 0 3
    (tableOf 0 0 [0, 1, 1]) 2 ⟨0, 0⟩ rfl (by decide) (by decide) (by decide) rfl).1
    2 20 [] rfl rfl

/-- C12 counterexample: a table with the cache entry 2 -> 20 for a key of a remote shard; after
`clear()` the entry is still there and the next get answers from it without a Get call. -/
theorem clear_keeps_cache_counterexample :
    Table.cache_find
      ({ (tableOf 0 0 [0, 1, 1]) with cache_ := [(2, { last_read_time := 0, val := 20 })] }
        : Table Int Int) 2 = some { last_read_time := 0, val := 20 } ∧
    Table.cache_find
      (Table.clear ({ (tableOf 0 0 [0, 1, 1]) with
        cache_ := [(2, { last_read_time := 0, val := 20 })] } : Table Int Int)).1 2
      = some { last_read_time := 0, val := 20 } ∧
    Table.get (quietEnv Replace.accumulate) 0
      (Table.clear ({ (tableOf 0 0 [0, 1, 1]) with
        cache_ := [(2, { last_read_time := 0, val := 20 })] } : Table Int Int)).1 2
      = .ok (20, { (tableOf 0 0 [0, 1, 1]) with
          cache_ := [(2, { last_read_time := 0, val := 20 })] }, []) := by
  refine ⟨by decide, by decide, ?_⟩
  exact Table.get_cached (quietEnv Replace.accumulate) 0 _ 2 { last_read_time := 0, val := 20 }
    ⟨0, 0⟩ rfl (by decide) (by decide) (by decide)

/-- C12 (amended).  `clear()` broadcasts a ClearTable request naming the table and leaves the
table, its remote-read cache included, as it is: a key that has a cache entry still has it
after `clear()`, and the next get of it on a remote, untainted shard returns the cached value
without a Get call. -/
theorem clear_keeps_cache {K V : Type} [DecidableEq K] [Inhabited V] (env : TableEnv K V)
    (fuel : Nat) (t : Table K V) (k : K) (c : CacheEntry V) (hc : t.cache_find k = some c) :
    t.clear.1.cache_find k = some c ∧
    t.clear.2 = { table := t.id_ } ∧
    (∀ h, t.helper_ = some h →
      t.is_local_shard (t.shard_for_key env k) = false →
      t.tainted (t.shard_for_key env k) = false →
      t.clear.1.get env fuel k = .ok (c.val, t.clear.1, [])) :=
  ⟨hc, rfl, fun h hh hr hcl => Table.get_cached env fuel t k c h hh hr hcl hc⟩

/-- C12 witness (amended claim). -/
theorem clear_keeps_cache_witness :
    Table.cache_find
      (Table.clear ({ (tableOf 0 0 [0, 1, 1]) with
        cache_ := [(2, { last_read_time := 0, val := 20 })] } : Table Int Int)).1 2
      = some { last_read_time := 0, val := 20 } :=
  (clear_keeps_cache (quietEnv Replace.accumulate) 0
    ({ (tableOf 0 0 [0, 1, 1]) with cache_ := [(2, { last_read_time := 0, val := 20 })] }
      : Table Int Int) 2 { last_read_time := 0, val := 20 } (by decide)).1

/-- On a remote, untainted shard with no cache entry whose owner replies `missing_key`,
get_remote returns false and leaves `*v` as it was; get returns that `*v`, the content of its
fresh `new V`, whatever it is; contains returns false. -/
theorem Table.get_on_remote_miss {K V : Type} [DecidableEq K] [Inhabited V]
    (env : TableEnv K V) (fuel : Nat) (t : Table K V) (k : K) (h : TableHelper)
    (hh : t.helper_ = some h)
    (hremote : t.is_local_shard (t.shard_for_key env k) = false)
    (hclean : t.tainted (t.shard_for_key env k) = false)
    (hmiss : t.cache_find k = none)
    (hreply :
      (env.call { dest := env.peer_for_shard t.id_ (t.shard_for_key env k) + 1,
                  req := { key := k, table := t.id_, shard := t.shard_for_key env k } }).missing_key
        = true) :
    t.get env fuel k =
      .ok (env.fresh, t, [{ dest := env.peer_for_shard t.id_ (t.shard_for_key env k) + 1,
                            req := { key := k, table := t.id_, shard := t.shard_for_key env k } }]) ∧
    t.contains env fuel k =
      .ok (false, t, [{ dest := env.peer_for_shard t.id_ (t.shard_for_key env k) + 1,
                        req := { key := k, table := t.id_, shard := t.shard_for_key env k } }]) := by
  constructor
  · unfold Table.get
    simp only [Table.wait_untainted_clean env fuel t _ hclean, hh, hremote]
    simp [Table.get_remote, hmiss, hh, hreply]
  · unfold Table.contains
    simp only [Table.wait_untainted_clean env fuel t _ hclean, hremote]
    simp [Table.get_remote, hmiss, hh, hreply]

/-- C13 (failing input).  Worker 0, key 2 on shard 2 owned by worker 1, no cache entry, the
owner replies `missing_key`.  `contains(2)` returns false and get_remote returns false, but
`get(2)` does not fail: it returns a value to the caller, namely the content `junk` of its fresh
`new V`, whatever the memory holds. -/
theorem get_remote_miss_returns_value (junk : Int) :
    (tableOf 0 0 [0, 1, 1]).is_local_shard
      ((tableOf 0 0 [0, 1, 1]).shard_for_key
        { quietEnv Replace.accumulate with fresh := junk } 2) = false ∧
    (tableOf 0 0 [0, 1, 1]).tainted
      ((tableOf 0 0 [0, 1, 1]).shard_for_key
        { quietEnv Replace.accumulate with fresh := junk } 2) = false ∧
    (tableOf 0 0 [0, 1, 1]).cache_find 2 = none ∧
    (({ quietEnv Replace.accumulate with fresh := junk } : TableEnv Int Int).call
      { dest := 1, req := { key := 2, table := 0, shard := 2 } }).missing_key = true ∧
    (tableOf 0 0 [0, 1, 1]).get_remote
        { quietEnv Replace.accumulate with fresh := junk } 2 2 junk =
      .ok (false, junk, tableOf 0 0 [0, 1, 1],
           [{ dest := 1, req := { key := 2, table := 0, shard := 2 } }]) ∧
    (tableOf 0 0 [0, 1, 1]).get { quietEnv Replace.accumulate with fresh := junk } 0 2 =
      .ok (junk, tableOf 0 0 [0, 1, 1],
           [{ dest := 1, req := { key := 2, table := 0, shard := 2 } }]) ∧
    (tableOf 0 0 [0, 1, 1]).contains { quietEnv Replace.accumulate with fresh := junk } 0 2 =
      .ok (false, tableOf 0 0 [0, 1, 1],
           [{ dest := 1, req := { key := 2, table := 0, shard := 2 } }]) := by
  refine ⟨rfl, rfl, by decide, rfl, rfl, rfl, rfl⟩

/-! ## Theorems: taint -/

/-- When the taint loop returns, it has run `check_network` some `n <= fuel` times, the shard
was tainted before each of those rounds and is not tainted in the state returned. -/
theorem Table.wait_untainted_ok {K V : Type} (env : TableEnv K V) (shard : Nat) :
    ∀ (fuel : Nat) (t t1 : Table K V), Table.wait_untainted env fuel t shard = .ok t1 →
      t1.tainted shard = false ∧
      ∃ n, n ≤ fuel ∧ t1 = env.check_network^[n] t ∧
        ∀ m, m < n → (env.check_network^[m] t).tainted shard = true := by
  intro fuel
  induction fuel with
  | zero =>
    intro t t1 h
    unfold Table.wait_untainted at h
    by_cases ht : t.tainted shard = true
    · simp [ht] at h
    · have ht' : t.tainted shard = false := by simpa using ht
      simp [ht'] at h
      subst h
      exact ⟨ht', 0, le_refl 0, rfl, fun m hm => absurd hm (Nat.not_lt_zero m)⟩
  | succ n ih =>
    intro t t1 h
    unfold Table.wait_untainted at h
    by_cases ht : t.tainted shard = true
    · simp only [ht, Bool.not_true, Bool.false_eq_true, if_false] at h
      unfold Table.handle_put_requests at h
      cases hh : t.helper_ with
      | none => simp [hh] at h
      | some hp =>
        simp only [hh] at h
        obtain ⟨h1, m, hm, h2, h3⟩ := ih (env.check_network t) t1 h
        refine ⟨h1, m + 1, by omega, ?_, ?_⟩
        · rw [Function.iterate_succ_apply]; exact h2
        · intro j hj
          cases j with
          | zero => exact ht
          | succ j =>
            rw [Function.iterate_succ_apply]
            exact h3 j (by omega)
    · have ht' : t.tainted shard = false := by simpa using ht
      simp [ht'] at h
      subst h
      exact ⟨ht', 0, Nat.zero_le _, rfl, fun m hm => absurd hm (Nat.not_lt_zero m)⟩

/-- The taint loop returns once the taint clears within the fuel, for a table with a helper
that `check_network` keeps in place. -/
theorem Table.wait_untainted_returns {K V : Type} (env : TableEnv K V) (shard : Nat)
    (hkeep : ∀ t : Table K V, (env.check_network t).helper_ = t.helper_) :
    ∀ (fuel : Nat) (t : Table K V) (h : TableHelper), t.helper_ = some h →
      (∃ n, n ≤ fuel ∧ (env.check_network^[n] t).tainted shard = false) →
      ∃ t1, Table.wait_untainted env fuel t shard = .ok t1 := by
  intro fuel
  induction fuel with
  | zero =>
    intro t h _ hex
    obtain ⟨n, hn, hcl⟩ := hex
    have : n = 0 := by omega
    subst this
    exact ⟨t, Table.wait_untainted_clean env 0 t shard hcl⟩
  | succ f ih =>
    intro t h hh hex
    by_cases ht : t.tainted shard = false
    · exact ⟨t, Table.wait_untainted_clean env _ t shard ht⟩
    · have ht' : t.tainted shard = true := by simpa using ht
      obtain ⟨n, hn, hcl⟩ := hex
      cases n with
      | zero => exact absurd hcl ht
      | succ n =>
        rw [Function.iterate_succ_apply] at hcl
        obtain ⟨t1, h1⟩ := ih (env.check_network t) h (by rw [hkeep]; exact hh)
          ⟨n, by omega, hcl⟩
        refine ⟨t1, ?_⟩
        unfold Table.wait_untainted
        simp [ht', Table.handle_put_requests, hh, h1]

theorem Table.send_loop_error {K V : Type} [DecidableEq K] (t : Table K V) (e : Fault) :
    ∀ n, Table.send_loop t n = .error e → e = Fault.nullHelper := by
  intro n
  induction n with
  | zero => intro h; simp [Table.send_loop] at h
  | succ n ih =>
    intro h
    unfold Table.send_loop at h
    cases hl : Table.send_loop t n with
    | error e' =>
      rw [hl] at h
      simp only [Except.error.injEq] at h
      subst h
      exact ih hl
    | ok r =>
      obtain ⟨c, t1, out⟩ := r
      rw [hl] at h
      simp only [Table.send_shard] at h
      split at h
      · split at h
        · simp only [Except.error.injEq] at h
          exact h.symm
        · simp at h
      · simp at h

theorem Table.flush_if_due_error {K V : Type} [DecidableEq K] (env : TableEnv K V)
    (t : Table K V) (e : Fault) (h : Table.flush_if_due env t = .error e) :
    e = Fault.nullHelper := by
  unfold Table.flush_if_due at h
  split at h
  · unfold Table.send_updates at h
    cases hl : Table.send_loop t t.shards_.length with
    | error e' =>
      rw [hl] at h
      simp only [Except.error.injEq] at h
      subst h
      exact Table.send_loop_error t _ _ hl
    | ok r =>
      obtain ⟨c, t1, out⟩ := r
      rw [hl] at h
      simp only [Table.handle_put_requests] at h
      cases hh : t1.helper_ with
      | none =>
        simp only [hh, Except.error.injEq] at h
        exact h.symm
      | some hp => simp [hh] at h
  · simp at h

theorem Table.get_remote_error {K V : Type} [DecidableEq K] (env : TableEnv K V)
    (t : Table K V) (shard : Nat) (k : K) (v : V) (e : Fault)
    (h : Table.get_remote env t shard k v = .error e) : e ≠ Fault.blocked := by
  unfold Table.get_remote at h
  cases hc : t.cache_find k with
  | some c => simp [hc] at h
  | none =>
    cases hh : t.helper_ with
    | none =>
      simp only [hc, hh, Except.error.injEq] at h
      rw [← h]; decide
    | some hp =>
      simp only [hc, hh] at h
      split at h
      · simp at h
      · split at h
        · simp only [Except.error.injEq] at h
          rw [← h]; decide
        · simp at h

/-- C14 (reads wait for the taint to clear, writes do not).  Whenever get or contains returns,
it has serviced incoming put requests (`check_network`) while the shard of the key was tainted
and has read the shard, or issued the remote lookup, in a state where the shard is not tainted.
With a helper that stays in place, neither is left blocked once the taint clears within the
fuel.  put and update never end blocked: they contain no wait on the taint flag. -/
theorem taint_blocks_reads {K V : Type} [DecidableEq K] [Inhabited V] (env : TableEnv K V)
    (fuel : Nat) (t : Table K V) (k : K) :
    (∀ r, t.get env fuel k = .ok r →
      ∃ t1 n, n ≤ fuel ∧ t1 = env.check_network^[n] t ∧
        (∀ m, m < n → (env.check_network^[m] t).tainted (t.shard_for_key env k) = true) ∧
        t1.tainted (t.shard_for_key env k) = false ∧
        ((t1.is_local_shard (t.shard_for_key env k) = true ∧
            r = (((t1.typed_shard (t.shard_for_key env k)).index k).1,
                 t1.set_shard (t.shard_for_key env k)
                   ((t1.typed_shard (t.shard_for_key env k)).index k).2, [])) ∨
         (t1.is_local_shard (t.shard_for_key env k) = false ∧
            ∃ flag, t1.get_remote env (t.shard_for_key env k) k env.fresh
              = .ok (flag, r.1, r.2.1, r.2.2)))) ∧
    (∀ r, t.contains env fuel k = .ok r →
      ∃ t1 n, n ≤ fuel ∧ t1 = env.check_network^[n] t ∧
        (∀ m, m < n → (env.check_network^[m] t).tainted (t.shard_for_key env k) = true) ∧
        t1.tainted (t.shard_for_key env k) = false ∧
        ((t1.is_local_shard (t.shard_for_key env k) = true ∧
            r = (((t1.typed_shard (t.shard_for_key env k)).find k).isSome, t1, [])) ∨
         (t1.is_local_shard (t.shard_for_key env k) = false ∧
            ∃ v, t1.get_remote env (t.shard_for_key env k) k env.fresh
              = .ok (r.1, v, r.2.1, r.2.2)))) ∧
    ((∀ t' : Table K V, (env.check_network t').helper_ = t'.helper_) →
      t.helper_ ≠ none →
      (∃ n, n ≤ fuel ∧ (env.check_network^[n] t).tainted (t.shard_for_key env k) = false) →
      t.get env fuel k ≠ .error Fault.blocked ∧ t.contains env fuel k ≠ .error Fault.blocked) ∧
    (∀ v, t.put env k v ≠ .error Fault.blocked ∧ t.update env k v ≠ .error Fault.blocked) := by
  refine ⟨?_, ?_, ?_, ?_⟩
  · intro r hr
    unfold Table.get at hr
    cases hw : Table.wait_untainted env fuel t (t.shard_for_key env k) with
    | error e => simp [hw] at hr
    | ok t1 =>
      obtain ⟨h1, n, hn, h2, h3⟩ := Table.wait_untainted_ok env _ fuel t t1 hw
      refine ⟨t1, n, hn, h2, h3, h1, ?_⟩
      simp only [hw] at hr
      cases hh : t1.helper_ with
      | none => simp [hh] at hr
      | some hp =>
        simp only [hh] at hr
        by_cases hl : t1.is_local_shard (t.shard_for_key env k) = true
        · left
          simp only [hl, if_true, Except.ok.injEq] at hr
          exact ⟨hl, hr.symm⟩
        · right
          have hl' : t1.is_local_shard (t.shard_for_key env k) = false := by simpa using hl
          refine ⟨hl', ?_⟩
          simp only [hl', Bool.false_eq_true, if_false] at hr
          cases hg : t1.get_remote env (t.shard_for_key env k) k env.fresh with
          | error e => simp [hg] at hr
          | ok q =>
            obtain ⟨flag, v, t2, calls⟩ := q
            simp only [hg, Except.ok.injEq] at hr
            subst hr
            exact ⟨flag, rfl⟩
  · intro r hr
    unfold Table.contains at hr
    cases hw : Table.wait_untainted env fuel t (t.shard_for_key env k) with
    | error e => simp [hw] at hr
    | ok t1 =>
      obtain ⟨h1, n, hn, h2, h3⟩ := Table.wait_untainted_ok env _ fuel t t1 hw
      refine ⟨t1, n, hn, h2, h3, h1, ?_⟩
      simp only [hw] at hr
      by_cases hl : t1.is_local_shard (t.shard_for_key env k) = true
      · left
        simp only [hl, if_true, Except.ok.injEq] at hr
        exact ⟨hl, hr.symm⟩
      · right
        have hl' : t1.is_local_shard (t.shard_for_key env k) = false := by simpa using hl
        refine ⟨hl', ?_⟩
        simp only [hl', Bool.false_eq_true, if_false] at hr
        cases hg : t1.get_remote env (t.shard_for_key env k) k env.fresh with
        | error e => simp [hg] at hr
        | ok q =>
          obtain ⟨flag, v, t2, calls⟩ := q
          simp only [hg, Except.ok.injEq] at hr
          subst hr
          exact ⟨v, rfl⟩
  · intro hkeep hhelper hex
    obtain ⟨hp, hhp⟩ : ∃ hp, t.helper_ = some hp := by
      cases hh : t.helper_ with
      | none => exact absurd hh hhelper
      | some hp => exact ⟨hp, rfl⟩
    obtain ⟨t1, hw⟩ := Table.wait_untainted_returns env _ hkeep fuel t hp hhp hex
    constructor
    · intro hb
      unfold Table.get at hb
      simp only [hw] at hb
      cases hh : t1.helper_ with
      | none => simp [hh] at hb
      | some hq =>
        simp only [hh] at hb
        split at hb
        · simp at hb
        · cases hg : t1.get_remote env (t.shard_for_key env k) k env.fresh with
          | error e =>
            simp only [hg, Except.error.injEq] at hb
            exact Table.get_remote_error env t1 _ k env.fresh e hg hb
          | ok q => simp [hg] at hb
    · intro hb
      unfold Table.contains at hb
      simp only [hw] at hb
      split at hb
      · simp at hb
      · cases hg : t1.get_remote env (t.shard_for_key env k) k env.fresh with
        | error e =>
          simp only [hg, Except.error.injEq] at hb
          exact Table.get_remote_error env t1 _ k env.fresh e hg hb
        | ok q => simp [hg] at hb
  · intro v
    constructor
    · intro hb
      have := Table.flush_if_due_error env _ _ hb
      exact absurd this (by decide)
    · intro hb
      have := Table.flush_if_due_error env _ _ hb
      exact absurd this (by decide)

/-- C14 witness: shard 1 of worker 0 is tainted and holds 4 -> 40; the final batch is waiting in
the network.  With fuel for one round get and contains are not left blocked, and get reads 40
after one `check_network`. -/
theorem taint_blocks_reads_witness :
    (((tableOf 0 0 [0, 0, 0]).put_write (deliverEnv Replace.accumulate) 4 40).update_partitions
        ⟨1, 0, 1, false, true⟩).tainted 1 = true ∧
    ((((tableOf 0 0 [0, 0, 0]).put_write (deliverEnv Replace.accumulate) 4 40).update_partitions
        ⟨1, 0, 1, false, true⟩).get (deliverEnv Replace.accumulate) 1 4 ≠ .error Fault.blocked ∧
     (((tableOf 0 0 [0, 0, 0]).put_write (deliverEnv Replace.accumulate) 4 40).update_partitions
        ⟨1, 0, 1, false, true⟩).contains (deliverEnv Replace.accumulate) 1 4
        ≠ .error Fault.blocked) ∧
    (((tableOf 0 0 [0, 0, 0]).put_write (deliverEnv Replace.accumulate) 4 40).update_partitions
        ⟨1, 0, 1, false, true⟩).get (deliverEnv Replace.accumulate) 0 4 = .error Fault.blocked :=
  ⟨by decide,
   (taint_blocks_reads (deliverEnv Replace.accumulate) 1
      (((tableOf 0 0 [0, 0, 0]).put_write (deliverEnv Replace.accumulate) 4 40).update_partitions
        ⟨1, 0, 1, false, true⟩) 4).2.2.1
      (fun _ => rfl) (by decide) ⟨1, le_refl 1, by decide⟩,
   rfl⟩

/-! ## Theorems: unravelled_pos -/

/-- C15 (failing input).  `unravelled_pos(5, [2, 3], 2)` writes `pos = [0, 2]`: after
`pos[1] = 5 % 3` the index is divided by `ndim = 2`, not by `array_shape[1] = 3`.  The position
`[(5 / 3) % 2, 5 % 3] = [1, 2]` is the one `ravelled_pos` maps back to 5; the position written
maps to 2. -/
theorem unravelled_pos_divides_by_ndim :
    unravelled_pos 5 [2, 3] 2 = [0, 2] ∧
    ravelled_pos (unravelled_pos 5 [2, 3] 2) [2, 3] 2 = 2 ∧
    [(5 / 3) % 2, 5 % 3] = [1, 2] ∧
    ravelled_pos [1, 2] [2, 3] 2 = 5 := by
  decide

/-! ## Theorems: flushing -/

/-- What `send_updates` returns for a table with a helper: the count, the batches, and a table
that differs from the old one only in `pending_writes_ = 0` and in the cleared shards. -/
theorem Table.send_updates_spec {K V : Type} [DecidableEq K] (t : Table K V) (h : TableHelper)
    (hh : t.helper_ = some h) :
    ∃ t1 : Table K V,
      t.send_updates =
        .ok ((((List.range t.shards_.length).filter t.must_send).map
                (fun i => (t.typed_shard i).length)).sum,
             t1, ((List.range t.shards_.length).filter t.must_send).map (t.batch_for h)) ∧
      t1.pending_writes_ = 0 ∧ t1.flush_frequency = t.flush_frequency ∧
      t1.helper_ = t.helper_ ∧ t1.shard_info_ = t.shard_info_ ∧ t1.id_ = t.id_ ∧
      t1.cache_ = t.cache_ ∧ t1.shards_.length = t.shards_.length ∧
      (∀ j, t.shards_.length ≤ j → t1.typed_shard j = t.typed_shard j) ∧
      (∀ j, j < t.shards_.length →
        t1.typed_shard j = if t.must_send j then [] else t.typed_shard j) := by
  obtain ⟨t1, h1, h2, h3, h4, h5⟩ := Table.send_loop_spec t h hh t.shards_.length (le_refl _)
  refine ⟨{ t1 with pending_writes_ := 0 }, ?_, rfl, ?_, ?_, ?_, ?_, ?_, h3, h4, h5⟩
  · unfold Table.send_updates
    rw [h1]
  · show t1.flush_frequency = _
    rw [h2]
  · show t1.helper_ = _
    rw [h2]
  · show t1.shard_info_ = _
    rw [h2]
  · show t1.id_ = _
    rw [h2]
  · show t1.cache_ = _
    rw [h2]

theorem sum_map_filter_of_zero {p q : Nat → Bool} {f : Nat → Nat} (l : List Nat)
    (hpq : ∀ i ∈ l, p i = true → q i = true)
    (hz : ∀ i ∈ l, q i = true → p i = false → f i = 0) :
    ((l.filter p).map f).sum = ((l.filter q).map f).sum := by
  induction l with
  | nil => rfl
  | cons a rest ih =>
    have ih' := ih (fun i hi => hpq i (List.mem_cons_of_mem _ hi))
      (fun i hi => hz i (List.mem_cons_of_mem _ hi))
    by_cases hp : p a = true
    · have hq := hpq a (List.mem_cons_self _ _) hp
      simp [List.filter_cons, hp, hq, ih']
    · have hp' : p a = false := by simpa using hp
      by_cases hq : q a = true
      · have := hz a (List.mem_cons_self _ _) hq hp'
        simp [List.filter_cons, hp', hq, ih', this]
      · have hq' : q a = false := by simpa using hq
        simp [List.filter_cons, hp', hq', ih']

theorem Table.is_local_shard_congr {K V : Type} (t t1 : Table K V) (i : Nat)
    (hinfo : t1.shard_info_ = t.shard_info_) (hhelper : t1.helper_ = t.helper_) :
    t1.is_local_shard i = t.is_local_shard i := by
  simp only [Table.is_local_shard, Table.worker_for_shard, hinfo, hhelper]

theorem Table.must_send_not_local {K V : Type} (t : Table K V) (i : Nat)
    (h : t.must_send i = true) : t.is_local_shard i = false := by
  simp only [Table.must_send, Bool.and_eq_true, Bool.not_eq_true'] at h
  exact h.1

theorem Table.empty_of_not_must_send {K V : Type} (t : Table K V) (i : Nat)
    (hl : t.is_local_shard i = false) (h : t.must_send i = false) : t.typed_shard i = [] := by
  simp only [Table.must_send, hl, Bool.not_false, Bool.true_and, Bool.or_eq_false_iff,
    Bool.not_eq_false'] at h
  exact List.isEmpty_iff.1 h.2

/-- C17 (what send_updates leaves behind).  For a table with a helper, send_updates returns with
`pending_writes_ = 0`, every non-local shard empty, every local shard as before, and a count
equal to the number of entries the non-local shards held; a second send_updates right after it
returns 0. -/
theorem send_updates_resets {K V : Type} [DecidableEq K] (t : Table K V) (h : TableHelper)
    (hh : t.helper_ = some h) :
    ∃ (count : Nat) (t1 : Table K V) (out : List (PutSent K V)),
      t.send_updates = .ok (count, t1, out) ∧
      t1.pending_writes_ = 0 ∧
      (∀ i, i < t.shards_.length → t.is_local_shard i = false → t1.typed_shard i = []) ∧
      (∀ i, t.is_local_shard i = true → t1.typed_shard i = t.typed_shard i) ∧
      t1.shards_.length = t.shards_.length ∧
      count = (((List.range t.shards_.length).filter (fun i => !t.is_local_shard i)).map
                (fun i => (t.typed_shard i).length)).sum ∧
      ∃ (t2 : Table K V) (out2 : List (PutSent K V)), t1.send_updates = .ok (0, t2, out2) := by
  obtain ⟨t1, h1, hpw, _, hhelper, hinfo, _, _, hlen, hge, hlt⟩ := Table.send_updates_spec t h hh
  have hempty : ∀ i, i < t.shards_.length → t.is_local_shard i = false →
      t1.typed_shard i = [] := by
    intro i hi hl
    rw [hlt i hi]
    by_cases hm : t.must_send i = true
    · rw [if_pos hm]
    · rw [if_neg hm]
      exact Table.empty_of_not_must_send t i hl (by simpa using hm)
  refine ⟨_, t1, _, h1, hpw, hempty, ?_, hlen, ?_, ?_⟩
  · intro i hl
    by_cases hi : i < t.shards_.length
    · rw [hlt i hi]
      have hm : ¬ t.must_send i = true := by
        intro hm
        rw [Table.must_send_not_local t i hm] at hl
        exact absurd hl (by decide)
      rw [if_neg hm]
    · exact hge i (Nat.le_of_not_lt hi)
  · apply sum_map_filter_of_zero
    · intro i _ hm
      simp [Table.must_send_not_local t i hm]
    · intro i _ hq hp
      have hl : t.is_local_shard i = false := by simpa using hq
      rw [Table.empty_of_not_must_send t i hl hp]
      rfl
  · obtain ⟨t2, h2, _⟩ := Table.send_updates_spec t1 h (by rw [hhelper]; exact hh)
    refine ⟨t2, ((List.range t1.shards_.length).filter t1.must_send).map (t1.batch_for h), ?_⟩
    rw [h2]
    have hz : (((List.range t1.shards_.length).filter t1.must_send).map
        (fun i => (t1.typed_shard i).length)).sum = 0 := by
      apply List.sum_eq_zero
      intro x hx
      obtain ⟨i, hi, rfl⟩ := List.mem_map.1 hx
      obtain ⟨hi1, hi2⟩ := List.mem_filter.1 hi
      have hil : i < t.shards_.length := by rw [← hlen]; exact List.mem_range.1 hi1
      have hloc : t.is_local_shard i = false := by
        rw [← Table.is_local_shard_congr t t1 i hinfo hhelper]
        exact Table.must_send_not_local t1 i hi2
      simp [hempty i hil hloc]
    rw [hz]

/-- C17 witness: worker 0 with shards owned by 0, 1, 1; one local write and two buffered ones.
The count is 2, the buffers are empty afterwards and the local entry is still there. -/
theorem send_updates_resets_witness :
    ∃ (count : Nat) (t1 : Table Int Int) (out : List (PutSent Int Int)),
      ((((tableOf 0 0 [0, 1, 1]).put_write (quietEnv Replace.accumulate) 3 30).put_write
          (quietEnv Replace.accumulate) 1 10).put_write
          (quietEnv Replace.accumulate) 2 20).send_updates = .ok (count, t1, out) ∧
      t1.pending_writes_ = 0 ∧ t1.typed_shard 1 = [] ∧ t1.typed_shard 0 = [(3, 30)] ∧
      count = 2 := by
  obtain ⟨count, t1, out, h1, h2, h3, h4, _, h6, _⟩ := send_updates_resets
    ((((tableOf 0 0 [0, 1, 1]).put_write (quietEnv Replace.accumulate) 3 30).put_write
      (quietEnv Replace.accumulate) 1 10).put_write (quietEnv Replace.accumulate) 2 20)
    ⟨0, 0⟩ rfl
  refine ⟨count, t1, out, h1, h2, h3 1 (by decide) (by decide), ?_, ?_⟩
  · rw [h4 0 (by decide)]
    decide
  · rw [h6]
    decide

/-- C18 counterexample.  A worker whose shard set is `{(1, 0)}` (shard 0 of table 1) answers
`serves_shard(0)` with true although `(0, 0)`, shard 0 of table 0, is not in its set: with
`t = 0`, `s = 0` the check is true and `(t, s)` is not in the shards set, so the check is not
equivalent to membership of `(t, s)`. -/
theorem serves_shard_ignores_table :
    ({ (WorkerState.new 0) with shards := [(1, 0)] } : WorkerState).serves_shard 0 = true ∧
    ((0, 0) : ShardId) ∉ ({ (WorkerState.new 0) with shards := [(1, 0)] } : WorkerState).shards ∧
    ((1, 0) : ShardId) ∈ ({ (WorkerState.new 0) with shards := [(1, 0)] } : WorkerState).shards := by
  decide

/-- C18 (amended).  `serves_shard(s)` takes the shard index alone: for every WorkerState and
shard index `s` it is true exactly when the shards set contains `(t, s)` for some table id `t`.
So it is true whenever `(t, s)` is in the set for the table `t` at hand, and owning shard `s` of
any other table makes it true as well. -/
theorem serves_shard_iff (w : WorkerState) (s : Int) :
    w.serves_shard s = true ↔ ∃ t : Int, ((t, s) : ShardId) ∈ w.shards := by
  unfold WorkerState.serves_shard
  rw [List.any_eq_true]
  constructor
  · rintro ⟨⟨t, s0⟩, hmem, heq⟩
    have hs : s0 = s := by simpa using heq
    exact ⟨t, hs ▸ hmem⟩
  · rintro ⟨t, hmem⟩
    exact ⟨(t, s), hmem, by simp⟩

/-! ## Theorems: the number of shards -/

theorem Table.send_loop_lengths {K V : Type} [DecidableEq K] (t : Table K V) :
    ∀ (n c : Nat) (t1 : Table K V) (out : List (PutSent K V)),
      Table.send_loop t n = .ok (c, t1, out) →
      t1.shards_.length = t.shards_.length ∧ t1.shard_info_ = t.shard_info_ := by
  intro n
  induction n with
  | zero =>
    intro c t1 out h
    simp only [Table.send_loop, Except.ok.injEq, Prod.mk.injEq] at h
    rw [← h.2.1]
    exact ⟨rfl, rfl⟩
  | succ n ih =>
    intro c t1 out h
    unfold Table.send_loop at h
    cases hl : Table.send_loop t n with
    | error e => simp [hl] at h
    | ok r =>
      obtain ⟨c0, t0, out0⟩ := r
      simp only [hl, Table.send_shard] at h
      obtain ⟨h0, h0'⟩ := ih c0 t0 out0 hl
      split at h
      · split at h
        · simp at h
        · simp only [Except.ok.injEq, Prod.mk.injEq] at h
          rw [← h.2.1, ← h0, ← h0']
          exact ⟨by simp [Table.set_shard], rfl⟩
      · simp only [Except.ok.injEq, Prod.mk.injEq] at h
        rw [← h.2.1]
        exact ⟨h0, h0'⟩

theorem Table.send_updates_lengths {K V : Type} [DecidableEq K] (t t1 : Table K V) (c : Nat)
    (out : List (PutSent K V)) (h : t.send_updates = .ok (c, t1, out)) :
    t1.shards_.length = t.shards_.length ∧ t1.shard_info_.length = t.shard_info_.length := by
  unfold Table.send_updates at h
  cases hl : Table.send_loop t t.shards_.length with
  | error e => simp [hl] at h
  | ok r =>
    obtain ⟨c0, t0, out0⟩ := r
    obtain ⟨h0, h0'⟩ := Table.send_loop_lengths t _ c0 t0 out0 hl
    simp only [hl, Except.ok.injEq, Prod.mk.injEq] at h
    rw [← h.2.1]
    exact ⟨h0, by rw [← h0']⟩

theorem Table.flush_if_due_lengths {K V : Type} [DecidableEq K] (env : TableEnv K V)
    (t0 t1 : Table K V) (out : List (PutSent K V))
    (hnet : ∀ t' : Table K V, (env.check_network t').shards_.length = t'.shards_.length ∧
      (env.check_network t').shard_info_.length = t'.shard_info_.length)
    (h : Table.flush_if_due env t0 = .ok (t1, out)) :
    t1.shards_.length = t0.shards_.length ∧ t1.shard_info_.length = t0.shard_info_.length := by
  unfold Table.flush_if_due at h
  split at h
  · cases hs : t0.send_updates with
    | error e => simp [hs] at h
    | ok r =>
      obtain ⟨c, t2, out2⟩ := r
      obtain ⟨h1, h2⟩ := Table.send_updates_lengths t0 t2 c out2 hs
      simp only [hs, Table.handle_put_requests] at h
      cases hh : t2.helper_ with
      | none => simp [hh] at h
      | some hp =>
        simp only [hh, Except.ok.injEq, Prod.mk.injEq] at h
        rw [← h.1, (hnet t2).1, (hnet t2).2]
        exact ⟨h1, h2⟩
  · simp only [Except.ok.injEq, Prod.mk.injEq] at h
    rw [← h.1]
    exact ⟨rfl, rfl⟩

theorem Table.put_write_lengths {K V : Type} [DecidableEq K] (env : TableEnv K V)
    (t : Table K V) (k : K) (v : V) :
    (t.put_write env k v).shards_.length = t.shards_.length ∧
    (t.put_write env k v).shard_info_.length = t.shard_info_.length := by
  unfold Table.put_write
  dsimp only
  split <;> simp [Table.set_shard]

/-- C19 (both shard counts are `n`).  After `init(id, n)` the shard vector and the
partition-info vector have length `n`, every shard is empty and `pending_writes_` is 0, so both
`num_shards` return `n`.  The writes of put and update, send_updates and update_partitions keep
both lengths; so do the full put and update when the network handler keeps them. -/
theorem init_num_shards {K V : Type} [DecidableEq K] (id : Int) (n : Nat) :
    ((Table.init id n : Table K V).shards_.length = n ∧
     (Table.init id n : Table K V).shard_info_.length = n ∧
     (∀ s ∈ (Table.init id n : Table K V).shards_, s = []) ∧
     (Table.init id n : Table K V).pending_writes_ = 0 ∧
     (Table.init id n : Table K V).num_shards = n ∧
     (Table.init id n : Table K V).base_num_shards = n) ∧
    (∀ (env : TableEnv K V) (t : Table K V) (k : K) (v : V),
      ((t.put_write env k v).num_shards = t.num_shards ∧
       (t.put_write env k v).base_num_shards = t.base_num_shards) ∧
      ((t.update_write env k v).num_shards = t.num_shards ∧
       (t.update_write env k v).base_num_shards = t.base_num_shards)) ∧
    (∀ (t t1 : Table K V) (c : Nat) (out : List (PutSent K V)),
      t.send_updates = .ok (c, t1, out) →
      t1.num_shards = t.num_shards ∧ t1.base_num_shards = t.base_num_shards) ∧
    (∀ (t : Table K V) (info : PartitionInfo),
      (t.update_partitions info).num_shards = t.num_shards ∧
      (t.update_partitions info).base_num_shards = t.base_num_shards) ∧
    (∀ (env : TableEnv K V) (t t1 : Table K V) (k : K) (v : V) (out : List (PutSent K V)),
      (∀ t' : Table K V, (env.check_network t').shards_.length = t'.shards_.length ∧
        (env.check_network t').shard_info_.length = t'.shard_info_.length) →
      (t.put env k v = .ok (t1, out) →
        t1.num_shards = t.num_shards ∧ t1.base_num_shards = t.base_num_shards) ∧
      (t.update env k v = .ok (t1, out) →
        t1.num_shards = t.num_shards ∧ t1.base_num_shards = t.base_num_shards)) := by
  refine ⟨⟨by simp [Table.init], by simp [Table.init], ?_, rfl, by simp [Table.init, Table.num_shards],
    by simp [Table.init, Table.base_num_shards]⟩, ?_, ?_, ?_, ?_⟩
  · intro s hs
    simp only [Table.init] at hs
    exact List.eq_of_mem_replicate hs
  · intro env t k v
    exact ⟨Table.put_write_lengths env t k v,
      by simp [Table.num_shards, Table.update_write_length], rfl⟩
  · intro t t1 c out h
    exact Table.send_updates_lengths t t1 c out h
  · intro t info
    exact ⟨rfl, by simp [Table.update_partitions, Table.base_num_shards]⟩
  · intro env t t1 k v out hnet
    constructor
    · intro h
      obtain ⟨h1, h2⟩ := Table.flush_if_due_lengths env _ t1 out hnet h
      obtain ⟨h3, h4⟩ := Table.put_write_lengths env t k v
      exact ⟨by simp only [Table.num_shards]; rw [h1, h3],
        by simp only [Table.base_num_shards]; rw [h2, h4]⟩
    · intro h
      obtain ⟨h1, h2⟩ := Table.flush_if_due_lengths env (t.update_write env k v) t1 out hnet h
      exact ⟨by simp only [Table.num_shards]; rw [h1, Table.update_write_length],
        by simp only [Table.base_num_shards]; rw [h2]; rfl⟩

/-- C19 witness: a three-shard table of worker 0 with one buffered write still has three shards
and three partition infos after send_updates. -/
theorem init_num_shards_witness :
    ∃ (c : Nat) (t1 : Table Int Int) (out : List (PutSent Int Int)),
      ((tableOf 0 0 [0, 1, 1]).put_write (quietEnv Replace.accumulate) 2 20).send_updates
        = .ok (c, t1, out) ∧
      t1.num_shards = ((tableOf 0 0 [0, 1, 1]).put_write (quietEnv Replace.accumulate) 2 20).num_shards ∧
      t1.base_num_shards
        = ((tableOf 0 0 [0, 1, 1]).put_write (quietEnv Replace.accumulate) 2 20).base_num_shards := by
  obtain ⟨t1, h1, _⟩ := Table.send_updates_spec
    ((tableOf 0 0 [0, 1, 1]).put_write (quietEnv Replace.accumulate) 2 20) ⟨0, 0⟩ rfl
  exact ⟨_, t1, _, h1, (init_num_shards (K := Int) (V := Int) 0 3).2.2.1 _ t1 _ _ h1⟩

/-! ## Theorems: offsets of extents -/

/-- C20 (failing input).  One dimension, base = [0, 10), other = [2, 5), both well-formed
extents of an array of shape [10].  `offset_from` gives ul = 2, lr = 5 (= other.lr - base.ul);
`offset_slice` gives start = 2 but stop = other.lr - base.lr = 5 - 10, which wraps to
2^64 - 5 and reads as -5. -/
theorem offset_slice_stop_uses_lr :
    extent_create [0] [10] (some [10]) 1 =
      some { ndim := 1, has_array_shape := true, ul := [0], lr := [10], shape := [10],
             array_shape := [10], size := 10 } ∧
    extent_create [2] [5] (some [10]) 1 =
      some { ndim := 1, has_array_shape := true, ul := [2], lr := [5], shape := [3],
             array_shape := [10], size := 3 } ∧
    offset_from
      { ndim := 1, has_array_shape := true, ul := [0], lr := [10], shape := [10],
        array_shape := [10], size := 10 }
      { ndim := 1, has_array_shape := true, ul := [2], lr := [5], shape := [3],
        array_shape := [10], size := 3 } =
      some { ndim := 1, has_array_shape := true, ul := [2], lr := [5], shape := [3],
             array_shape := [10], size := 3 } ∧
    offset_slice
      { ndim := 1, has_array_shape := true, ul := [0], lr := [10], shape := [10],
        array_shape := [10], size := 10 }
      { ndim := 1, has_array_shape := true, ul := [2], lr := [5], shape := [3],
        array_shape := [10], size := 3 } =
      [{ start := 2, stop := -5, step := 1 }] := by
  decide

/-! ## Theorems: find_shape -/

/-- C21 (failing input).  For the single extent [0, 2) x [0, 3), `find_shape` writes
`shape = [2, 1]`: the inner loop over `j` tests and writes `shape[i]`, `ex->lr[i]` with the
index `i` of the extent, so dimension 1 is never looked at; the bounding shape is [2, 3].  For
the two extents [0, 2) x [0, 3) and [0, 4) x [0, 5) it writes [2, 5], the bounding shape being
[4, 5]. -/
theorem find_shape_uses_outer_index :
    extent_create [0, 0] [2, 3] (some [4, 5]) 2 =
      some { ndim := 2, has_array_shape := true, ul := [0, 0], lr := [2, 3], shape := [2, 3],
             array_shape := [4, 5], size := 6 } ∧
    find_shape
      [{ ndim := 2, has_array_shape := true, ul := [0, 0], lr := [2, 3], shape := [2, 3],
         array_shape := [4, 5], size := 6 }] = [2, 1] ∧
    [max 1 2, max 1 3] = [2, 3] ∧
    find_shape
      [{ ndim := 2, has_array_shape := true, ul := [0, 0], lr := [2, 3], shape := [2, 3],
         array_shape := [4, 5], size := 6 },
       { ndim := 2, has_array_shape := true, ul := [0, 0], lr := [4, 5], shape := [4, 5],
         array_shape := [4, 5], size := 20 }] = [2, 5] ∧
    [max 1 (max 2 4), max 1 (max 3 5)] = [4, 5] := by
  decide

/-! ## Theorems: extent_create -/

theorem extent_create_loop_none (ul lr : List Nat) (array_shape : Option (List Nat))
    (ex : CExtent) :
    ∀ n, (∃ i, i < n ∧ ul.getD i 0 ≥ lr.getD i 0) →
      extent_create_loop ul lr array_shape ex n = none := by
  intro n
  induction n with
  | zero => rintro ⟨i, hi, _⟩; exact absurd hi (Nat.not_lt_zero i)
  | succ n ih =>
    rintro ⟨i, hi, hge⟩
    unfold extent_create_loop
    by_cases hin : i < n
    · rw [ih ⟨i, hin, hge⟩]
    · have : i = n := by omega
      subst this
      cases extent_create_loop ul lr array_shape ex i with
      | none => rfl
      | some ex1 =>
        simp only [extent_create_step]
        rw [if_pos hge]

/-- The extent built by the loop of `extent_create` when every dimension has `ul < lr`. -/
theorem extent_create_loop_some (ul lr : List Nat) (array_shape : Option (List Nat))
    (ndim : Nat) (has : Bool) :
    ∀ n, (∀ i, i < n → ul.getD i 0 < lr.getD i 0) →
      extent_create_loop ul lr array_shape
        { ndim := ndim, has_array_shape := has, ul := [], lr := [], shape := [],
          array_shape := [], size := 1 } n =
      some { ndim := ndim, has_array_shape := has,
             ul := (List.range n).map (fun i => ul.getD i 0),
             lr := (List.range n).map (fun i => lr.getD i 0),
             shape := (List.range n).map (fun i => lr.getD i 0 - ul.getD i 0),
             array_shape :=
               match array_shape with
               | none => []
               | some a => (List.range n).map (fun i => a.getD i 0),
             size := ((List.range n).map (fun i => lr.getD i 0 - ul.getD i 0)).prod % U64 } := by
  intro n
  induction n with
  | zero =>
    intro _
    cases array_shape <;> simp [extent_create_loop, U64]
  | succ n ih =>
    intro h
    have hn : ul.getD n 0 < lr.getD n 0 := h n (Nat.lt_succ_self n)
    have hpos : ¬ (lr.getD n 0 - ul.getD n 0 = 0) := by omega
    unfold extent_create_loop
    rw [ih (fun i hi => h i (Nat.lt_succ_of_lt hi))]
    simp only [extent_create_step, ge_iff_le, Nat.not_le.2 hn, if_false, hpos]
    cases array_shape with
    | none =>
      simp only [List.range_succ, List.map_append, List.map_cons, List.map_nil,
        List.prod_append, List.prod_cons, List.prod_nil, Nat.mul_one, Nat.mod_mul_mod]
    | some a =>
      simp only [List.range_succ, List.map_append, List.map_cons, List.map_nil,
        List.prod_append, List.prod_cons, List.prod_nil, Nat.mul_one, Nat.mod_mul_mod]

theorem map_getD_range (l : List Nat) (n : Nat) (h : l.length = n) :
    (List.range n).map (fun i => l.getD i 0) = l := by
  apply List.ext_getElem
  · simp [h]
  · intro i h1 h2
    simp [List.getD_eq_getElem?_getD, List.getElem?_eq_getElem h2]

/-- What `extent_create` returns: NULL exactly when some dimension has `ul >= lr`, else the
extent with the first `ndim` corners copied, `shape = lr - ul` and the 64-bit product as size. -/
theorem extent_create_eq (ul lr : List Nat) (array_shape : Option (List Nat)) (ndim : Nat) :
    ((∃ i, i < ndim ∧ ul.getD i 0 ≥ lr.getD i 0) ∧
      extent_create ul lr array_shape ndim = none) ∨
    ((∀ i, i < ndim → ul.getD i 0 < lr.getD i 0) ∧
      extent_create ul lr array_shape ndim =
        some { ndim := ndim, has_array_shape := array_shape.isSome,
               ul := (List.range ndim).map (fun i => ul.getD i 0),
               lr := (List.range ndim).map (fun i => lr.getD i 0),
               shape := (List.range ndim).map (fun i => lr.getD i 0 - ul.getD i 0),
               array_shape :=
                 match array_shape with
                 | none => []
                 | some a => (List.range ndim).map (fun i => a.getD i 0),
               size := ((List.range ndim).map
                 (fun i => lr.getD i 0 - ul.getD i 0)).prod % U64 }) := by
  by_cases h : ∃ i, i < ndim ∧ ul.getD i 0 ≥ lr.getD i 0
  · exact Or.inl ⟨h, extent_create_loop_none ul lr array_shape _ ndim h⟩
  · right
    have h' : ∀ i, i < ndim → ul.getD i 0 < lr.getD i 0 := by
      intro i hi
      by_contra hc
      exact h ⟨i, hi, Nat.le_of_not_lt hc⟩
    exact ⟨h', extent_create_loop_some ul lr array_shape ndim _ ndim h'⟩

/-- C22 (extent_create).  `extent_create` returns NULL iff `ul[i] >= lr[i]` for some
`i < ndim`.  Otherwise the extent returned has `ndim`, the first `ndim` entries of `ul` and `lr`
(and of `array_shape` when one is given) copied, `shape[i] = lr[i] - ul[i] >= 1`, and `size`
equal to the product of the shape modulo 2^64, which is 1 for `ndim = 0`. -/
theorem extent_create_spec (ul lr : List Nat) (array_shape : Option (List Nat)) (ndim : Nat) :
    (extent_create ul lr array_shape ndim = none ↔
      ∃ i, i < ndim ∧ ul.getD i 0 ≥ lr.getD i 0) ∧
    (∀ ex, extent_create ul lr array_shape ndim = some ex →
      ex.ndim = ndim ∧ ex.has_array_shape = array_shape.isSome ∧
      ex.ul = (List.range ndim).map (fun i => ul.getD i 0) ∧
      ex.lr = (List.range ndim).map (fun i => lr.getD i 0) ∧
      (ul.length = ndim → ex.ul = ul) ∧ (lr.length = ndim → ex.lr = lr) ∧
      (∀ a, array_shape = some a →
        ex.array_shape = (List.range ndim).map (fun i => a.getD i 0) ∧
        (a.length = ndim → ex.array_shape = a)) ∧
      ex.shape.length = ndim ∧
      (∀ i, i < ndim →
        ex.shape.getD i 0 = lr.getD i 0 - ul.getD i 0 ∧ 1 ≤ ex.shape.getD i 0) ∧
      ex.size = ex.shape.prod % U64 ∧
      (ndim = 0 → ex.size = 1)) := by
  rcases extent_create_eq ul lr array_shape ndim with ⟨hex, hnone⟩ | ⟨hall, hsome⟩
  · refine ⟨⟨fun _ => hex, fun _ => hnone⟩, ?_⟩
    intro ex h
    rw [hnone] at h
    exact absurd h (by simp)
  · constructor
    · constructor
      · intro h
        rw [hsome] at h
        exact absurd h (by simp)
      · rintro ⟨i, hi, hge⟩
        exact absurd (hall i hi) (Nat.not_lt.2 hge)
    · intro ex h
      rw [hsome] at h
      simp only [Option.some.injEq] at h
      subst h
      refine ⟨rfl, rfl, rfl, rfl, ?_, ?_, ?_, by simp, ?_, rfl, ?_⟩
      · intro hl
        exact map_getD_range ul ndim hl
      · intro hl
        exact map_getD_range lr ndim hl
      · intro a ha
        subst ha
        exact ⟨rfl, fun hl => map_getD_range a ndim hl⟩
      · intro i hi
        have := hall i hi
        have hg : ((List.range ndim).map (fun i => lr.getD i 0 - ul.getD i 0)).getD i 0
            = lr.getD i 0 - ul.getD i 0 := by
          rw [List.getD_eq_getElem?_getD, List.getElem?_map, List.getElem?_range hi]
          rfl
        rw [hg]
        exact ⟨rfl, by omega⟩
      · intro h0
        subst h0
        simp [U64]

/-- C22 witness: a 2 x 3 extent of a 4 x 5 array, and a rejected one with `ul[1] = lr[1]`. -/
theorem extent_create_spec_witness :
    (extent_create [1, 2] [3, 5] (some [4, 5]) 2 =
      some { ndim := 2, has_array_shape := true, ul := [1, 2], lr := [3, 5], shape := [2, 3],
             array_shape := [4, 5], size := 6 }) ∧
    ({ ndim := 2, has_array_shape := true, ul := [1, 2], lr := [3, 5], shape := [2, 3],
       array_shape := [4, 5], size := 6 } : CExtent).ul = [1, 2] ∧
    extent_create [1, 2] [3, 2] (some [4, 5]) 2 = none :=
  ⟨by decide,
   ((extent_create_spec [1, 2] [3, 5] (some [4, 5]) 2).2 _ (by decide)).2.2.2.2.1 rfl,
   (extent_create_spec [1, 2] [3, 2] (some [4, 5]) 2).1.2 ⟨1, by decide, by decide⟩⟩

/-! ## Theorems: intersection -/

theorem getD_map_range (f : Nat → Nat) (n i : Nat) (h : i < n) :
    ((List.range n).map f).getD i 0 = f i := by
  rw [List.getD_eq_getElem?_getD, List.getElem?_map, List.getElem?_range h]
  rfl

theorem map_range_congr (f g : Nat → Nat) (n : Nat) (h : ∀ i, i < n → f i = g i) :
    (List.range n).map f = (List.range n).map g := by
  apply List.map_congr_left
  intro i hi
  exact h i (List.mem_range.1 hi)

/-- The loop of `intersection` on extents with equal array shapes: NULL as soon as the extents
are apart in some dimension, else the componentwise maximum of the `ul` and minimum of the
`lr`. -/
theorem intersection_loop_eq (a b : CExtent) :
    ∀ n, (∀ i, i < n → a.array_shape.getD i 0 = b.array_shape.getD i 0) →
      ((∃ i, i < n ∧ (b.lr.getD i 0 < a.ul.getD i 0 ∨ a.lr.getD i 0 < b.ul.getD i 0)) ∧
        intersection_loop a b n = .ok none) ∨
      ((∀ i, i < n → ¬ (b.lr.getD i 0 < a.ul.getD i 0 ∨ a.lr.getD i 0 < b.ul.getD i 0)) ∧
        intersection_loop a b n =
          .ok (some ((List.range n).map (fun i => max (a.ul.getD i 0) (b.ul.getD i 0)),
                     (List.range n).map (fun i => min (a.lr.getD i 0) (b.lr.getD i 0))))) := by
  intro n
  induction n with
  | zero =>
    intro _
    right
    exact ⟨fun i hi => absurd hi (Nat.not_lt_zero i), rfl⟩
  | succ n ih =>
    intro has
    have hsn : a.array_shape.getD n 0 = b.array_shape.getD n 0 := has n (Nat.lt_succ_self n)
    rcases ih (fun i hi => has i (Nat.lt_succ_of_lt hi)) with ⟨⟨i, hi, hap⟩, hl⟩ | ⟨hall, hl⟩
    · left
      refine ⟨⟨i, Nat.lt_succ_of_lt hi, hap⟩, ?_⟩
      unfold intersection_loop
      rw [hl]
    · unfold intersection_loop
      rw [hl]
      simp only [hsn, ne_eq, not_true_eq_false, if_false]
      by_cases h1 : b.lr.getD n 0 < a.ul.getD n 0
      · left
        exact ⟨⟨n, Nat.lt_succ_self n, Or.inl h1⟩, by rw [if_pos h1]⟩
      · by_cases h2 : a.lr.getD n 0 < b.ul.getD n 0
        · left
          exact ⟨⟨n, Nat.lt_succ_self n, Or.inr h2⟩, by rw [if_neg h1, if_pos h2]⟩
        · right
          refine ⟨?_, ?_⟩
          · intro i hi
            by_cases hin : i < n
            · exact hall i hin
            · have : i = n := by omega
              subst this
              exact fun h => h.elim h1 h2
          · rw [if_neg h1, if_neg h2]
            have hmax : (if a.ul.getD n 0 ≥ b.ul.getD n 0 then a.ul.getD n 0 else b.ul.getD n 0)
                = max (a.ul.getD n 0) (b.ul.getD n 0) := by
              split <;> omega
            have hmin : (if a.lr.getD n 0 < b.lr.getD n 0 then a.lr.getD n 0 else b.lr.getD n 0)
                = min (a.lr.getD n 0) (b.lr.getD n 0) := by
              split <;> omega
            rw [hmax, hmin]
            simp [List.range_succ]

/-- The result of `intersection` on two extents with equal array shapes. -/
theorem intersection_eq (a b : CExtent)
    (has : ∀ i, i < a.ndim → a.array_shape.getD i 0 = b.array_shape.getD i 0) :
    ((∀ i, i < a.ndim →
        max (a.ul.getD i 0) (b.ul.getD i 0) < min (a.lr.getD i 0) (b.lr.getD i 0)) →
      intersection (some a) (some b) =
        .ok (some
          { ndim := a.ndim, has_array_shape := true,
            ul := (List.range a.ndim).map (fun i => max (a.ul.getD i 0) (b.ul.getD i 0)),
            lr := (List.range a.ndim).map (fun i => min (a.lr.getD i 0) (b.lr.getD i 0)),
            shape := (List.range a.ndim).map
              (fun i => min (a.lr.getD i 0) (b.lr.getD i 0) - max (a.ul.getD i 0) (b.ul.getD i 0)),
            array_shape := (List.range a.ndim).map (fun i => a.array_shape.getD i 0),
            size := ((List.range a.ndim).map
              (fun i => min (a.lr.getD i 0) (b.lr.getD i 0)
                - max (a.ul.getD i 0) (b.ul.getD i 0))).prod % U64 })) ∧
    ((∃ i, i < a.ndim ∧
        ¬ max (a.ul.getD i 0) (b.ul.getD i 0) < min (a.lr.getD i 0) (b.lr.getD i 0)) →
      intersection (some a) (some b) = .ok none) := by
  rcases intersection_loop_eq a b a.ndim has with ⟨⟨i, hi, hap⟩, hl⟩ | ⟨hall, hl⟩
  · constructor
    · intro h
      have := h i hi
      rcases hap with h1 | h1 <;> omega
    · intro _
      simp only [intersection, hl]
  · have hU : ∀ i, i < a.ndim →
        ((List.range a.ndim).map (fun i => max (a.ul.getD i 0) (b.ul.getD i 0))).getD i 0
          = max (a.ul.getD i 0) (b.ul.getD i 0) :=
      fun i hi => getD_map_range _ _ i hi
    have hL : ∀ i, i < a.ndim →
        ((List.range a.ndim).map (fun i => min (a.lr.getD i 0) (b.lr.getD i 0))).getD i 0
          = min (a.lr.getD i 0) (b.lr.getD i 0) :=
      fun i hi => getD_map_range _ _ i hi
    rcases extent_create_eq
        ((List.range a.ndim).map (fun i => max (a.ul.getD i 0) (b.ul.getD i 0)))
        ((List.range a.ndim).map (fun i => min (a.lr.getD i 0) (b.lr.getD i 0)))
        (some a.array_shape) a.ndim with ⟨⟨i, hi, hge⟩, hnone⟩ | ⟨hlt, hsome⟩
    · rw [hU i hi, hL i hi] at hge
      constructor
      · intro h
        exact absurd (h i hi) (Nat.not_lt.2 hge)
      · intro _
        simp only [intersection, hl, hnone]
    · constructor
      · intro _
        have e1 := map_range_congr _ _ a.ndim hU
        have e2 := map_range_congr _ _ a.ndim hL
        have e3 := map_range_congr
          (fun i =>
            ((List.range a.ndim).map (fun i => min (a.lr.getD i 0) (b.lr.getD i 0))).getD i 0
            - ((List.range a.ndim).map (fun i => max (a.ul.getD i 0) (b.ul.getD i 0))).getD i 0)
          (fun i => min (a.lr.getD i 0) (b.lr.getD i 0) - max (a.ul.getD i 0) (b.ul.getD i 0))
          a.ndim (fun i hi => by dsimp only; rw [hU i hi, hL i hi])
        simp only [intersection, hl, hsome, Option.isSome_some]
        rw [e1, e2, e3]
      · rintro ⟨i, hi, hn⟩
        have := hlt i hi
        rw [hU i hi, hL i hi] at this
        exact absurd this hn

/-- Intersecting an extent made by `extent_create` (with an array shape) with itself gives the
extent back. -/
theorem intersection_self (ul lr ash : List Nat) (nd : Nat) (a : CExtent)
    (ha : extent_create ul lr (some ash) nd = some a) :
    intersection (some a) (some a) = .ok (some a) := by
  rcases extent_create_eq ul lr (some ash) nd with ⟨_, hnone⟩ | ⟨hlt, hsome⟩
  · rw [hnone] at ha
    exact absurd ha (by simp)
  · rw [hsome] at ha
    simp only [Option.some.injEq] at ha
    have hnd : a.ndim = nd := by rw [← ha]
    have hul : ∀ i, i < nd → a.ul.getD i 0 = ul.getD i 0 := by
      intro i hi; rw [← ha]; exact getD_map_range _ _ i hi
    have hlr : ∀ i, i < nd → a.lr.getD i 0 = lr.getD i 0 := by
      intro i hi; rw [← ha]; exact getD_map_range _ _ i hi
    have has : ∀ i, i < nd → a.array_shape.getD i 0 = ash.getD i 0 := by
      intro i hi; rw [← ha]; exact getD_map_range _ _ i hi
    have h1 := (intersection_eq a a (fun _ _ => rfl)).1 (by
      intro i hi
      rw [hnd] at hi
      rw [Nat.max_self, Nat.min_self, hul i hi, hlr i hi]
      exact hlt i hi)
    rw [h1, hnd]
    rw [map_range_congr (fun i => max (a.ul.getD i 0) (a.ul.getD i 0)) (fun i => ul.getD i 0) nd
        (fun i hi => by dsimp only; rw [Nat.max_self, hul i hi]),
      map_range_congr (fun i => min (a.lr.getD i 0) (a.lr.getD i 0)) (fun i => lr.getD i 0) nd
        (fun i hi => by dsimp only; rw [Nat.min_self, hlr i hi]),
      map_range_congr
        (fun i => min (a.lr.getD i 0) (a.lr.getD i 0) - max (a.ul.getD i 0) (a.ul.getD i 0))
        (fun i => lr.getD i 0 - ul.getD i 0) nd
        (fun i hi => by dsimp only; rw [Nat.max_self, Nat.min_self, hul i hi, hlr i hi]),
      map_range_congr (fun i => a.array_shape.getD i 0) (fun i => ash.getD i 0) nd has]
    rw [← ha]
    rfl

/-- C23 (intersection).  For extents `a`, `b` of the same `ndim` and the same array shape,
`intersection(a, b)` returns without failing its assertion; it returns an extent iff
`max(a.ul[i], b.ul[i]) < min(a.lr[i], b.lr[i])` in every dimension (so extents that only touch
give NULL), and then `ul[i]` is that maximum and `lr[i]` that minimum; `intersection(a, b)` and
`intersection(b, a)` are the same result; and `intersection(a, a)` is `a` for an extent made by
`extent_create`. -/
theorem intersection_spec (a b : CExtent) (hnd : a.ndim = b.ndim)
    (has : ∀ i, i < a.ndim → a.array_shape.getD i 0 = b.array_shape.getD i 0) :
    (∃ r, intersection (some a) (some b) = .ok r) ∧
    ((∃ ex, intersection (some a) (some b) = .ok (some ex)) ↔
      ∀ i, i < a.ndim →
        max (a.ul.getD i 0) (b.ul.getD i 0) < min (a.lr.getD i 0) (b.lr.getD i 0)) ∧
    (∀ ex, intersection (some a) (some b) = .ok (some ex) →
      ex.ndim = a.ndim ∧ ex.ul.length = a.ndim ∧ ex.lr.length = a.ndim ∧
      ∀ i, i < a.ndim →
        ex.ul.getD i 0 = max (a.ul.getD i 0) (b.ul.getD i 0) ∧
        ex.lr.getD i 0 = min (a.lr.getD i 0) (b.lr.getD i 0)) ∧
    ((∃ i, i < a.ndim ∧
        max (a.ul.getD i 0) (b.ul.getD i 0) = min (a.lr.getD i 0) (b.lr.getD i 0)) →
      intersection (some a) (some b) = .ok none) ∧
    intersection (some a) (some b) = intersection (some b) (some a) ∧
    (∀ ul lr ash nd, extent_create ul lr (some ash) nd = some a →
      intersection (some a) (some a) = .ok (some a)) := by
  obtain ⟨hyes, hno⟩ := intersection_eq a b has
  obtain ⟨hyes', hno'⟩ := intersection_eq b a
    (fun i hi => (has i (by rw [hnd]; exact hi)).symm)
  by_cases hall : ∀ i, i < a.ndim →
      max (a.ul.getD i 0) (b.ul.getD i 0) < min (a.lr.getD i 0) (b.lr.getD i 0)
  · have h1 := hyes hall
    have h2 := hyes' (by
      intro i hi
      rw [Nat.max_comm, Nat.min_comm]
      exact hall i (by rw [hnd]; exact hi))
    refine ⟨⟨_, h1⟩, ⟨fun _ => hall, fun _ => ⟨_, h1⟩⟩, ?_, ?_, ?_,
      fun ul lr ash nd ha => intersection_self ul lr ash nd a ha⟩
    · intro ex hex
      rw [h1] at hex
      simp only [Except.ok.injEq, Option.some.injEq] at hex
      subst hex
      refine ⟨rfl, by simp, by simp, ?_⟩
      intro i hi
      exact ⟨getD_map_range _ _ i hi, getD_map_range _ _ i hi⟩
    · rintro ⟨i, hi, heq⟩
      have := hall i hi
      omega
    · rw [h1, h2, ← hnd]
      rw [map_range_congr (fun i => max (b.ul.getD i 0) (a.ul.getD i 0))
          (fun i => max (a.ul.getD i 0) (b.ul.getD i 0)) a.ndim
          (fun i _ => Nat.max_comm _ _),
        map_range_congr (fun i => min (b.lr.getD i 0) (a.lr.getD i 0))
          (fun i => min (a.lr.getD i 0) (b.lr.getD i 0)) a.ndim
          (fun i _ => Nat.min_comm _ _),
        map_range_congr
          (fun i => min (b.lr.getD i 0) (a.lr.getD i 0) - max (b.ul.getD i 0) (a.ul.getD i 0))
          (fun i => min (a.lr.getD i 0) (b.lr.getD i 0) - max (a.ul.getD i 0) (b.ul.getD i 0))
          a.ndim (fun i _ => by dsimp only; rw [Nat.max_comm, Nat.min_comm]),
        map_range_congr (fun i => b.array_shape.getD i 0) (fun i => a.array_shape.getD i 0)
          a.ndim (fun i hi => (has i hi).symm)]
  · have hex : ∃ i, i < a.ndim ∧
        ¬ max (a.ul.getD i 0) (b.ul.getD i 0) < min (a.lr.getD i 0) (b.lr.getD i 0) := by
      by_contra hc
      apply hall
      intro i hi
      by_contra hn
      exact hc ⟨i, hi, hn⟩
    have h1 := hno hex
    have h2 := hno' (by
      obtain ⟨i, hi, hn⟩ := hex
      refine ⟨i, by rw [← hnd]; exact hi, ?_⟩
      rw [Nat.max_comm, Nat.min_comm]
      exact hn)
    refine ⟨⟨_, h1⟩, ⟨?_, fun h => absurd h hall⟩, ?_, fun _ => h1, by rw [h1, h2],
      fun ul lr ash nd ha => intersection_self ul lr ash nd a ha⟩
    · rintro ⟨ex, hex'⟩
      rw [h1] at hex'
      simp at hex'
    · intro ex hex'
      rw [h1] at hex'
      simp at hex'

/-- C23 witness: [0, 4) x [0, 4) and [2, 6) x [1, 3) in an 8 x 8 array meet in
[2, 4) x [1, 3), whichever is given first. -/
theorem intersection_spec_witness :
    intersection
      (some { ndim := 2, has_array_shape := true, ul := [0, 0], lr := [4, 4], shape := [4, 4],
              array_shape := [8, 8], size := 16 })
      (some { ndim := 2, has_array_shape := true, ul := [2, 1], lr := [6, 3], shape := [4, 2],
              array_shape := [8, 8], size := 8 }) =
    intersection
      (some { ndim := 2, has_array_shape := true, ul := [2, 1], lr := [6, 3], shape := [4, 2],
              array_shape := [8, 8], size := 8 })
      (some { ndim := 2, has_array_shape := true, ul := [0, 0], lr := [4, 4], shape := [4, 4],
              array_shape := [8, 8], size := 16 }) ∧
    intersection
      (some { ndim := 2, has_array_shape := true, ul := [0, 0], lr := [4, 4], shape := [4, 4],
              array_shape := [8, 8], size := 16 })
      (some { ndim := 2, has_array_shape := true, ul := [2, 1], lr := [6, 3], shape := [4, 2],
              array_shape := [8, 8], size := 8 }) =
      .ok (some { ndim := 2, has_array_shape := true, ul := [2, 1], lr := [4, 3],
                  shape := [2, 2], array_shape := [8, 8], size := 4 }) :=
  ⟨(intersection_spec
      { ndim := 2, has_array_shape := true, ul := [0, 0], lr := [4, 4], shape := [4, 4],
        array_shape := [8, 8], size := 16 }
      { ndim := 2, has_array_shape := true, ul := [2, 1], lr := [6, 3], shape := [4, 2],
        array_shape := [8, 8], size := 8 } rfl (by decide)).2.2.2.2.1,
   rfl⟩

/-! ## Theorems: get on a local shard -/

theorem ShardT.length_set_absent {K V : Type} [DecidableEq K] (s : ShardT K V) (k : K) (v : V)
    (h : ShardT.find s k = none) : (ShardT.set s k v).length = s.length + 1 := by
  induction s with
  | nil => simp [ShardT.set]
  | cons e rest ih =>
    obtain ⟨k1, v1⟩ := e
    unfold ShardT.find at h
    by_cases hk : k1 = k
    · simp [hk] at h
    · simp only [hk, if_false] at h
      simp [ShardT.set, hk, ih h]

theorem Table.get_remote_shards {K V : Type} [DecidableEq K] (env : TableEnv K V)
    (t : Table K V) (shard : Nat) (k : K) (v : V) (r : Bool × V × Table K V × List (GetCall K))
    (h : Table.get_remote env t shard k v = .ok r) : r.2.2.1.shards_ = t.shards_ := by
  unfold Table.get_remote at h
  cases hc : t.cache_find k with
  | some c =>
    simp only [hc, Except.ok.injEq] at h
    rw [← h]
  | none =>
    cases hh : t.helper_ with
    | none => simp [hc, hh] at h
    | some hp =>
      simp only [hc, hh] at h
      split at h
      · simp only [Except.ok.injEq] at h
        rw [← h]
      · split at h
        · simp at h
        · simp only [Except.ok.injEq] at h
          rw [← h]

/-- C24 (get inserts an absent key).  On a local, untainted shard (index in range): get of an
absent key returns the default value and leaves `(k, default)` in the shard, which grows by one
entry, so contains(k) is true afterwards, the other shards being untouched; get of a present key
returns its value and leaves the table as it is; contains returns whether the key is present
and leaves the table as it is.  On any untainted shard, local or not, contains leaves all
shards as they are. -/
theorem get_inserts_absent_key {K V : Type} [DecidableEq K] [Inhabited V] (env : TableEnv K V)
    (fuel : Nat) (t : Table K V) (k : K)
    (hrange : t.shard_for_key env k < t.num_shards)
    (hlocal : t.is_local_shard (t.shard_for_key env k) = true)
    (hclean : t.tainted (t.shard_for_key env k) = false) :
    ((t.typed_shard (t.shard_for_key env k)).find k = none →
      ∃ t1, t.get env fuel k = .ok (default, t1, []) ∧
        t1.typed_shard (t.shard_for_key env k)
          = ShardT.set (t.typed_shard (t.shard_for_key env k)) k default ∧
        (t1.typed_shard (t.shard_for_key env k)).find k = some default ∧
        (t1.typed_shard (t.shard_for_key env k)).length
          = (t.typed_shard (t.shard_for_key env k)).length + 1 ∧
        (∀ j, j ≠ t.shard_for_key env k → t1.typed_shard j = t.typed_shard j) ∧
        t1.contains env fuel k = .ok (true, t1, [])) ∧
    (∀ u, (t.typed_shard (t.shard_for_key env k)).find k = some u →
      t.get env fuel k = .ok (u, t, [])) ∧
    t.contains env fuel k
      = .ok (((t.typed_shard (t.shard_for_key env k)).find k).isSome, t, []) ∧
    (∀ (t' : Table K V) (k' : K) r, t'.tainted (t'.shard_for_key env k') = false →
      t'.contains env fuel k' = .ok r → r.2.1.shards_ = t'.shards_) := by
  have hcontains : ∀ t0 : Table K V, t0.is_local_shard (t0.shard_for_key env k) = true →
      t0.tainted (t0.shard_for_key env k) = false →
      t0.contains env fuel k
        = .ok (((t0.typed_shard (t0.shard_for_key env k)).find k).isSome, t0, []) := by
    intro t0 hl hc
    unfold Table.contains
    simp only [Table.wait_untainted_clean env fuel t0 _ hc, hl, if_true]
  refine ⟨?_, fun u hu => Table.get_local_present env fuel t k u hlocal hclean hu,
    hcontains t hlocal hclean, ?_⟩
  · intro habs
    obtain ⟨hp, hh⟩ : ∃ hp, t.helper_ = some hp := by
      cases hh : t.helper_ with
      | none => simp [Table.is_local_shard, hh] at hlocal
      | some hp => exact ⟨hp, rfl⟩
    obtain ⟨t1, ht1⟩ : ∃ t1 : Table K V, t1 = t.set_shard (t.shard_for_key env k)
        (ShardT.set (t.typed_shard (t.shard_for_key env k)) k default) := ⟨_, rfl⟩
    have hlen : t.shard_for_key env k < t.shards_.length := hrange
    have hs1 : t1.typed_shard (t.shard_for_key env k)
        = ShardT.set (t.typed_shard (t.shard_for_key env k)) k default := by
      rw [ht1]; exact Table.typed_shard_set_shard_self t _ _ hlen
    have hroute : t1.shard_for_key env k = t.shard_for_key env k := by
      rw [ht1]; simp [Table.shard_for_key, Table.num_shards, Table.set_shard]
    have hfind : (t1.typed_shard (t.shard_for_key env k)).find k = some default := by
      rw [hs1]; exact ShardT.find_set_self _ _ _
    refine ⟨t1, ?_, hs1, hfind, ?_, ?_, ?_⟩
    · rw [ht1]
      unfold Table.get
      simp only [Table.wait_untainted_clean env fuel t _ hclean, hh, hlocal, if_true,
        ShardT.index, habs]
    · rw [hs1]
      exact ShardT.length_set_absent _ _ _ habs
    · intro j hj
      rw [ht1]
      exact Table.typed_shard_set_shard_ne t _ j _ hj
    · have h := hcontains t1 (by rw [hroute, ht1]; exact hlocal)
        (by rw [hroute, ht1]; exact hclean)
      rw [hroute, hfind] at h
      exact h
  · intro t' k' r hc hr
    unfold Table.contains at hr
    simp only [Table.wait_untainted_clean env fuel t' _ hc] at hr
    split at hr
    · simp only [Except.ok.injEq] at hr
      rw [← hr]
    · cases hg : t'.get_remote env (t'.shard_for_key env k') k' env.fresh with
      | error e => simp [hg] at hr
      | ok q =>
        have := Table.get_remote_shards env t' _ k' env.fresh q hg
        obtain ⟨flag, v, t2, calls⟩ := q
        simp only [hg, Except.ok.injEq] at hr
        rw [← hr]
        exact this

/-- C24 witness: key 7 is absent from the local shard 1 of worker 0; get(7) returns the default
0 and the shard then holds the entry 7 -> 0. -/
theorem get_inserts_absent_key_witness :
    ∃ t1, (tableOf 0 0 [0, 0, 0]).get (quietEnv Replace.accumulate) 0 7 = .ok (0, t1, []) ∧
      t1.typed_shard 1 = [(7, 0)] ∧
      t1.contains (quietEnv Replace.accumulate) 0 7 = .ok (true, t1, []) := by
  obtain ⟨t1, h1, h2, _, _, _, h6⟩ :=
    (get_inserts_absent_key (quietEnv Replace.accumulate) 0 (tableOf 0 0 [0, 0, 0]) 7
      (by decide) (by decide) (by decide)).1 (by decide)
  exact ⟨t1, h1, h2, h6⟩

/-! ## Theorems: ravelled_pos -/

theorem rowMajorIndex_succ (idx shape : List Nat) (n : Nat) :
    rowMajorIndex idx shape (n + 1)
      = rowMajorIndex idx shape n * shape.getD n 0 + idx.getD n 0 := by
  unfold rowMajorIndex
  rw [Finset.sum_range_succ, Finset.sum_mul]
  congr 1
  · apply Finset.sum_congr rfl
    intro i hi
    have hin : i + 1 ≤ n := Finset.mem_range.1 hi
    rw [Finset.prod_Ico_succ_top hin, Nat.mul_assoc]
  · simp

theorem ravelled_pos_loop_eq (idx shape : List Nat) :
    ∀ (n rpos mul : Nat), rpos < U32 →
      ravelled_pos_loop idx shape n rpos mul
        = (rpos + mul * rowMajorIndex idx shape n) % U32 := by
  intro n
  induction n with
  | zero =>
    intro rpos mul h
    simp [ravelled_pos_loop, rowMajorIndex, Nat.mod_eq_of_lt h]
  | succ n ih =>
    intro rpos mul _
    unfold ravelled_pos_loop
    rw [ih _ _ (Nat.mod_lt _ (by decide)), rowMajorIndex_succ]
    have e : rpos + mul * (rowMajorIndex idx shape n * shape.getD n 0 + idx.getD n 0)
        = (rpos + mul * idx.getD n 0) + (mul * shape.getD n 0) * rowMajorIndex idx shape n := by
      ring
    rw [e]
    conv_rhs => rw [Nat.add_mod, Nat.mul_mod]
    conv_lhs => rw [Nat.add_mod, Nat.mul_mod, Nat.mod_mod, Nat.mod_mod]

/-- C25 (ravelled_pos is 32-bit).  `ravelled_pos(idx, shape, ndim)` is the row-major linear
index (the sum over `i` of `idx[i]` times the product of `shape[j]` for `j > i`) modulo 2^32, so
it is that index exactly iff the index is below 2^32; for `idx = [1, 0]` in a shape
`[2, 2^32]` the index is 2^32 and the result is 0. -/
theorem ravelled_pos_mod (idx shape : List Nat) (ndim : Nat) :
    ravelled_pos idx shape ndim = rowMajorIndex idx shape ndim % 2 ^ 32 ∧
    (ravelled_pos idx shape ndim = rowMajorIndex idx shape ndim ↔
      rowMajorIndex idx shape ndim < 2 ^ 32) ∧
    ravelled_pos [1, 0] [2, 4294967296] 2 = 0 ∧
    rowMajorIndex [1, 0] [2, 4294967296] 2 = 4294967296 := by
  have h : ravelled_pos idx shape ndim = rowMajorIndex idx shape ndim % 2 ^ 32 := by
    unfold ravelled_pos
    rw [ravelled_pos_loop_eq idx shape ndim 0 1 (by decide)]
    simp [U32]
  refine ⟨h, ?_, by decide, ?_⟩
  · rw [h]
    constructor
    · intro e
      rw [← e]
      exact Nat.mod_lt _ (by decide)
    · intro hlt
      exact Nat.mod_eq_of_lt hlt
  · simp [rowMajorIndex, Finset.sum_range_succ]

/-! ## Theorems: add_dim and drop_axis -/

theorem getD_range_snoc_lt (f : Nat → Nat) (n x i : Nat) (h : i < n) :
    ((List.range n).map f ++ [x]).getD i 0 = f i := by
  rw [List.getD_eq_getElem?_getD, List.getElem?_append_left (by simpa using h),
    List.getElem?_map, List.getElem?_range h]
  rfl

theorem getD_range_snoc_eq (f : Nat → Nat) (n x : Nat) :
    ((List.range n).map f ++ [x]).getD n 0 = x := by
  rw [List.getD_eq_getElem?_getD, List.getElem?_append_right (by simp)]
  simp

/-- `extent_create` reads only the first `ndim` entries of its arrays. -/
theorem extent_create_congr (ul lr ash ul' lr' ash' : List Nat) (ndim : Nat)
    (hul : ∀ i, i < ndim → ul.getD i 0 = ul'.getD i 0)
    (hlr : ∀ i, i < ndim → lr.getD i 0 = lr'.getD i 0)
    (has : ∀ i, i < ndim → ash.getD i 0 = ash'.getD i 0) :
    extent_create ul lr (some ash) ndim = extent_create ul' lr' (some ash') ndim := by
  rcases extent_create_eq ul lr (some ash) ndim with ⟨⟨i, hi, hge⟩, h1⟩ | ⟨hlt, h1⟩
  · rcases extent_create_eq ul' lr' (some ash') ndim with ⟨_, h2⟩ | ⟨hlt', _⟩
    · rw [h1, h2]
    · have := hlt' i hi
      rw [← hul i hi, ← hlr i hi] at this
      exact absurd this (Nat.not_lt.2 hge)
  · rcases extent_create_eq ul' lr' (some ash') ndim with ⟨⟨i, hi, hge⟩, _⟩ | ⟨_, h2⟩
    · have := hlt i hi
      rw [hul i hi, hlr i hi] at this
      exact absurd this (Nat.not_lt.2 hge)
    · rw [h1, h2]
      rw [map_range_congr (fun i => ul.getD i 0) (fun i => ul'.getD i 0) ndim hul,
        map_range_congr (fun i => lr.getD i 0) (fun i => lr'.getD i 0) ndim hlr,
        map_range_congr (fun i => lr.getD i 0 - ul.getD i 0)
          (fun i => lr'.getD i 0 - ul'.getD i 0) ndim
          (fun i hi => by dsimp only; rw [hul i hi, hlr i hi])]
      simp only [Option.isSome_some]
      rw [map_range_congr (fun i => ash.getD i 0) (fun i => ash'.getD i 0) ndim has]

/-- What `add_dim` returns for an extent made by `extent_create` with an array shape. -/
theorem CExtent.add_dim_eq (MAX_NDIM : Nat) (ul lr ash : List Nat) (nd : Nat) (e : CExtent)
    (he : extent_create ul lr (some ash) nd = some e) (hmax : nd < MAX_NDIM) :
    ∃ e1, e.add_dim MAX_NDIM = .ok (some e1) ∧ e1.ndim = nd + 1 ∧
      (∀ i, i < nd → e1.ul.getD i 0 = ul.getD i 0 ∧ e1.lr.getD i 0 = lr.getD i 0 ∧
        e1.array_shape.getD i 0 = ash.getD i 0) ∧
      e1.ul.getD nd 0 = 0 ∧ e1.lr.getD nd 0 = 1 ∧ e1.array_shape.getD nd 0 = 1 ∧
      e1.shape.getD nd 0 = 1 ∧ e1.size = e.size := by
  rcases extent_create_eq ul lr (some ash) nd with ⟨_, hnone⟩ | ⟨hlt, hsome⟩
  · rw [hnone] at he
    exact absurd he (by simp)
  · rw [hsome] at he
    simp only [Option.some.injEq] at he
    have hnd : e.ndim = nd := by rw [← he]
    have hul : (List.range e.ndim).map (fun i => e.ul.getD i 0)
        = (List.range nd).map (fun i => ul.getD i 0) := by
      rw [hnd]
      exact map_range_congr _ _ nd (fun i hi => by rw [← he]; exact getD_map_range _ _ i hi)
    have hlr : (List.range e.ndim).map (fun i => e.lr.getD i 0)
        = (List.range nd).map (fun i => lr.getD i 0) := by
      rw [hnd]
      exact map_range_congr _ _ nd (fun i hi => by rw [← he]; exact getD_map_range _ _ i hi)
    have has : (List.range e.ndim).map (fun i => e.array_shape.getD i 0)
        = (List.range nd).map (fun i => ash.getD i 0) := by
      rw [hnd]
      exact map_range_congr _ _ nd (fun i hi => by rw [← he]; exact getD_map_range _ _ i hi)
    have hadd : e.add_dim MAX_NDIM = .ok (extent_create
        ((List.range nd).map (fun i => ul.getD i 0) ++ [0])
        ((List.range nd).map (fun i => lr.getD i 0) ++ [1])
        (some ((List.range nd).map (fun i => ash.getD i 0) ++ [1])) (nd + 1)) := by
      unfold CExtent.add_dim
      rw [hul, hlr, has, hnd, if_neg (Nat.not_le.2 hmax)]
    rcases extent_create_eq
        ((List.range nd).map (fun i => ul.getD i 0) ++ [0])
        ((List.range nd).map (fun i => lr.getD i 0) ++ [1])
        (some ((List.range nd).map (fun i => ash.getD i 0) ++ [1])) (nd + 1)
      with ⟨⟨i, hi, hge⟩, _⟩ | ⟨_, hsome1⟩
    · exfalso
      by_cases hin : i < nd
      · rw [getD_range_snoc_lt _ nd 0 i hin, getD_range_snoc_lt _ nd 1 i hin] at hge
        exact absurd (hlt i hin) (Nat.not_lt.2 hge)
      · have : i = nd := by omega
        subst this
        rw [getD_range_snoc_eq, getD_range_snoc_eq] at hge
        omega
    · rw [hsome1] at hadd
      refine ⟨_, hadd, rfl, ?_, ?_, ?_, ?_, ?_, ?_⟩
      · intro i hi
        have hi' : i < nd + 1 := Nat.lt_succ_of_lt hi
        refine ⟨?_, ?_, ?_⟩
        · show ((List.range (nd + 1)).map _).getD i 0 = _
          rw [getD_map_range _ _ i hi', getD_range_snoc_lt _ nd 0 i hi]
        · show ((List.range (nd + 1)).map _).getD i 0 = _
          rw [getD_map_range _ _ i hi', getD_range_snoc_lt _ nd 1 i hi]
        · show ((List.range (nd + 1)).map _).getD i 0 = _
          rw [getD_map_range _ _ i hi', getD_range_snoc_lt _ nd 1 i hi]
      · show ((List.range (nd + 1)).map _).getD nd 0 = _
        rw [getD_map_range _ _ nd (Nat.lt_succ_self nd), getD_range_snoc_eq]
      · show ((List.range (nd + 1)).map _).getD nd 0 = _
        rw [getD_map_range _ _ nd (Nat.lt_succ_self nd), getD_range_snoc_eq]
      · show ((List.range (nd + 1)).map _).getD nd 0 = _
        rw [getD_map_range _ _ nd (Nat.lt_succ_self nd), getD_range_snoc_eq]
      · show ((List.range (nd + 1)).map _).getD nd 0 = _
        rw [getD_map_range _ _ nd (Nat.lt_succ_self nd), getD_range_snoc_eq,
          getD_range_snoc_eq]
      · show ((List.range (nd + 1)).map _).prod % U64 = e.size
        rw [← he]
        show _ = ((List.range nd).map (fun i => lr.getD i 0 - ul.getD i 0)).prod % U64
        rw [List.range_succ, List.map_append, List.prod_append]
        simp only [List.map_cons, List.map_nil, List.prod_cons, List.prod_nil,
          getD_range_snoc_eq, Nat.mul_one]
        rw [map_range_congr _ (fun i => lr.getD i 0 - ul.getD i 0) nd
          (fun i hi => by
            dsimp only
            rw [getD_range_snoc_lt _ nd 0 i hi, getD_range_snoc_lt _ nd 1 i hi])]
        rw [Nat.sub_zero, Nat.mul_one]

/-- Dropping the last axis (given as -1 or by its index) of an extent with `nd + 1` dimensions
calls `extent_create` on its first `nd` dimensions. -/
theorem drop_axis_last (MAX_NDIM : Nat) (ul lr ash : List Nat) (nd : Nat) (e1 : CExtent)
    (axis : Int) (hax : axis = -1 ∨ axis = (nd : Int))
    (hnd : e1.ndim = nd + 1) (hmax : nd < MAX_NDIM)
    (h : ∀ i, i < nd → e1.ul.getD i 0 = ul.getD i 0 ∧ e1.lr.getD i 0 = lr.getD i 0 ∧
      e1.array_shape.getD i 0 = ash.getD i 0) :
    drop_axis MAX_NDIM e1 axis = .ok (extent_create ul lr (some ash) nd) := by
  have hax1 : (if axis < 0 then (e1.ndim : Int) + axis else axis) = (nd : Int) := by
    rcases hax with h1 | h1
    · subst h1
      rw [hnd]
      simp
    · subst h1
      have : ¬ ((nd : Int) < 0) := by omega
      rw [if_neg this]
  have hcond : ¬ (e1.ndim = 0 ∨ (nd : Int) < 0 ∨ (nd : Int) > (MAX_NDIM : Int)) := by
    rw [hnd]
    omega
  unfold drop_axis
  simp only [hax1, hcond, if_false, Int.toNat_ofNat]
  have hsub : e1.ndim - 1 = nd := by omega
  rw [hsub]
  congr 1
  apply extent_create_congr
  · intro i hi
    unfold drop_axis_copy
    rw [getD_map_range _ _ i hi, if_pos hi]
    exact (h i hi).1
  · intro i hi
    unfold drop_axis_copy
    rw [getD_map_range _ _ i hi, if_pos hi]
    exact (h i hi).2.1
  · intro i hi
    unfold drop_axis_copy
    rw [getD_map_range _ _ i hi, if_pos hi]
    exact (h i hi).2.2

/-- C26 (drop_axis undoes add_dim).  For an extent `e` made by `extent_create` with an array
shape and `ndim < MAX_NDIM`, `add_dim(e)` is an extent with `ndim + 1` dimensions, the first
`ndim` as in `e`, the last one equal to [0, 1) of array extent 1 and shape 1, and the same size
as `e`; `drop_axis` of it, with axis -1 or with axis `e.ndim`, returns `e` (all fields). -/
theorem drop_axis_add_dim (MAX_NDIM : Nat) (ul lr ash : List Nat) (nd : Nat) (e : CExtent)
    (he : extent_create ul lr (some ash) nd = some e) (hmax : nd < MAX_NDIM) :
    ∃ e1, e.add_dim MAX_NDIM = .ok (some e1) ∧
      e1.ndim = e.ndim + 1 ∧
      (∀ i, i < e.ndim → e1.ul.getD i 0 = e.ul.getD i 0 ∧ e1.lr.getD i 0 = e.lr.getD i 0 ∧
        e1.array_shape.getD i 0 = e.array_shape.getD i 0) ∧
      e1.ul.getD e.ndim 0 = 0 ∧ e1.lr.getD e.ndim 0 = 1 ∧
      e1.array_shape.getD e.ndim 0 = 1 ∧ e1.shape.getD e.ndim 0 = 1 ∧
      e1.size = e.size ∧
      drop_axis MAX_NDIM e1 (-1) = .ok (some e) ∧
      drop_axis MAX_NDIM e1 (e.ndim : Int) = .ok (some e) := by
  obtain ⟨e1, h1, h2, h3, h4, h5, h6, h7, h8⟩ :=
    CExtent.add_dim_eq MAX_NDIM ul lr ash nd e he hmax
  have hnd : e.ndim = nd := by
    rcases extent_create_eq ul lr (some ash) nd with ⟨_, hnone⟩ | ⟨_, hsome⟩
    · rw [hnone] at he
      exact absurd he (by simp)
    · rw [hsome] at he
      simp only [Option.some.injEq] at he
      rw [← he]
  have hget : ∀ i, i < nd → e.ul.getD i 0 = ul.getD i 0 ∧ e.lr.getD i 0 = lr.getD i 0 ∧
      e.array_shape.getD i 0 = ash.getD i 0 := by
    intro i hi
    rcases extent_create_eq ul lr (some ash) nd with ⟨_, hnone⟩ | ⟨_, hsome⟩
    · rw [hnone] at he
      exact absurd he (by simp)
    · rw [hsome] at he
      simp only [Option.some.injEq] at he
      rw [← he]
      exact ⟨getD_map_range _ _ i hi, getD_map_range _ _ i hi, getD_map_range _ _ i hi⟩
  rw [hnd]
  refine ⟨e1, h1, h2, ?_, h4, h5, h6, h7, h8, ?_, ?_⟩
  · intro i hi
    obtain ⟨a1, a2, a3⟩ := h3 i hi
    obtain ⟨b1, b2, b3⟩ := hget i hi
    exact ⟨by rw [a1, b1], by rw [a2, b2], by rw [a3, b3]⟩
  · rw [drop_axis_last MAX_NDIM ul lr ash nd e1 (-1) (Or.inl rfl) h2 hmax h3, he]
  · rw [drop_axis_last MAX_NDIM ul lr ash nd e1 (nd : Int) (Or.inr rfl) h2 hmax h3, he]

/-- C26 witness: the 2 x 3 extent [1, 3) x [2, 5) of a 4 x 5 array, with `MAX_NDIM = 4`. -/
theorem drop_axis_add_dim_witness :
    ∃ e1, CExtent.add_dim 4
        { ndim := 2, has_array_shape := true, ul := [1, 2], lr := [3, 5], shape := [2, 3],
          array_shape := [4, 5], size := 6 } = .ok (some e1) ∧
      e1.size = 6 ∧
      drop_axis 4 e1 (-1) =
        .ok (some { ndim := 2, has_array_shape := true, ul := [1, 2], lr := [3, 5],
                    shape := [2, 3], array_shape := [4, 5], size := 6 }) := by
  obtain ⟨e1, h1, _, _, _, _, _, _, h8, h9, _⟩ :=
    drop_axis_add_dim 4 [1, 2] [3, 5] [4, 5] 2
      { ndim := 2, has_array_shape := true, ul := [1, 2], lr := [3, 5], shape := [2, 3],
        array_shape := [4, 5], size := 6 } (by decide) (by decide)
  exact ⟨e1, h1, h8, h9⟩

/-! ## Theorems: from_slice -/

theorem from_slice_loop_error (idx : List Slice) (shape : List Nat) :
    ∀ n e, from_slice_loop idx shape n = .error e → e = Abort.assertion := by
  intro n
  induction n with
  | zero => intro e h; simp [from_slice_loop] at h
  | succ n ih =>
    intro e h
    unfold from_slice_loop at h
    cases hl : from_slice_loop idx shape n with
    | error e' =>
      rw [hl] at h
      simp only [Except.error.injEq] at h
      rw [← h]
      exact ih e' hl
    | ok r =>
      obtain ⟨ul, lr⟩ := r
      rw [hl] at h
      simp only at h
      split at h
      · simp only [Except.error.injEq] at h
        exact h.symm
      · split at h
        · simp only [Except.error.injEq] at h
          exact h.symm
        · simp at h

theorem from_slice_loop_bad (idx : List Slice) (shape : List Nat) :
    ∀ n, (∃ i, i < n ∧ (toU64 (idx.getD i default).start ≥ shape.getD i 0 ∨
        toU64 (idx.getD i default).stop ≥ shape.getD i 0)) →
      from_slice_loop idx shape n = .error Abort.assertion := by
  intro n
  induction n with
  | zero => rintro ⟨i, hi, _⟩; exact absurd hi (Nat.not_lt_zero i)
  | succ n ih =>
    rintro ⟨i, hi, hbad⟩
    by_cases hin : i < n
    · unfold from_slice_loop
      rw [ih ⟨i, hin, hbad⟩]
    · have : i = n := by omega
      subst this
      cases hl : from_slice_loop idx shape i with
      | error e =>
        have he := from_slice_loop_error idx shape i e hl
        subst he
        unfold from_slice_loop
        rw [hl]
      | ok r =>
        obtain ⟨ul, lr⟩ := r
        unfold from_slice_loop
        rw [hl]
        simp only
        by_cases h1 : toU64 (idx.getD i default).start ≥ shape.getD i 0
        · rw [if_pos h1]
        · rw [if_neg h1]
          have h2 : toU64 (idx.getD i default).stop ≥ shape.getD i 0 := hbad.resolve_left h1
          rw [if_pos h2]

theorem toU64_of_nonneg (x : Int) (h0 : 0 ≤ x) (h1 : x < 9223372036854775808) :
    toU64 x = x.toNat := by
  unfold toU64 U64
  rw [Int.emod_eq_of_lt h0 (by push_cast; omega)]

theorem from_slice_loop_good (idx : List Slice) (shape : List Nat) :
    ∀ n, (∀ i, i < n → 0 ≤ (idx.getD i default).start ∧
        (idx.getD i default).start < (idx.getD i default).stop ∧
        (idx.getD i default).stop < (shape.getD i 0 : Int) ∧
        (idx.getD i default).stop < 9223372036854775808) →
      from_slice_loop idx shape n =
        .ok ((List.range n).map (fun i => (idx.getD i default).start.toNat),
             (List.range n).map (fun i => (idx.getD i default).stop.toNat)) := by
  intro n
  induction n with
  | zero => intro _; rfl
  | succ n ih =>
    intro h
    obtain ⟨h0, h1, h2, h3⟩ := h n (Nat.lt_succ_self n)
    have e1 : toU64 (idx.getD n default).start = (idx.getD n default).start.toNat :=
      toU64_of_nonneg _ h0 (by omega)
    have e2 : toU64 (idx.getD n default).stop = (idx.getD n default).stop.toNat :=
      toU64_of_nonneg _ (by omega) h3
    have g1 : ¬ (toU64 (idx.getD n default).start ≥ shape.getD n 0) := by
      rw [e1]; omega
    have g2 : ¬ (toU64 (idx.getD n default).stop ≥ shape.getD n 0) := by
      rw [e2]; omega
    have n1 : ¬ ((idx.getD n default).start < 0) := by omega
    have n2 : ¬ ((idx.getD n default).stop < 0) := by omega
    unfold from_slice_loop
    rw [ih (fun i hi => h i (Nat.lt_succ_of_lt hi))]
    rw [e1] at g1
    rw [e2] at g2
    simp only [n1, n2, if_false, e1, e2]
    rw [if_neg g1, if_neg g2]
    simp [List.range_succ]

/-- C27 (from_slice rejects a slice that reaches the end).  If some slice has
`stop >= shape[i]`, `from_slice` fails its assertion; so it does for every slice list that
`is_complete` accepts (`ndim >= 1`).  For slices with `0 <= start < stop < shape[i]` in every
dimension it returns the extent with `ul = start` and `lr = stop`.  (`stop` is a `long long`:
below 2^63.) -/
theorem from_slice_rejects_end (idx : List Slice) (shape : List Nat) (ndim : Nat) :
    ((∃ i, i < ndim ∧ (shape.getD i 0 : Int) ≤ (idx.getD i default).stop ∧
        (idx.getD i default).stop < 9223372036854775808) →
      from_slice idx shape ndim = .error Abort.assertion) ∧
    (1 ≤ ndim → is_complete shape ndim idx = true →
      from_slice idx shape ndim = .error Abort.assertion) ∧
    ((∀ i, i < ndim → 0 ≤ (idx.getD i default).start ∧
        (idx.getD i default).start < (idx.getD i default).stop ∧
        (idx.getD i default).stop < (shape.getD i 0 : Int) ∧
        (idx.getD i default).stop < 9223372036854775808) →
      ∃ ex, from_slice idx shape ndim = .ok (some ex) ∧ ex.ndim = ndim ∧
        ex.ul.length = ndim ∧ ex.lr.length = ndim ∧
        ∀ i, i < ndim → (ex.ul.getD i 0 : Int) = (idx.getD i default).start ∧
          (ex.lr.getD i 0 : Int) = (idx.getD i default).stop) := by
  refine ⟨?_, ?_, ?_⟩
  · rintro ⟨i, hi, hge, hll⟩
    have e2 : toU64 (idx.getD i default).stop = (idx.getD i default).stop.toNat :=
      toU64_of_nonneg _ (by omega) hll
    have hbad : toU64 (idx.getD i default).stop ≥ shape.getD i 0 := by
      rw [e2]; omega
    unfold from_slice
    rw [from_slice_loop_bad idx shape ndim ⟨i, hi, Or.inr hbad⟩]
  · intro hnd hc
    unfold is_complete at hc
    rw [List.all_eq_true] at hc
    have h0 := hc 0 (List.mem_range.2 hnd)
    simp only [Bool.and_eq_true, beq_iff_eq] at h0
    unfold from_slice
    rw [from_slice_loop_bad idx shape ndim ⟨0, hnd, Or.inr (by rw [h0.2])⟩]
  · intro h
    unfold from_slice
    rw [from_slice_loop_good idx shape ndim h]
    simp only
    rcases extent_create_eq
        ((List.range ndim).map (fun i => (idx.getD i default).start.toNat))
        ((List.range ndim).map (fun i => (idx.getD i default).stop.toNat))
        (some shape) ndim with ⟨⟨i, hi, hge⟩, _⟩ | ⟨_, hsome⟩
    · exfalso
      rw [getD_map_range _ _ i hi, getD_map_range _ _ i hi] at hge
      obtain ⟨h0, h1, _, _⟩ := h i hi
      omega
    · rw [hsome]
      refine ⟨_, rfl, rfl, by simp, by simp, ?_⟩
      intro i hi
      obtain ⟨h0, h1, _, _⟩ := h i hi
      constructor
      · show ((((List.range ndim).map _).getD i 0 : Nat) : Int) = _
        rw [getD_map_range _ _ i hi, getD_map_range _ _ i hi]
        omega
      · show ((((List.range ndim).map _).getD i 0 : Nat) : Int) = _
        rw [getD_map_range _ _ i hi, getD_map_range _ _ i hi]
        omega

/-- C27 witness: in a shape [4, 6], the complete slices [0, 4) x [0, 6) fail the assertion,
and the slices [1, 3) x [2, 5) give the extent [1, 3) x [2, 5). -/
theorem from_slice_rejects_end_witness :
    from_slice [{ start := 0, stop := 4, step := 1 }, { start := 0, stop := 6, step := 1 }]
      [4, 6] 2 = .error Abort.assertion ∧
    from_slice [{ start := 1, stop := 3, step := 1 }, { start := 2, stop := 5, step := 1 }]
      [4, 6] 2 =
      .ok (some { ndim := 2, has_array_shape := true, ul := [1, 2], lr := [3, 5],
                  shape := [2, 3], array_shape := [4, 6], size := 6 }) :=
  ⟨(from_slice_rejects_end
      [{ start := 0, stop := 4, step := 1 }, { start := 0, stop := 6, step := 1 }] [4, 6] 2).2.1
      (by decide) (by decide),
   rfl⟩

end Spartan
